import Mathlib

/-!
# Verification of `jp::ordered_set` (src/include/jp/ordered_set.hpp)

Shallow embedding of the red-black order-statistics tree from
`src/include/jp/ordered_set.hpp`.  Conventions:

* The template is instantiated at `Key = Int` with `Cmp_Fn = std::less<Int>`,
  i.e. the comparison `CMP(a,b)` is `a < b`; `equal` (line 431) is
  `¬a<b ∧ ¬b<a`, which on `Int` is `a = b`, and `not_equal` (line 437) is
  `a ≠ b`.
* The pointer graph of `node` objects (fields `size`, `left`, `right`,
  `parent`, `key`, `color`, lines 51-63) is embedded as an inductive tree
  whose nodes store `size` and `color` exactly as fields; the sentinel
  `m_nil` is the constructor `Tree.nil`.  Parent pointers are represented
  explicitly: a node's chain of ancestors is a list of `Frame`s (the
  standard zipper), so "a node pointer" becomes "a subtree plus the path of
  frames up to the root".  The sentinel's self-loops (`m_nil->left == m_nil`
  etc., lines 231-233) correspond to `Tree.nil` having no fields.
* `size_t` arithmetic is modelled with `Nat`; the source's
  `updateSize(.., -1)` relies on wrap-around of `+= (size_t)(-1)` which is
  an exact decrement, modelled as truncated subtraction (no subtraction in
  the algorithms underflows on trees satisfying the size invariant).
* `RED = 0 = false`, `BLACK = 1 = true` (lines 132-133).
-/

set_option maxHeartbeats 1000000
set_option linter.unusedTactic false
set_option linter.unnecessarySimpa false

namespace OrderedSet

/-- `RED = 0` (line 132). -/
def RED : Bool := false

/-- `BLACK = 1` (line 133). -/
def BLACK : Bool := true

/-- The node graph reachable from a node: `Tree.nil` is the sentinel
`m_nil`; `node l k sz col r` is a `node` with key `k`, `size` field `sz`
and `color` field `col` (struct at lines 51-63). -/
inductive Tree where
  | nil : Tree
  | node (l : Tree) (k : Int) (sz : Nat) (col : Bool) (r : Tree) : Tree
deriving DecidableEq, Repr

namespace Tree

/-- `x->size`; the sentinel's size is 0 (initialized at line 228, never
written afterwards: `updateSize` stops at `m_nil`). -/
def size : Tree → Nat
  | .nil => 0
  | .node _ _ sz _ _ => sz

/-- `x->color`; the sentinel is BLACK (line 228, asserted at line 664). -/
def rootColor : Tree → Bool
  | .nil => BLACK
  | .node _ _ _ c _ => c

/-- `x->left->size` (0 for the sentinel since `m_nil->left == m_nil`). -/
def lsize : Tree → Nat
  | .nil => 0
  | .node l _ _ _ _ => l.size

/-- `x->color = BLACK` on the root of a subtree. -/
def setBlack : Tree → Tree
  | .nil => .nil
  | .node l k sz _ r => .node l k sz BLACK r

/-- In-order key sequence of the node graph. -/
def inorder : Tree → List Int
  | .nil => []
  | .node l k _ _ r => l.inorder ++ k :: r.inorder

/-- Size invariant (spec §3 invariant 3): every node's `size` field equals
`1 + left.size + right.size`, the sentinel contributing 0. -/
def sizeOk : Tree → Bool
  | .nil => true
  | .node l _ sz _ r => sz == 1 + l.size + r.size && l.sizeOk && r.sizeOk

/-- All keys in the subtree satisfy `p`. -/
def allB (p : Int → Bool) : Tree → Bool
  | .nil => true
  | .node l k _ _ r => p k && l.allB p && r.allB p

/-- Binary-search-tree order (spec §3 invariant 1). -/
def bst : Tree → Bool
  | .nil => true
  | .node l k _ _ r =>
      l.allB (fun x => decide (x < k)) && r.allB (fun x => decide (k < x))
        && l.bst && r.bst

/-- Black height and balance: returns the common number of BLACK nodes on
every root-to-sentinel path when all such paths agree, `none` otherwise. -/
def blackH : Tree → Option Nat
  | .nil => some 0
  | .node l _ _ c r =>
      match l.blackH, r.blackH with
      | some m, some n =>
          if m = n then some (m + (if c = BLACK then 1 else 0)) else none
      | _, _ => none

/-- No RED node has a RED child (spec §3 invariant 2; the sentinel is
BLACK, so a RED node with sentinel children is fine). -/
def noRedRed : Tree → Bool
  | .nil => true
  | .node l _ _ c r =>
      (!(c = RED) || (l.rootColor = BLACK && r.rootColor = BLACK))
        && l.noRedRed && r.noRedRed

/-- The red-black coloring invariant (spec §3 invariant 2): root BLACK,
no red-red edge, consistent black height (the sentinel is BLACK by
construction). -/
def rbInv (t : Tree) : Bool :=
  t.rootColor = BLACK && t.noRedRed && (t.blackH).isSome

end Tree

open Tree

/-- `order_of_key`'s loop (lines 344-360), descending from `x` with the
running counter `current`; the final adjustments at lines 356-359 are the
non-loop exits.  On `Int`, `not_equal(key, x->key)` is `key ≠ x->key` and
`CMP(key, x->key)` is `key < x->key`.  When `x` is the sentinel its right
child is the sentinel again, so lines 356-359 subtract nothing. -/
def orderLoop : Tree → Int → Nat → Nat
  | .nil, _, current => current
  | .node l k _ _ r, key, current =>
      if key ≠ k then
        if key < k then orderLoop l key (current - 1 - r.size)
        else orderLoop r key current
      else current - r.size - 1

/-- `order_of_key(key)` (lines 342-361): counter seeded with
`m_root->size`. -/
def order_of_key (t : Tree) (key : Int) : Nat :=
  orderLoop t key t.size

/-- `find_by_order`'s loop (lines 372-383).  `current` is updated exactly
as in the source: descending left replaces the left child's size
contribution, descending right adds `1 + new left subtree size`; when the
loop leaves the node graph (`x == m_nil`) the sentinel is returned,
modelled as `none`; a found node is returned as `some` of its key. -/
def fboLoop : Tree → Nat → Nat → Option Int
  | .nil, _, _ => none
  | .node l k _ _ r, current, order =>
      if current ≠ order then
        if current > order then fboLoop l (current - l.size + l.lsize) order
        else fboLoop r (current + 1 + r.lsize) order
      else some k

/-- `find_by_order(order)` (lines 369-385): counter seeded with
`m_root->left->size`; returns the key at the resulting node, `none` for
the sentinel (= `end()`). -/
def find_by_order (t : Tree) (order : Nat) : Option Int :=
  fboLoop t t.lsize order

/-- `search(key)` (lines 487-497), returning the found node's key
(`none` = sentinel). -/
def search : Tree → Int → Option Int
  | .nil, _ => none
  | .node l k _ _ r, key =>
      if key ≠ k then
        if key < k then search l key else search r key
      else some k

/-- One step of a parent chain: a node pointer's relation to its parent.
`leftF k sz col sib` means "this node is the `left` child of a parent with
key `k`, `size` field `sz`, `color` `col`, and right subtree `sib`";
`rightF` mirrors it with `sib` the parent's left subtree. -/
inductive Frame where
  | leftF (k : Int) (sz : Nat) (col : Bool) (sib : Tree) : Frame
  | rightF (k : Int) (sz : Nat) (col : Bool) (sib : Tree) : Frame
deriving DecidableEq, Repr

/-- The parent chain of a node, innermost parent first; `[]` means the
node is `m_root` (its parent is the sentinel). -/
abbrev Path := List Frame

/-- Rebuild the parent node from the child subtree occupying the hole. -/
def plug1 (t : Tree) : Frame → Tree
  | .leftF k sz col sib => .node t k sz col sib
  | .rightF k sz col sib => .node sib k sz col t

/-- Rebuild the whole tree from a subtree and its parent chain. -/
def plug : Tree → Path → Tree
  | t, [] => t
  | t, f :: p => plug (plug1 t f) p

/-- `p->color` for a frame. -/
def Frame.color : Frame → Bool
  | .leftF _ _ c _ => c
  | .rightF _ _ c _ => c

/-- `p->color = b` for a frame. -/
def Frame.withColor : Frame → Bool → Frame
  | .leftF k sz _ sib, b => .leftF k sz b sib
  | .rightF k sz _ sib, b => .rightF k sz b sib

/-- `updateSize(z->parent, m_nil, 1)` (line 328 with line 578): add 1 to
the `size` field of every ancestor, from the parent up to the root. -/
def bumpPath : Path → Path
  | [] => []
  | .leftF k sz c sib :: p => .leftF k (sz + 1) c sib :: bumpPath p
  | .rightF k sz c sib :: p => .rightF k (sz + 1) c sib :: bumpPath p

/-- `updateSize(start, m_nil, -1)` (lines 630, 578): subtract 1 from the
`size` field of every ancestor from `start` up to the root (`+= (size_t)(-1)`
wraps to an exact decrement; on size-correct trees no underflow occurs). -/
def decPath : Path → Path
  | [] => []
  | .leftF k sz c sib :: p => .leftF k (sz - 1) c sib :: decPath p
  | .rightF k sz c sib :: p => .rightF k (sz - 1) c sib :: decPath p

/-- `rotate_left(x)` (lines 517-539) acting on the subtree rooted at `x`
(the re-linking of `x->parent`'s child pointer is the caller's plugging).
Size bookkeeping per lines 533-538: the new top gets
`y->size += x->left->size; y->size++`, the demoted node
`x->size -= y->right->size; x->size--` (the `!= m_nil` guards only skip
adding/subtracting the sentinel's size, which is 0).  The source never
calls it when `x->right == m_nil`; that case is returned unchanged. -/
def rotate_left : Tree → Tree
  | .node l k sz col (.node rl rk rsz rcol rr) =>
      .node (.node l k (sz - rr.size - 1) col rl) rk (rsz + l.size + 1) rcol rr
  | t => t

/-- `rotate_right(x)` (lines 541-563), mirror of `rotate_left`. -/
def rotate_right : Tree → Tree
  | .node (.node ll lk lsz lcol lr) k sz col r =>
      .node ll lk (lsz + r.size + 1) lcol (.node lr k (sz - ll.size - 1) col r)
  | t => t

/-- `fixup_insert(z)` (lines 586-625) on the node `z` (a subtree) and its
parent chain.  The loop `while (z->parent->color == RED)` runs while the
innermost frame is RED; with no frame `z` is the root (its parent is the
BLACK sentinel) and the loop exits; the trailing `m_root->color = BLACK`
(line 624) is the final `setBlack` after plugging.  A RED parent that is
itself the root cannot arise (the root is BLACK whenever `fixup_insert`
starts, and the recursive case re-examines the recolored grandparent
itself, never its child); the source would read the sentinel's children
there, which are the sentinel; we exit the loop in that unreachable case.
In the rotation cases the parent's color is set BLACK and the loop
condition fails on the next test, so the result is plugged directly. -/
def fixup_insert : Tree → Path → Tree
  | z, [] => z.setBlack
  | z, [f] => (plug z [f]).setBlack
  | z, f :: g :: rest =>
      if f.color = RED then
        match g with
        | .leftF gk gs _ uncle =>
            -- z->parent == z->parent->parent->left; y = grandparent's right
            if uncle.rootColor = RED then
              -- lines 592-596: recolor parent and uncle BLACK, grandparent
              -- RED, continue from the grandparent
              fixup_insert
                (.node (plug1 z (f.withColor BLACK)) gk gs RED uncle.setBlack)
                rest
            else
              -- lines 598-604: if z is a right child, rotate_left at the
              -- parent first; then parent BLACK, grandparent RED,
              -- rotate_right at the grandparent
              let pSub := match f with
                | .rightF pk ps pc psib => rotate_left (.node psib pk ps pc z)
                | .leftF pk ps pc psib => .node z pk ps pc psib
              (plug (rotate_right (.node pSub.setBlack gk gs RED uncle)) rest).setBlack
        | .rightF gk gs _ uncle =>
            if uncle.rootColor = RED then
              -- lines 608-612
              fixup_insert
                (.node uncle.setBlack gk gs RED (plug1 z (f.withColor BLACK)))
                rest
            else
              -- lines 614-620
              let pSub := match f with
                | .leftF pk ps pc psib => rotate_right (.node z pk ps pc psib)
                | .rightF pk ps pc psib => .node psib pk ps pc z
              (plug (rotate_left (.node uncle gk gs RED pSub.setBlack)) rest).setBlack
      else (plug z (f :: g :: rest)).setBlack

/-- `insert`'s descent (lines 310-327), accumulating the parent chain.
`equal(key, x->key)` on `Int` is `key = x->key`: return the existing node
(its key) and `false` with the tree rebuilt unchanged.  At the sentinel,
link a new RED node of size 1 (line 321; the parent-side choice at lines
322-327 is the frame's direction), bump ancestor sizes (line 328) and run
the fixup (line 329); the new node's key and `true` are returned. -/
def insertLoop : Tree → Path → Int → Tree × Int × Bool
  | .nil, path, key => (fixup_insert (.node .nil key 1 RED .nil) (bumpPath path), key, true)
  | .node l k sz col r, path, key =>
      if key = k then (plug (.node l k sz col r) path, k, false)
      else if key < k then insertLoop l (.leftF k sz col r :: path) key
      else insertLoop r (.rightF k sz col l :: path) key

/-- `insert(key)` (lines 307-331): returns the new tree, the key at the
returned iterator, and the `inserted` flag. -/
def insert (t : Tree) (key : Int) : Tree × Int × Bool :=
  insertLoop t [] key

/-- `min(node* x)` (lines 468-475): key of the leftmost node, `none` when
`x` is the sentinel. -/
def minKey : Tree → Option Int
  | .nil => none
  | .node .nil k _ _ _ => some k
  | .node (.node ll lk ls lc lr) _ _ _ _ => minKey (.node ll lk ls lc lr)

/-- The ascending half of `successor` (lines 447-451): climb the parent
chain until the current node is its parent's left child and return that
parent; reaching past the root (`x == m_nil`) yields the sentinel. -/
def upLeftKey : Path → Option Int
  | [] => none
  | .leftF k _ _ _ :: _ => some k
  | .rightF _ _ _ _ :: p => upLeftKey p

/-- `successor(x)` (lines 442-453) of the node at a position: the minimum
of the right subtree when it is not the sentinel, otherwise the first
ancestor reached from a left child.  Only the key is observable through
the returned iterator. -/
def successorKey : Tree → Path → Option Int
  | .node _ _ _ _ (.node rl rk rs rc rr), _ => minKey (.node rl rk rs rc rr)
  | _, path => upLeftKey path

/-- The `search` descent (lines 487-497) recording the parent chain of the
found node, as used by `erase(const Key&)` (line 336) to locate `z`. -/
def searchLoop : Tree → Int → Path → Option (Tree × Path)
  | .nil, _, _ => none
  | .node l k sz col r, key, path =>
      if key ≠ k then
        if key < k then searchLoop l key (.leftF k sz col r :: path)
        else searchLoop r key (.rightF k sz col l :: path)
      else some (.node l k sz col r, path)

/-- Lines 685-695 (the terminal block of `fixup_erase`'s left half):
given the sibling after the optional inner rotation (`w2`, lines
685-689), recolor `w2`'s root to the parent's color, blacken the parent
and `w2`'s right child, rotate left at the parent, set `x = m_root` so
the loop exits, and blacken the root (line 723).  The sentinel arm is
unreachable on trees with consistent black heights. -/
def eraseTermL (x : Tree) (pk : Int) (ps : Nat) (pc : Bool) (w2 : Tree)
    (rest : Path) : Tree :=
  match w2 with
  | .node bl bk bs _ br =>
      (plug (rotate_left (.node x pk ps BLACK (.node bl bk bs pc br.setBlack)))
        rest).setBlack
  | .nil => (plug (.node x pk ps BLACK .nil) rest).setBlack

/-- Lines 709-719, mirror of `eraseTermL` for `fixup_erase`'s right
half. -/
def eraseTermR (x : Tree) (pk : Int) (ps : Nat) (pc : Bool) (w2 : Tree)
    (rest : Path) : Tree :=
  match w2 with
  | .node bl bk bs _ br =>
      (plug (rotate_right (.node (.node bl.setBlack bk bs pc br) pk ps BLACK x))
        rest).setBlack
  | .nil => (plug (.node .nil pk ps BLACK x) rest).setBlack

/-- `fixup_erase(x)` (lines 669-724) on the node `x` and its parent chain.
The loop runs while `x != m_root` (the chain is nonempty) and `x` is
BLACK; every exit is followed by `x->color = BLACK` (line 723).  Each
symmetric half first normalizes a RED sibling by a rotation at the parent
(lines 675-680 resp. 699-704) — after which the parent is RED and the new
sibling is the old sibling's inner child — and then cases on the sibling's
children's colors: both BLACK recolors the sibling RED and moves `x` up
(lines 681-683); otherwise an optional inner rotation (lines 685-689)
followed by the terminal rotation at the parent (lines 691-695) sets
`x = m_root`, ending the loop.  A sentinel sibling cannot arise on trees
with consistent black heights (the source would color the sentinel RED and
trip the assertion at line 664); we recurse leaving the sentinel
unchanged in that unreachable case. -/
def fixup_erase : Tree → Path → Tree
  | x, [] => x.setBlack
  | x, f :: rest =>
    if x.rootColor = RED then plug x.setBlack (f :: rest)
    else
      match f with
      | .leftF pk ps pc w =>
        match w with
        | .nil => fixup_erase (.node x pk ps pc .nil) rest
        | .node wl wk wsz wcol wr =>
          if wcol = RED then
            -- lines 675-679: w->color = BLACK; x->parent->color = RED;
            -- rotate_left(x->parent); w = x->parent->right — the parent
            -- becomes `node x pk (ps - wr.size - 1) RED wl` sitting as the
            -- left child of the blackened old sibling; continue with the
            -- new sibling wl
            match wl with
            | .nil =>
                fixup_erase (.node x pk (ps - wr.size - 1) RED .nil)
                  (Frame.leftF wk (wsz + x.size + 1) BLACK wr :: rest)
            | .node al ak asz acol ar =>
              if al.rootColor = BLACK ∧ ar.rootColor = BLACK then
                fixup_erase
                  (.node x pk (ps - wr.size - 1) RED (.node al ak asz RED ar))
                  (Frame.leftF wk (wsz + x.size + 1) BLACK wr :: rest)
              else
                eraseTermL x pk (ps - wr.size - 1) RED
                  (if ar.rootColor = BLACK then
                    rotate_right (.node al.setBlack ak asz RED ar)
                  else .node al ak asz acol ar)
                  (Frame.leftF wk (wsz + x.size + 1) BLACK wr :: rest)
          else
            if wl.rootColor = BLACK ∧ wr.rootColor = BLACK then
              -- lines 681-683: w->color = RED; x = x->parent
              fixup_erase (.node x pk ps pc (.node wl wk wsz RED wr)) rest
            else
              -- lines 685-689 then 691-695
              eraseTermL x pk ps pc
                (if wr.rootColor = BLACK then
                  rotate_right (.node wl.setBlack wk wsz RED wr)
                else .node wl wk wsz wcol wr)
                rest
      | .rightF pk ps pc w =>
        -- mirror half, lines 697-721: sibling w = x->parent->left (colors
        -- and rotations exchanged left for right)
        match w with
        | .nil => fixup_erase (.node .nil pk ps pc x) rest
        | .node wl wk wsz wcol wr =>
          if wcol = RED then
            -- lines 699-703: w->color = BLACK; x->parent->color = RED;
            -- rotate_right(x->parent); w = x->parent->left (= wr)
            match wr with
            | .nil =>
                fixup_erase (.node .nil pk (ps - wl.size - 1) RED x)
                  (Frame.rightF wk (wsz + x.size + 1) BLACK wl :: rest)
            | .node al ak asz acol ar =>
              if ar.rootColor = BLACK ∧ al.rootColor = BLACK then
                fixup_erase
                  (.node (.node al ak asz RED ar) pk (ps - wl.size - 1) RED x)
                  (Frame.rightF wk (wsz + x.size + 1) BLACK wl :: rest)
              else
                eraseTermR x pk (ps - wl.size - 1) RED
                  (if al.rootColor = BLACK then
                    rotate_left (.node al ak asz RED ar.setBlack)
                  else .node al ak asz acol ar)
                  (Frame.rightF wk (wsz + x.size + 1) BLACK wl :: rest)
          else
            if wr.rootColor = BLACK ∧ wl.rootColor = BLACK then
              -- lines 705-707: w->color = RED; x = x->parent
              fixup_erase (.node (.node wl wk wsz RED wr) pk ps pc x) rest
            else
              -- lines 709-713 then 715-719
              eraseTermR x pk ps pc
                (if wl.rootColor = BLACK then
                  rotate_left (.node wl wk wsz RED wr.setBlack)
                else .node wl wk wsz wcol wr)
                rest
  termination_by x path => 2 * path.length + (if x.rootColor = BLACK then 1 else 0)
  decreasing_by
    all_goals cases t <;> (try cases pc) <;> simp_all [Tree.rootColor, RED, BLACK] <;> omega

/-- The descent `y = min(z->right)` of the two-children erase case (line
642): returns the leftmost node of the subtree together with the chain of
frames from it back up to the subtree's root (all `leftF`).  Never called
on the sentinel. -/
def minSplit : Tree → Path → Tree × Path
  | .nil, acc => (.nil, acc)
  | .node .nil k sz c r, acc => (.node .nil k sz c r, acc)
  | .node (.node ll lk ls lc lr) k sz c r, acc =>
      minSplit (.node ll lk ls lc lr) (.leftF k sz c r :: acc)

/-- `erase(node* z)` (lines 627-667) given the fields of `z` and its
parent chain.  Steps, in source order:
* line 630: decrement every strict ancestor's size (`decPath`);
* line 631 computes the returned iterator (`successorKey`, done by the
  caller `erase` below — it reads only keys and links, which this function
  does not change);
* lines 635-640: when a child is the sentinel, `x` is the other child,
  transplanted into `z`'s place (`y = z`, `y_original_color = z->color`);
* lines 642-659: otherwise `y = min(z->right)`.  If `y->parent == z`
  (empty inner chain) `y` keeps its right child and absorbs `z`'s left
  subtree, color and position (lines 645, 655-659); `x = y->right` stays
  below `y`.  Else lines 648-654 first decrement the sizes on the inner
  chain (`updateSize(y->parent, z, -1)`), shrink `y` by its right subtree,
  splice `y` out (`transplant(y, y->right)`), hang the updated right
  subtree of `z` under `y`, and then lines 655-659 put `y` in `z`'s place;
  `x = y->right` sits at `y`'s old hole inside the new right subtree;
* lines 661-662: if the spliced-out node was BLACK, run `fixup_erase` on
  `x` at its final position; lines 663-665 (sentinel parent reset, BLACK
  assertion, freeing `z`) have no observable effect in this model. -/
def eraseNode : Tree → Path → Tree
  | .nil, path => plug .nil path
  | .node zl _ _ zc zr, path =>
    let path1 := decPath path
    match zl, zr with
    | .nil, _ =>
        if zc = BLACK then fixup_erase zr path1 else plug zr path1
    | .node l1 k1 s1 c1 r1, .nil =>
        if zc = BLACK then fixup_erase (.node l1 k1 s1 c1 r1) path1
        else plug (.node l1 k1 s1 c1 r1) path1
    | .node l1 k1 s1 c1 r1, .node l2 k2 s2 c2 r2 =>
      let zl : Tree := .node l1 k1 s1 c1 r1
      match minSplit (.node l2 k2 s2 c2 r2) [] with
      | (.node _ yk ys yc yr, inner) =>
        match inner with
        | [] =>
            -- y == z->right: lines 645-646 then 655-659
            let ysF := ys + zl.size
            if yc = BLACK then
              fixup_erase yr (Frame.rightF yk ysF zc zl :: path1)
            else plug (.node zl yk ysF zc yr) path1
        | _ :: _ =>
            -- lines 648-654 then 655-659
            let innerDec := decPath inner
            let newR := plug yr innerDec
            let ysF := ys - yr.size + newR.size + zl.size
            if yc = BLACK then
              fixup_erase yr (innerDec ++ Frame.rightF yk ysF zc zl :: path1)
            else plug (.node zl yk ysF zc newR) path1
      | (.nil, _) => plug .nil path1  -- unreachable: z->right is not the sentinel

/-- `erase(const Key& key)` (lines 333-340): locate `z` by `search`; when
absent return the end iterator with the tree untouched (lines 337-338),
otherwise remove the node and return an iterator to its in-order successor
(line 631). -/
def erase (t : Tree) (key : Int) : Tree × Option Int :=
  match searchLoop t key [] with
  | none => (t, none)
  | some (z, path) => (eraseNode z path, successorKey z path)

/-- Structural node count (used only as a termination measure for the
breadth-first traversal below; on size-correct trees it coincides with the
stored `size`). -/
def Tree.weight : Tree → Nat
  | .nil => 0
  | .node l _ _ _ r => 1 + l.weight + r.weight

/-- Sum of the structural node counts of a queue of subtrees. -/
def queueWeight (q : List Tree) : Nat := (q.map Tree.weight).sum

/-- The breadth-first loop of `deep_copy` (lines 294-304): pop a node,
insert its key into the destination, push its non-sentinel children.  The
queue only ever holds non-sentinel nodes; a sentinel entry is skipped. -/
def deepCopyLoop : List Tree → Tree → Tree
  | [], dst => dst
  | .nil :: q, dst => deepCopyLoop q dst
  | .node l k _ _ r :: q, dst =>
      deepCopyLoop
        (q ++ (if l ≠ .nil then [l] else []) ++ (if r ≠ .nil then [r] else []))
        (insert dst k).1
  termination_by q _ => (queueWeight q, q.length)
  decreasing_by
    · simp [queueWeight, Prod.lex_iff]; omega
    · simp [queueWeight, Tree.weight, Prod.lex_iff]
      cases l <;> cases r <;>
        simp_all [Tree.weight, queueWeight] <;> omega

/-- `deep_copy(src, dst)` (lines 289-305): nothing to do for an empty
source, otherwise breadth-first insertion of every source key into `dst`
starting from the root.  Note the destination is NOT cleared. -/
def deep_copy (src dst : Tree) : Tree :=
  if src = .nil then dst else deepCopyLoop [src] dst

/-- Copy construction (lines 236-241): default-construct (empty tree,
lines 226-234) then `deep_copy(other, *this)`. -/
def copy_construct (other : Tree) : Tree :=
  deep_copy other .nil

/-- Copy assignment onto a distinct object (lines 252-259): the guard at
line 255 only short-circuits physical self-assignment; otherwise
`deep_copy(other, *this)` runs directly on the current node graph —
the destination is not cleared first. -/
def copy_assign (this_ other : Tree) : Tree :=
  deep_copy other this_

/-- A whole `ordered_set` object: the node graph under `m_root` together
with the sentinel's own link fields.  Over an object's lifetime each of
`m_nil->left/right/parent` holds only two possible values: the sentinel
itself (written by the default constructor at lines 231-233, and for
`parent` re-established after every erase at line 663) or `nullptr` (the
fresh sentinel `new node{Key{}, 0, nullptr, nullptr, nullptr, BLACK}`
installed into the source by the move operations at lines 248 and 269,
whose body never runs lines 231-233).  Each link is therefore modelled
by a `Bool`: `true` = self-loop, `false` = `nullptr`. -/
structure ordered_set where
  m_root : Tree
  nilLeftSelf : Bool
  nilRightSelf : Bool
  nilParentSelf : Bool
deriving DecidableEq, Repr

/-- The default constructor (lines 226-234): empty tree, sentinel links
set to the self-loops. -/
def default_construct : ordered_set :=
  ⟨.nil, true, true, true⟩

/-- The read `x->left->size` at object level: on a node it is the left
child's `size` field (the sentinel's `size` field is 0 and reading it is
well defined); on the sentinel it first follows the sentinel's own
`left` link — the self-loop yields the sentinel's size 0, a `nullptr`
link is a null-pointer dereference, modelled as `none`. -/
def lsizeObj (nls : Bool) : Tree → Option Nat
  | .nil => if nls then some 0 else none
  | .node l _ _ _ _ => some l.size

/-- The `find_by_order` loop (lines 372-383) at object level, `nls`
recording whether `m_nil->left` is the self-loop.  The loop guard keeps
`x` a real node, so the in-body reads `x->left->size` (lines 377, 380)
and the re-read after stepping into a child (lines 378, 381) are
`lsizeObj` of the child: when the step lands on the sentinel this
dereferences the sentinel's `left` link.  The outer `Option` is
definedness (`none` = null dereference); a defined run returns the
reached node's key, with `none` for the sentinel (= `end()`). -/
def fboLoopObj (nls : Bool) : Tree → Nat → Nat → Option (Option Int)
  | .nil, _, _ => some none
  | .node l k _ _ r, current, order =>
      if current ≠ order then
        if current > order then
          match lsizeObj nls l with
          | none => none
          | some ls => fboLoopObj nls l (current - l.size + ls) order
        else
          match lsizeObj nls r with
          | none => none
          | some ls => fboLoopObj nls r (current + 1 + ls) order
      else some (some k)

/-- `find_by_order(order)` at object level (lines 369-385): line 371
seeds the counter with `m_root->left->size` — on an empty tree this
follows the sentinel's `left` link (`lsizeObj`), which on a moved-from
object is `nullptr`. -/
def ordered_set.find_by_order (s : ordered_set) (order : Nat) : Option (Option Int) :=
  match lsizeObj s.nilLeftSelf s.m_root with
  | none => none
  | some cur => fboLoopObj s.nilLeftSelf s.m_root cur order

/-- `begin()` (lines 411-415) = `find_by_order(0)`. -/
def ordered_set.begin (s : ordered_set) : Option (Option Int) :=
  s.find_by_order 0

/-- `size()` (lines 386-390): the `size` field of `m_root` — a plain
field read, well defined even on the sentinel (its `size` field is 0). -/
def ordered_set.size (s : ordered_set) : Nat :=
  s.m_root.size

/-- Move construction (lines 243-250): the destination takes the whole
node graph (`m_nil`/`m_root`) with the source's sentinel links; the
source gets a fresh sentinel whose `left/right/parent` are `nullptr`
(line 248 — the self-loops of lines 231-233 are never established) and
an empty root.  Result: (destination, source afterwards). -/
def move_construct (other : ordered_set) : ordered_set × ordered_set :=
  (⟨other.m_root, other.nilLeftSelf, other.nilRightSelf, other.nilParentSelf⟩,
    ⟨.nil, false, false, false⟩)

/-- Move assignment onto a distinct object (lines 261-272): the
destination frees its own nodes and takes the source's graph and
sentinel; the source gets a fresh sentinel with `nullptr` links
(line 269) and an empty root. -/
def move_assign (_this other : ordered_set) : ordered_set × ordered_set :=
  (⟨other.m_root, other.nilLeftSelf, other.nilRightSelf, other.nilParentSelf⟩,
    ⟨.nil, false, false, false⟩)

/-- `const_iterator` (lines 66-88): a non-owning pair of references,
modelled as opaque identities (addresses) of the owning tree and of the
referenced node. -/
structure const_iterator where
  m_tree : Nat
  m_node : Nat
deriving DecidableEq, Repr

/-- `const_iterator::operator=(const const_iterator&)` (lines 164-170):
the body assigns `m_tree` and `m_node` from `other` and then reaches the
end of the function, which is declared to return `const_iterator` by
value, without any return statement.  The mutated left-hand side is the
first component; the value of the assignment expression is the second,
`none` standing for "no value was returned" (undefined behavior in the
source). -/
def const_iterator.assign (_a b : const_iterator) :
    const_iterator × Option const_iterator :=
  ({ m_tree := b.m_tree, m_node := b.m_node }, none)

/-- The `find_by_order` loop (lines 372-383) again, this time recording
the descent's parent chain, so that the returned value is the full
position (node plus parent chain) held by the returned iterator. -/
def fboPosLoop : Tree → Path → Nat → Nat → Option (Tree × Path)
  | .nil, _, _, _ => none
  | .node l k sz col r, path, current, order =>
      if current ≠ order then
        if current > order then
          fboPosLoop l (.leftF k sz col r :: path) (current - l.size + l.lsize) order
        else fboPosLoop r (.rightF k sz col l :: path) (current + 1 + r.lsize) order
      else some (.node l k sz col r, path)

/-- `begin()` (lines 411-415): `find_by_order(0)`, as a position;
`none` is the sentinel, i.e. `end()` (lines 417-421). -/
def begin_pos (t : Tree) : Option (Tree × Path) :=
  fboPosLoop t [] t.lsize 0

/-- `min(node*)` (lines 468-475) keeping the parent chain. -/
def minPos : Tree → Path → Option (Tree × Path)
  | .nil, _ => none
  | .node .nil k sz c r, path => some (.node .nil k sz c r, path)
  | .node (.node ll lk ls lc lr) k sz c r, path =>
      minPos (.node ll lk ls lc lr) (.leftF k sz c r :: path)

/-- The ascending half of `successor` (lines 447-451) on positions:
climb while the node is a right child; from a left child return the
parent; past the root return the sentinel (`none`). -/
def upLeftPos : Tree → Path → Option (Tree × Path)
  | _, [] => none
  | x, .leftF k sz c sib :: p => some (.node x k sz c sib, p)
  | x, .rightF k sz c sib :: p => upLeftPos (.node sib k sz c x) p

/-- `successor(x)` (lines 442-453) on positions, as used by
`const_iterator::operator++` (lines 172-177). -/
def succPos : Tree × Path → Option (Tree × Path)
  | (.node l k sz c (.node rl rk rs rc rr), path) =>
      minPos (.node rl rk rs rc rr) (.rightF k sz c l :: path)
  | (x, path) => upLeftPos x path

/-- Keys visited by iterating with `operator++` (dereference, increment,
repeat) from a position until `end()` is reached, with explicit fuel. -/
def iterKeys : Nat → Option (Tree × Path) → List Int
  | fuel + 1, some (.node l k sz c r, p) =>
      k :: iterKeys fuel (succPos (.node l k sz c r, p))
  | _, _ => []

/-- Trees reachable from a default-constructed `ordered_set` by any
interleaving of `insert` and `erase` calls (the public mutating
operations). -/
inductive Reachable : Tree → Prop where
  | empty : Reachable .nil
  | ins (t : Tree) (k : Int) : Reachable t → Reachable (insert t k).1
  | ers (t : Tree) (k : Int) : Reachable t → Reachable (erase t k).1

/-- The tree built by inserting the given keys, in order, into a
default-constructed (empty) tree. -/
def buildFrom (ks : List Int) : Tree :=
  ks.foldl (fun t k => (insert t k).1) .nil

/-! Support definitions used only inside proofs. -/

/-- The sibling subtree stored in a frame. -/
def Frame.sib : Frame → Tree
  | .leftF _ _ _ s => s
  | .rightF _ _ _ s => s

/-- Keys of the full tree lying strictly before the hole of a parent
chain, in order. -/
def leftList : Path → List Int
  | [] => []
  | .leftF _ _ _ _ :: p => leftList p
  | .rightF k _ _ sib :: p => leftList p ++ sib.inorder ++ [k]

/-- Keys of the full tree lying strictly after the hole of a parent
chain, in order. -/
def rightList : Path → List Int
  | [] => []
  | .leftF k _ _ sib :: p => k :: sib.inorder ++ rightList p
  | .rightF _ _ _ _ :: p => rightList p

/-- Size-consistency of a parent chain whose hole holds a subtree with
`size` field `n`: every frame's stored `size` is `1 +` the sizes of its
two subtrees, and siblings are internally size-correct. -/
def pathSizeOk : Path → Nat → Bool
  | [], _ => true
  | .leftF _ sz _ sib :: p, n => sz == 1 + n + sib.size && sib.sizeOk && pathSizeOk p sz
  | .rightF _ sz _ sib :: p, n => sz == 1 + sib.size + n && sib.sizeOk && pathSizeOk p sz

/-- Contribution of a node of this color to the black height. -/
def bhinc (c : Bool) : Nat := if c = BLACK then 1 else 0

/-- Red-black consistency of a parent chain whose hole will receive a
subtree with root color `c` and black height `n`: siblings are internally
red-black with matching black heights, and a RED frame has a BLACK hole,
a BLACK sibling root and (recursively) a BLACK parent frame. -/
def ctxOK : Path → Nat → Bool → Prop
  | [], _, _ => True
  | f :: p, n, c =>
      f.sib.noRedRed = true ∧ f.sib.blackH = some n ∧
      (f.color = RED → c = BLACK ∧ f.sib.rootColor = BLACK) ∧
      ctxOK p (n + bhinc f.color) f.color

/-- Like `ctxOK` but with no constraint on the hole's root color even
under a RED innermost frame: the state during the fixup loops, where the
sole red-red (insert) or black-deficit (erase) violation sits at the
hole. -/
def insCtx : Path → Nat → Prop
  | [], _ => True
  | f :: p, n =>
      f.sib.noRedRed = true ∧ f.sib.blackH = some n ∧
      (f.color = RED → f.sib.rootColor = BLACK) ∧
      ctxOK p (n + bhinc f.color) f.color

/-- The outermost frame (the root of the whole tree, when the chain is
nonempty) is BLACK. -/
def lastBlack : Path → Prop
  | [] => True
  | [f] => f.color = BLACK
  | _ :: p => lastBlack p

/-- Number of BLACK frames on a parent chain: the black height the chain
adds on top of the hole's own black height. -/
def pathBH : Path → Nat
  | [] => 0
  | f :: p => bhinc f.color + pathBH p

/-- Color of the outermost frame of a chain (the root of the rebuilt
tree); `c` when the chain is empty. -/
def topColor : Path → Bool → Bool
  | [], c => c
  | f :: p, _ => topColor p f.color

/-! ## Basic lemmas about sizes, in-order sequences and the invariants -/

@[simp] lemma size_nil : (Tree.nil).size = 0 := rfl

@[simp] lemma size_node {l r : Tree} {k : Int} {sz : Nat} {c : Bool} :
    (Tree.node l k sz c r).size = sz := rfl

@[simp] lemma rootColor_nil : (Tree.nil).rootColor = BLACK := rfl

@[simp] lemma rootColor_node {l r : Tree} {k : Int} {sz : Nat} {c : Bool} :
    (Tree.node l k sz c r).rootColor = c := rfl

@[simp] lemma lsize_nil : (Tree.nil).lsize = 0 := rfl

@[simp] lemma lsize_node {l r : Tree} {k : Int} {sz : Nat} {c : Bool} :
    (Tree.node l k sz c r).lsize = l.size := rfl

@[simp] lemma inorder_nil : (Tree.nil).inorder = [] := rfl

@[simp] lemma inorder_node {l r : Tree} {k : Int} {sz : Nat} {c : Bool} :
    (Tree.node l k sz c r).inorder = l.inorder ++ k :: r.inorder := rfl

@[simp] lemma setBlack_nil : (Tree.nil).setBlack = Tree.nil := rfl

@[simp] lemma setBlack_node {l r : Tree} {k : Int} {sz : Nat} {c : Bool} :
    (Tree.node l k sz c r).setBlack = Tree.node l k sz BLACK r := rfl

@[simp] lemma inorder_setBlack (t : Tree) : t.setBlack.inorder = t.inorder := by
  cases t <;> simp

@[simp] lemma size_setBlack (t : Tree) : t.setBlack.size = t.size := by
  cases t <;> simp

lemma sizeOk_node {l r : Tree} {k : Int} {sz : Nat} {col : Bool}
    (h : (Tree.node l k sz col r).sizeOk = true) :
    sz = 1 + l.size + r.size ∧ l.sizeOk = true ∧ r.sizeOk = true := by
  simpa [Tree.sizeOk, Bool.and_eq_true, beq_iff_eq, and_assoc] using h

lemma length_inorder {t : Tree} (h : t.sizeOk = true) :
    t.inorder.length = t.size := by
  induction t with
  | nil => rfl
  | node l k sz col r ihl ihr =>
      obtain ⟨h1, h2, h3⟩ := sizeOk_node h
      simp [Tree.inorder, Tree.size, ihl h2, ihr h3, h1]
      omega

lemma allB_mem {p : Int → Bool} {t : Tree} (h : t.allB p = true)
    {x : Int} (hx : x ∈ t.inorder) : p x = true := by
  induction t with
  | nil => simp [Tree.inorder] at hx
  | node l k sz col r ihl ihr =>
      simp only [Tree.allB, Bool.and_eq_true] at h
      simp only [Tree.inorder, List.mem_append, List.mem_cons] at hx
      rcases hx with hx | hx | hx
      · exact ihl h.1.2 hx
      · exact hx ▸ h.1.1
      · exact ihr h.2 hx

lemma bst_node {l r : Tree} {k : Int} {sz : Nat} {col : Bool}
    (h : (Tree.node l k sz col r).bst = true) :
    l.allB (fun x => decide (x < k)) = true ∧ r.allB (fun x => decide (k < x)) = true ∧
    l.bst = true ∧ r.bst = true := by
  simpa [Tree.bst, Bool.and_eq_true, and_assoc] using h

lemma bst_pairwise {t : Tree} (h : t.bst = true) :
    t.inorder.Pairwise (· < ·) := by
  induction t with
  | nil => simp [Tree.inorder]
  | node l k sz col r ihl ihr =>
      obtain ⟨hl, hr, hbl, hbr⟩ := bst_node h
      simp only [Tree.inorder, List.pairwise_append, List.pairwise_cons]
      refine ⟨ihl hbl, ⟨fun b hb => ?_, ihr hbr⟩, fun a ha b hb => ?_⟩
      · simpa using allB_mem hr hb
      · have hak : a < k := by simpa using allB_mem hl ha
        rcases List.mem_cons.1 hb with rfl | hb
        · exact hak
        · exact hak.trans (by simpa using allB_mem hr hb)

/-! ## C4: `order_of_key` counts the keys strictly below the probe -/

lemma orderLoop_eq {t : Tree} (hs : t.sizeOk = true) (hb : t.bst = true) (key : Int) :
    ∀ b, orderLoop t key (b + t.size) =
      b + t.inorder.countP (fun x => decide (x < key)) := by
  induction t with
  | nil => intro b; simp [orderLoop]
  | node l k sz col r ihl ihr =>
      intro b
      obtain ⟨h1, hsl, hsr⟩ := sizeOk_node hs
      obtain ⟨hal, har, hbl, hbr⟩ := bst_node hb
      have lenl := length_inorder hsl
      have lenr := length_inorder hsr
      have cr0 : key ≤ k → r.inorder.countP (fun x => decide (x < key)) = 0 := by
        intro hk
        refine List.countP_eq_zero.2 fun a ha => ?_
        have := allB_mem har ha
        simp at this ⊢
        omega
      have clF : k < key → l.inorder.countP (fun x => decide (x < key)) = l.size := by
        intro hk
        rw [← lenl]
        refine List.countP_eq_length.2 fun a ha => ?_
        have := allB_mem hal ha
        simp at this ⊢
        omega
      rw [size_node, orderLoop]
      rcases lt_trichotomy key k with hlt | heq | hgt
      · rw [if_pos (by omega : key ≠ k), if_pos hlt]
        have harg : b + sz - 1 - r.size = b + l.size := by omega
        rw [harg, ihl hsl hbl]
        have : ¬ (k < key) := by omega
        simp [List.countP_append, List.countP_cons, cr0 (le_of_lt hlt), this]
      · rw [if_neg (by omega : ¬ key ≠ k)]
        have : ¬ (k < key) := by omega
        simp [List.countP_append, List.countP_cons, cr0 (le_of_eq heq), this,
          clF, heq]
        subst heq
        have cl : l.inorder.countP (fun x => decide (x < key)) = l.size := by
          rw [← lenl]
          refine List.countP_eq_length.2 fun a ha => ?_
          have := allB_mem hal ha
          simpa using this
        rw [cl]
        omega
      · rw [if_pos (by omega : key ≠ k), if_neg (by omega : ¬ key < k)]
        have harg : b + sz = (b + 1 + l.size) + r.size := by omega
        rw [harg, ihr hsr hbr]
        simp [List.countP_append, List.countP_cons, clF hgt, hgt]
        omega

/-- C4.  For every tree satisfying the size and ordering invariants (as
every tree reachable through the public interface does) and every key,
present or absent, `order_of_key(key)` returns the number of stored keys
strictly less than `key`.  In particular it is 0 when `key` is at most
the minimum, `size()` when `key` exceeds the maximum, and it never
fails. -/
theorem order_of_key_counts (t : Tree) (key : Int)
    (hs : t.sizeOk = true) (hb : t.bst = true) :
    order_of_key t key = t.inorder.countP (fun x => decide (x < key)) := by
  simpa using orderLoop_eq hs hb key 0

/-- Witness for C4 on the spec's §8 scenario tree. -/
theorem order_of_key_counts_witness :
    ((buildFrom [12, 505, 30, 1000, 10000, 100]).sizeOk = true ∧
      (buildFrom [12, 505, 30, 1000, 10000, 100]).bst = true) ∧
    order_of_key (buildFrom [12, 505, 30, 1000, 10000, 100]) 707 =
      (buildFrom [12, 505, 30, 1000, 10000, 100]).inorder.countP
        (fun x => decide (x < 707)) :=
  ⟨⟨by decide, by decide⟩,
    order_of_key_counts (buildFrom [12, 505, 30, 1000, 10000, 100]) 707
      (by decide) (by decide)⟩

/-! ## C5: `find_by_order` retrieves the node at a 0-based in-order rank -/

lemma fboLoop_eq {t : Tree} (hs : t.sizeOk = true) (order : Nat) :
    ∀ b, fboLoop t (b + t.lsize) order =
      if b ≤ order ∧ order < b + t.size then t.inorder.get? (order - b) else none := by
  induction t with
  | nil =>
      intro b
      rw [size_nil, if_neg (by omega)]
      simp [fboLoop]
  | node l k sz col r ihl ihr =>
      intro b
      obtain ⟨h1, hsl, hsr⟩ := sizeOk_node hs
      have lenl := length_inorder hsl
      rw [lsize_node, size_node, fboLoop]
      rcases lt_trichotomy (b + l.size) order with hlt | heq | hgt
      · rw [if_pos (by omega : b + l.size ≠ order), if_neg (by omega : ¬ b + l.size > order)]
        have harg : b + l.size + 1 + r.lsize = (b + l.size + 1) + r.lsize := by omega
        rw [harg, ihr hsr]
        by_cases hord : order < b + sz
        · rw [if_pos (by omega), if_pos (by omega)]
          rw [inorder_node, List.get?_append_right (by omega), lenl]
          have harg2 : order - b - l.size = (order - (b + l.size + 1)) + 1 := by omega
          rw [harg2, List.get?_cons_succ]
        · rw [if_neg (by omega), if_neg (by omega)]
      · rw [if_neg (by omega : ¬ b + l.size ≠ order)]
        rw [if_pos (by omega), inorder_node, List.get?_append_right (by rw [lenl]; omega)]
        rw [lenl]
        have : order - b - l.size = 0 := by omega
        rw [this, List.get?_cons_zero]
      · rw [if_pos (by omega : b + l.size ≠ order), if_pos (by omega : b + l.size > order)]
        have harg : b + l.size - l.size + l.lsize = b + l.lsize := by omega
        rw [harg, ihl hsl]
        by_cases hb : b ≤ order
        · rw [if_pos (by omega), if_pos (by omega)]
          rw [inorder_node, List.get?_append (by rw [lenl]; omega)]
        · rw [if_neg (by omega), if_neg (by omega)]

/-- C5.  On every size-correct tree (as every reachable tree is),
`find_by_order(rank)` returns the node whose 0-based in-order position is
`rank` when `rank < size()`, and the sentinel (`end()`, modelled `none`)
when `rank ≥ size()`. -/
theorem find_by_order_spec (t : Tree) (order : Nat) (hs : t.sizeOk = true) :
    (order < t.size → find_by_order t order = t.inorder.get? order) ∧
    (t.size ≤ order → find_by_order t order = none) := by
  have h := fboLoop_eq hs order 0
  simp only [Nat.zero_add, Nat.sub_zero, true_and, Nat.zero_le] at h
  constructor
  · intro hlt
    rw [find_by_order, h, if_pos hlt]
  · intro hge
    rw [find_by_order, h, if_neg (by omega)]

/-- Witness for C5 on the spec's §8 scenario tree, at a valid rank. -/
theorem find_by_order_spec_witness :
    ((buildFrom [12, 505, 30, 1000, 10000, 100]).sizeOk = true ∧
      2 < (buildFrom [12, 505, 30, 1000, 10000, 100]).size) ∧
    find_by_order (buildFrom [12, 505, 30, 1000, 10000, 100]) 2 =
      (buildFrom [12, 505, 30, 1000, 10000, 100]).inorder.get? 2 :=
  ⟨⟨by decide, by decide⟩,
    (find_by_order_spec (buildFrom [12, 505, 30, 1000, 10000, 100]) 2 (by decide)).1
      (by decide)⟩

/-! ## Plugging a subtree back into its parent chain -/

@[simp] lemma plug_nil_path (t : Tree) : plug t [] = t := rfl

lemma plug_cons (t : Tree) (f : Frame) (p : Path) :
    plug t (f :: p) = plug (plug1 t f) p := rfl

lemma inorder_plug (t : Tree) : ∀ p : Path,
    (plug t p).inorder = leftList p ++ t.inorder ++ rightList p := by
  intro p
  induction p generalizing t with
  | nil => simp [leftList, rightList]
  | cons f p ih =>
      cases f with
      | leftF k sz c sib =>
          rw [plug_cons, ih]
          simp [plug1, leftList, rightList]
      | rightF k sz c sib =>
          rw [plug_cons, ih]
          simp [plug1, leftList, rightList]

/-! ## C8: inserting a present key is a no-op -/

lemma mem_parts {l r : Tree} {k key : Int} {sz : Nat} {col : Bool}
    (hb : (Tree.node l k sz col r).bst = true)
    (hmem : key ∈ (Tree.node l k sz col r).inorder) :
    (key < k ∧ key ∈ l.inorder) ∨ key = k ∨ (k < key ∧ key ∈ r.inorder) := by
  obtain ⟨hal, har, _, _⟩ := bst_node hb
  simp only [inorder_node, List.mem_append, List.mem_cons] at hmem
  rcases hmem with h | h | h
  · exact Or.inl ⟨by simpa using allB_mem hal h, h⟩
  · exact Or.inr (Or.inl h)
  · exact Or.inr (Or.inr ⟨by simpa using allB_mem har h, h⟩)

lemma insertLoop_found {key : Int} : ∀ (t : Tree), t.bst = true → key ∈ t.inorder →
    ∀ path, insertLoop t path key = (plug t path, key, false) := by
  intro t
  induction t with
  | nil => intro _ hmem; simp at hmem
  | node l k sz col r ihl ihr =>
      intro hb hmem path
      obtain ⟨hal, har, hbl, hbr⟩ := bst_node hb
      rw [insertLoop]
      rcases mem_parts hb hmem with ⟨hlt, hml⟩ | heq | ⟨hgt, hmr⟩
      · rw [if_neg (by omega), if_pos hlt, ihl hbl hml]
        rfl
      · rw [if_pos heq, heq]
      · rw [if_neg (by omega), if_neg (by omega), ihr hbr hmr]
        rfl

/-- C8.  On every tree satisfying the ordering invariant, inserting a key
that is already present (equal under the ordering, which on `Int` is
equality) returns the existing position and `inserted = false`, and the
tree — hence its size, every `order_of_key` rank, and its key set — is
unchanged. -/
theorem insert_present_noop (t : Tree) (key : Int)
    (hb : t.bst = true) (hmem : key ∈ t.inorder) :
    insert t key = (t, key, false) := by
  have := insertLoop_found t hb hmem []
  simpa [insert] using this

/-- Witness for C8: re-inserting 505 into the spec's §8 scenario tree. -/
theorem insert_present_noop_witness :
    ((buildFrom [12, 505, 30, 1000, 10000, 100]).bst = true ∧
      (505 : Int) ∈ (buildFrom [12, 505, 30, 1000, 10000, 100]).inorder) ∧
    insert (buildFrom [12, 505, 30, 1000, 10000, 100]) 505 =
      (buildFrom [12, 505, 30, 1000, 10000, 100], 505, false) :=
  ⟨⟨by decide, by decide⟩,
    insert_present_noop (buildFrom [12, 505, 30, 1000, 10000, 100]) 505
      (by decide) (by decide)⟩

/-! ## C9: erase of an absent key; the returned position -/

lemma searchLoop_not_found {key : Int} : ∀ (t : Tree), t.bst = true →
    key ∉ t.inorder → ∀ path, searchLoop t key path = none := by
  intro t
  induction t with
  | nil => intro _ _ _; rfl
  | node l k sz col r ihl ihr =>
      intro hb hmem path
      obtain ⟨hal, har, hbl, hbr⟩ := bst_node hb
      have hkey : key ≠ k := fun h => hmem (by simp [h])
      rw [searchLoop, if_pos hkey]
      by_cases hlt : key < k
      · rw [if_pos hlt]
        exact ihl hbl (fun h => hmem (by simp [h])) _
      · rw [if_neg hlt]
        exact ihr hbr (fun h => hmem (by simp [h])) _

lemma searchLoop_found {key : Int} : ∀ (t : Tree), t.bst = true →
    key ∈ t.inorder → ∀ path,
    ∃ zl zs zc zr p', searchLoop t key path = some (.node zl key zs zc zr, p') ∧
      plug (.node zl key zs zc zr) p' = plug t path := by
  intro t
  induction t with
  | nil => intro _ hmem; simp at hmem
  | node l k sz col r ihl ihr =>
      intro hb hmem path
      obtain ⟨hal, har, hbl, hbr⟩ := bst_node hb
      rcases mem_parts hb hmem with ⟨hlt, hml⟩ | heq | ⟨hgt, hmr⟩
      · obtain ⟨zl, zs, zc, zr, p', h1, h2⟩ :=
          ihl hbl hml (.leftF k sz col r :: path)
        exact ⟨zl, zs, zc, zr, p', by rw [searchLoop, if_pos (by omega), if_pos hlt]; exact h1, h2⟩
      · subst heq
        exact ⟨l, sz, col, r, path, by rw [searchLoop, if_neg (by simp)], rfl⟩
      · obtain ⟨zl, zs, zc, zr, p', h1, h2⟩ :=
          ihr hbr hmr (.rightF k sz col l :: path)
        exact ⟨zl, zs, zc, zr, p',
          by rw [searchLoop, if_pos (by omega), if_neg (by omega)]; exact h1, h2⟩

lemma minKey_head : ∀ {t : Tree}, t ≠ .nil → minKey t = t.inorder.head? := by
  intro t
  induction t with
  | nil => intro h; exact absurd rfl h
  | node l k sz col r ihl _ =>
      intro _
      cases l with
      | nil => simp [minKey]
      | node ll lk ls lc lr =>
          have hne : (Tree.node ll lk ls lc lr).inorder ≠ [] := by simp
          calc minKey (Tree.node (.node ll lk ls lc lr) k sz col r)
              = minKey (.node ll lk ls lc lr) := by rw [minKey]
            _ = (Tree.node ll lk ls lc lr).inorder.head? := ihl (by simp)
            _ = ((Tree.node ll lk ls lc lr).inorder ++ k :: r.inorder).head? :=
                (List.head?_append_of_ne_nil _ hne).symm
            _ = (Tree.node (.node ll lk ls lc lr) k sz col r).inorder.head? := by
                simp [List.append_assoc]

lemma upLeftKey_head : ∀ p : Path, upLeftKey p = (rightList p).head? := by
  intro p
  induction p with
  | nil => rfl
  | cons f p ih =>
      cases f with
      | leftF k sz c sib => simp [upLeftKey, rightList]
      | rightF k sz c sib => simpa [upLeftKey, rightList] using ih

lemma filter_gt_of_pairwise {A B : List Int} {key : Int}
    (h : (A ++ key :: B).Pairwise (· < ·)) :
    (A ++ key :: B).filter (fun x => decide (key < x)) = B := by
  rw [List.pairwise_append] at h
  obtain ⟨hA, hkB, hcross⟩ := h
  rw [List.pairwise_cons] at hkB
  rw [List.filter_append]
  have e1 : A.filter (fun x => decide (key < x)) = [] := by
    refine List.filter_eq_nil.2 fun a ha => ?_
    have := hcross a ha key (by simp)
    simp
    omega
  have e2 : (key :: B).filter (fun x => decide (key < x)) = B := by
    rw [List.filter_cons_of_neg (by simp)]
    exact List.filter_eq_self.2 fun b hb => by simpa using hkB.1 b hb
  rw [e1, e2, List.nil_append]

/-- C9.  On every tree satisfying the ordering invariant: erasing an
absent key returns the end iterator and leaves the tree completely
unchanged (the very same node graph); erasing a present key returns the
position of the key's in-order successor — the smallest stored key
greater than it — or the end iterator when it was the maximum. -/
theorem erase_absent_and_return (t : Tree) (key : Int) (hb : t.bst = true) :
    (key ∉ t.inorder → erase t key = (t, none)) ∧
    (key ∈ t.inorder →
      (erase t key).2 = (t.inorder.filter (fun x => decide (key < x))).head?) := by
  constructor
  · intro hmem
    rw [erase, searchLoop_not_found t hb hmem []]
  · intro hmem
    obtain ⟨zl, zs, zc, zr, p', h1, h2⟩ := searchLoop_found t hb hmem []
    have herase : (erase t key).2 = successorKey (.node zl key zs zc zr) p' := by
      simp only [erase, h1]
    rw [herase]
    have hdec : t.inorder =
        (leftList p' ++ zl.inorder) ++ key :: (zr.inorder ++ rightList p') := by
      have := inorder_plug (.node zl key zs zc zr) p'
      rw [h2] at this
      simp only [plug_nil_path] at this
      rw [this, inorder_node]
      simp [List.append_assoc]
    have hpw : ((leftList p' ++ zl.inorder) ++ key :: (zr.inorder ++ rightList p')).Pairwise
        (· < ·) := by
      rw [← hdec]; exact bst_pairwise hb
    rw [hdec, filter_gt_of_pairwise hpw]
    cases zr with
    | nil =>
        simp only [inorder_nil, List.nil_append]
        rw [show successorKey (Tree.node zl key zs zc .nil) p' = upLeftKey p' from rfl]
        exact upLeftKey_head p'
    | node rl rk rs rc rr =>
        have hne : (Tree.node rl rk rs rc rr).inorder ≠ [] := by simp
        rw [List.head?_append_of_ne_nil _ hne,
          show successorKey (Tree.node zl key zs zc (.node rl rk rs rc rr)) p' =
            minKey (.node rl rk rs rc rr) from rfl,
          minKey_head (t := Tree.node rl rk rs rc rr) (by simp)]

/-- Witness for C9 (both halves exercised at the §8 scenario tree:
absent key 7, then the successor query for present key 30). -/
theorem erase_absent_and_return_witness :
    ((buildFrom [12, 505, 30, 1000, 10000, 100]).bst = true ∧
      (7 : Int) ∉ (buildFrom [12, 505, 30, 1000, 10000, 100]).inorder ∧
      (30 : Int) ∈ (buildFrom [12, 505, 30, 1000, 10000, 100]).inorder) ∧
    erase (buildFrom [12, 505, 30, 1000, 10000, 100]) 7 =
      (buildFrom [12, 505, 30, 1000, 10000, 100], none) ∧
    (erase (buildFrom [12, 505, 30, 1000, 10000, 100]) 30).2 =
      ((buildFrom [12, 505, 30, 1000, 10000, 100]).inorder.filter
        (fun x => decide ((30 : Int) < x))).head? :=
  ⟨⟨by decide, by decide, by decide⟩,
    (erase_absent_and_return (buildFrom [12, 505, 30, 1000, 10000, 100]) 7
      (by decide)).1 (by decide),
    (erase_absent_and_return (buildFrom [12, 505, 30, 1000, 10000, 100]) 30
      (by decide)).2 (by decide)⟩

/-! ## C2: move construction/assignment -/

/-- C2.  Refutation by evaluation on the set {5} (built by one insert
into a default-constructed object, whose sentinel links are the
self-loops).  Move construction and move assignment do transfer the
node graph — the destination holds exactly the original key sequence —
and the source's `size()` is 0 afterwards; but the source is *not* a
valid empty tree: the fresh sentinel installed at lines 248/269 has
`nullptr` `left/right/parent` (the self-loops of lines 231-233 are
never made), so `begin()` = `find_by_order(0)` reads
`m_root->left->size` (line 371) with `m_root == m_nil` and
`m_nil->left == nullptr` — a null-pointer dereference (`none`),
undefined behavior — whereas on a genuinely valid (default-constructed)
empty set `begin()` is defined and equals `end()` (`some none`). -/
theorem move_source_invalid_eval :
    (move_construct ⟨(insert Tree.nil 5).1, true, true, true⟩).1.m_root.inorder = [5] ∧
    (move_construct ⟨(insert Tree.nil 5).1, true, true, true⟩).2.size = 0 ∧
    (move_construct ⟨(insert Tree.nil 5).1, true, true, true⟩).2.begin = none ∧
    (move_assign default_construct
      ⟨(insert Tree.nil 5).1, true, true, true⟩).1.m_root.inorder = [5] ∧
    (move_assign default_construct
      ⟨(insert Tree.nil 5).1, true, true, true⟩).2.begin = none ∧
    default_construct.begin = some none ∧
    default_construct.size = 0 := by
  decide

/-! ## C10: `const_iterator::operator=` (lines 164-170) -/

/-- C10 evaluation.  The copy assignment's side effect is as claimed —
afterwards the left-hand iterator refers to `b`'s tree and node — but the
function, though declared to return `const_iterator` by value, contains
no return statement: the value of the assignment expression is nothing
(`none`; undefined behavior in C++), not an iterator equal to `b`. -/
theorem const_iterator_assign_eval (a b : const_iterator) :
    (const_iterator.assign a b).1 = b ∧ (const_iterator.assign a b).2 = none :=
  ⟨rfl, rfl⟩

/-! ## C1: copy construction / copy assignment -/

/-- C1 evaluation at a failing input.  `operator=(const ordered_set&)`
(lines 252-259) calls `deep_copy(other, *this)` without clearing the
destination first, so assigning a tree holding {3} onto a tree holding
{5} leaves the destination holding {3, 5}: the destination's key set does
not equal the source's key set, contradicting "full logical duplication".
(Copy construction, which starts from an empty destination, does
duplicate: third conjunct.) -/
theorem copy_assign_union_eval :
    (copy_assign (buildFrom [5]) (buildFrom [3])).inorder = [3, 5] ∧
    (buildFrom [3]).inorder = [3] ∧
    (copy_construct (buildFrom [3])).inorder = [3] := by
  refine ⟨?_, by decide, ?_⟩ <;>
    simp [copy_assign, copy_construct, deep_copy, deepCopyLoop, buildFrom,
      insert, insertLoop, fixup_insert, bumpPath, plug, plug1, Frame.color,
      Frame.withColor]

/-! ## Rotations, recoloring and path bookkeeping preserve in-order
sequences and size consistency -/

lemma allB_iff_mem {p : Int → Bool} {t : Tree} :
    t.allB p = true ↔ ∀ x ∈ t.inorder, p x = true := by
  induction t with
  | nil => simp [Tree.allB]
  | node l k sz col r ihl ihr =>
      simp only [Tree.allB, Bool.and_eq_true, ihl, ihr, inorder_node,
        List.mem_append, List.mem_cons]
      constructor
      · rintro ⟨⟨hk, hl⟩, hr⟩ x (hx | rfl | hx)
        · exact hl x hx
        · exact hk
        · exact hr x hx
      · intro h
        exact ⟨⟨h k (Or.inr (Or.inl rfl)), fun x hx => h x (Or.inl hx)⟩,
          fun x hx => h x (Or.inr (Or.inr hx))⟩

lemma bst_iff_pairwise {t : Tree} :
    t.bst = true ↔ t.inorder.Pairwise (· < ·) := by
  constructor
  · exact bst_pairwise
  · intro h
    induction t with
    | nil => rfl
    | node l k sz col r ihl ihr =>
        simp only [inorder_node, List.pairwise_append, List.pairwise_cons] at h
        obtain ⟨hl, ⟨hkr, hr⟩, hcross⟩ := h
        have h1 : l.allB (fun x => decide (x < k)) = true :=
          allB_iff_mem.2 fun x hx => by
            simpa using hcross x hx k (List.mem_cons_self _ _)
        have h2 : r.allB (fun x => decide (k < x)) = true :=
          allB_iff_mem.2 fun x hx => by simpa using hkr x hx
        simp only [Tree.bst, Bool.and_eq_true]
        exact ⟨⟨⟨h1, h2⟩, ihl hl⟩, ihr hr⟩

lemma inorder_rotate_left (t : Tree) :
    (rotate_left t).inorder = t.inorder := by
  cases t with
  | nil => rfl
  | node l k sz col r =>
      cases r with
      | nil => rfl
      | node rl rk rsz rcol rr => simp [rotate_left]

lemma inorder_rotate_right (t : Tree) :
    (rotate_right t).inorder = t.inorder := by
  cases t with
  | nil => rfl
  | node l k sz col r =>
      cases l with
      | nil => rfl
      | node ll lk lsz lcol lr => simp [rotate_right]

lemma sizeOk_setBlack {t : Tree} (h : t.sizeOk = true) : t.setBlack.sizeOk = true := by
  cases t with
  | nil => rfl
  | node l k sz col r => simpa [Tree.sizeOk] using h

lemma sizeOk_rotate_left {t : Tree} (h : t.sizeOk = true) :
    (rotate_left t).sizeOk = true ∧ (rotate_left t).size = t.size := by
  cases t with
  | nil => exact ⟨h, rfl⟩
  | node l k sz col r =>
      cases r with
      | nil => exact ⟨h, rfl⟩
      | node rl rk rsz rcol rr =>
          obtain ⟨h1, hsl, hsr⟩ := sizeOk_node h
          obtain ⟨h2, hsrl, hsrr⟩ := sizeOk_node hsr
          rw [size_node] at h1
          constructor
          · simp only [rotate_left, Tree.sizeOk, Bool.and_eq_true, beq_iff_eq,
              size_node, hsl, hsrl, hsrr, and_true]
            omega
          · simp only [rotate_left, size_node]
            omega

lemma sizeOk_rotate_right {t : Tree} (h : t.sizeOk = true) :
    (rotate_right t).sizeOk = true ∧ (rotate_right t).size = t.size := by
  cases t with
  | nil => exact ⟨h, rfl⟩
  | node l k sz col r =>
      cases l with
      | nil => exact ⟨h, rfl⟩
      | node ll lk lsz lcol lr =>
          obtain ⟨h1, hsl, hsr⟩ := sizeOk_node h
          obtain ⟨h2, hsll, hslr⟩ := sizeOk_node hsl
          rw [size_node] at h1
          constructor
          · simp only [rotate_right, Tree.sizeOk, Bool.and_eq_true, beq_iff_eq,
              size_node, hsll, hslr, hsr, and_true]
            omega
          · simp only [rotate_right, size_node]
            omega

lemma leftList_bumpPath (p : Path) : leftList (bumpPath p) = leftList p := by
  induction p with
  | nil => rfl
  | cons f p ih => cases f <;> simp [bumpPath, leftList, ih]

lemma rightList_bumpPath (p : Path) : rightList (bumpPath p) = rightList p := by
  induction p with
  | nil => rfl
  | cons f p ih => cases f <;> simp [bumpPath, rightList, ih]

lemma leftList_decPath (p : Path) : leftList (decPath p) = leftList p := by
  induction p with
  | nil => rfl
  | cons f p ih => cases f <;> simp [decPath, leftList, ih]

lemma rightList_decPath (p : Path) : rightList (decPath p) = rightList p := by
  induction p with
  | nil => rfl
  | cons f p ih => cases f <;> simp [decPath, rightList, ih]

lemma pathSizeOk_bumpPath {p : Path} {n : Nat} (h : pathSizeOk p n = true) :
    pathSizeOk (bumpPath p) (n + 1) = true := by
  induction p generalizing n with
  | nil => rfl
  | cons f p ih =>
      cases f with
      | leftF k sz c sib =>
          simp only [pathSizeOk, Bool.and_eq_true, beq_iff_eq] at h ⊢
          exact ⟨⟨by omega, h.1.2⟩, by simpa using ih h.2⟩
      | rightF k sz c sib =>
          simp only [pathSizeOk, Bool.and_eq_true, beq_iff_eq] at h ⊢
          exact ⟨⟨by omega, h.1.2⟩, by simpa using ih h.2⟩

lemma sizeOk_plug {t : Tree} : ∀ {p : Path}, t.sizeOk = true →
    pathSizeOk p t.size = true → (plug t p).sizeOk = true := by
  intro p
  induction p generalizing t with
  | nil => intro h _; exact h
  | cons f p ih =>
      intro ht hp
      cases f with
      | leftF k sz c sib =>
          simp only [pathSizeOk, Bool.and_eq_true, beq_iff_eq] at hp
          rw [plug_cons]
          refine ih ?_ ?_
          · simp only [plug1, Tree.sizeOk, Bool.and_eq_true, beq_iff_eq]
            exact ⟨⟨by omega, ht⟩, hp.1.2⟩
          · simpa [plug1] using hp.2
      | rightF k sz c sib =>
          simp only [pathSizeOk, Bool.and_eq_true, beq_iff_eq] at hp
          rw [plug_cons]
          refine ih ?_ ?_
          · simp only [plug1, Tree.sizeOk, Bool.and_eq_true, beq_iff_eq]
            exact ⟨⟨by omega, hp.1.2⟩, ht⟩
          · simpa [plug1] using hp.2

/-! ## `fixup_insert` preserves the in-order sequence and size
consistency -/

lemma inorder_plug1_withColor (z : Tree) (f : Frame) (b : Bool) :
    (plug1 z (f.withColor b)).inorder = (plug1 z f).inorder := by
  cases f <;> simp [plug1, Frame.withColor]

lemma inorder_fixup_insert : ∀ z p, (fixup_insert z p).inorder = (plug z p).inorder := by
  intro z p
  induction z, p using fixup_insert.induct <;>
    simp_all [fixup_insert, inorder_plug, inorder_rotate_left, inorder_rotate_right,
      plug_cons, inorder_plug1_withColor, Frame.color] <;>
    (cases ‹Frame› <;>
      simp [plug1, Frame.withColor, inorder_rotate_left, inorder_rotate_right,
        List.append_assoc])
lemma pathSizeOk_cons_left {k : Int} {sz : Nat} {c : Bool} {sib : Tree} {p : Path} {n : Nat} :
    pathSizeOk (.leftF k sz c sib :: p) n = true ↔
      (sz = 1 + n + sib.size ∧ sib.sizeOk = true ∧ pathSizeOk p sz = true) := by
  simp [pathSizeOk, and_assoc]

lemma pathSizeOk_cons_right {k : Int} {sz : Nat} {c : Bool} {sib : Tree} {p : Path} {n : Nat} :
    pathSizeOk (.rightF k sz c sib :: p) n = true ↔
      (sz = 1 + sib.size + n ∧ sib.sizeOk = true ∧ pathSizeOk p sz = true) := by
  simp [pathSizeOk, and_assoc]

lemma sizeOk_node_iff {l r : Tree} {k : Int} {sz : Nat} {col : Bool} :
    (Tree.node l k sz col r).sizeOk = true ↔
      (sz = 1 + l.size + r.size ∧ l.sizeOk = true ∧ r.sizeOk = true) := by
  simp [Tree.sizeOk, and_assoc]

lemma sizeOk_fixup_insert : ∀ z p, z.sizeOk = true → pathSizeOk p z.size = true →
    (fixup_insert z p).sizeOk = true := by
  intro z p
  induction z, p using fixup_insert.induct
  case case1 => intro hz _; exact sizeOk_setBlack hz
  case case2 => intro hz hp; exact sizeOk_setBlack (sizeOk_plug hz hp)
  case case3 z f rest hfc gk gs gc uncle hu ih =>
      intro hz hp
      simp only [fixup_insert]
      rw [if_pos hfc, if_pos hu]
      cases f with
      | leftF fk fsz fc fsib =>
          rw [pathSizeOk_cons_left] at hp
          obtain ⟨he, hsib, hp2⟩ := hp
          rw [pathSizeOk_cons_left] at hp2
          obtain ⟨hge, hgsib, hp3⟩ := hp2
          apply ih
          · rw [sizeOk_node_iff]
            refine ⟨?_, ?_, sizeOk_setBlack hgsib⟩
            · simp [plug1, Frame.withColor]; omega
            · rw [show plug1 z ((Frame.leftF fk fsz fc fsib).withColor BLACK) =
                Tree.node z fk fsz BLACK fsib from rfl, sizeOk_node_iff]
              exact ⟨by omega, hz, hsib⟩
          · simp only [size_node]
            simpa using hp3
      | rightF fk fsz fc fsib =>
          rw [pathSizeOk_cons_right] at hp
          obtain ⟨he, hsib, hp2⟩ := hp
          rw [pathSizeOk_cons_left] at hp2
          obtain ⟨hge, hgsib, hp3⟩ := hp2
          apply ih
          · rw [sizeOk_node_iff]
            refine ⟨?_, ?_, sizeOk_setBlack hgsib⟩
            · simp [plug1, Frame.withColor]; omega
            · rw [show plug1 z ((Frame.rightF fk fsz fc fsib).withColor BLACK) =
                Tree.node fsib fk fsz BLACK z from rfl, sizeOk_node_iff]
              exact ⟨by omega, hsib, hz⟩
          · simp only [size_node]
            simpa using hp3
  case case4 z f rest hfc gk gs gc uncle hu =>
      intro hz hp
      simp only [fixup_insert]
      rw [if_pos hfc, if_neg hu]
      cases f with
      | leftF fk fsz fc fsib =>
          rw [pathSizeOk_cons_left] at hp
          obtain ⟨he, hsib, hp2⟩ := hp
          rw [pathSizeOk_cons_left] at hp2
          obtain ⟨hge, hgsib, hp3⟩ := hp2
          have hG : (Tree.node (Tree.node z fk fsz fc fsib).setBlack gk gs RED uncle).sizeOk
              = true := by
            rw [sizeOk_node_iff]
            refine ⟨by simp; omega, sizeOk_setBlack ?_, hgsib⟩
            rw [sizeOk_node_iff]
            exact ⟨by omega, hz, hsib⟩
          have hrot := sizeOk_rotate_right hG
          exact sizeOk_setBlack (sizeOk_plug hrot.1 (by rw [hrot.2]; simpa using hp3))
      | rightF fk fsz fc fsib =>
          rw [pathSizeOk_cons_right] at hp
          obtain ⟨he, hsib, hp2⟩ := hp
          rw [pathSizeOk_cons_left] at hp2
          obtain ⟨hge, hgsib, hp3⟩ := hp2
          have hin : (Tree.node fsib fk fsz fc z).sizeOk = true := by
            rw [sizeOk_node_iff]
            exact ⟨by omega, hsib, hz⟩
          have hrotL := sizeOk_rotate_left hin
          have hG : (Tree.node (rotate_left (Tree.node fsib fk fsz fc z)).setBlack gk gs RED
              uncle).sizeOk = true := by
            rw [sizeOk_node_iff]
            refine ⟨?_, sizeOk_setBlack hrotL.1, hgsib⟩
            rw [size_setBlack, hrotL.2]
            simp
            omega
          have hrot := sizeOk_rotate_right hG
          exact sizeOk_setBlack (sizeOk_plug hrot.1 (by rw [hrot.2]; simpa using hp3))
  case case5 z f rest hfc gk gs gc uncle hu ih =>
      intro hz hp
      simp only [fixup_insert]
      rw [if_pos hfc, if_pos hu]
      cases f with
      | leftF fk fsz fc fsib =>
          rw [pathSizeOk_cons_left] at hp
          obtain ⟨he, hsib, hp2⟩ := hp
          rw [pathSizeOk_cons_right] at hp2
          obtain ⟨hge, hgsib, hp3⟩ := hp2
          apply ih
          · rw [sizeOk_node_iff]
            refine ⟨?_, sizeOk_setBlack hgsib, ?_⟩
            · simp [plug1, Frame.withColor]; omega
            · rw [show plug1 z ((Frame.leftF fk fsz fc fsib).withColor BLACK) =
                Tree.node z fk fsz BLACK fsib from rfl, sizeOk_node_iff]
              exact ⟨by omega, hz, hsib⟩
          · simp only [size_node]
            simpa using hp3
      | rightF fk fsz fc fsib =>
          rw [pathSizeOk_cons_right] at hp
          obtain ⟨he, hsib, hp2⟩ := hp
          rw [pathSizeOk_cons_right] at hp2
          obtain ⟨hge, hgsib, hp3⟩ := hp2
          apply ih
          · rw [sizeOk_node_iff]
            refine ⟨?_, sizeOk_setBlack hgsib, ?_⟩
            · simp [plug1, Frame.withColor]; omega
            · rw [show plug1 z ((Frame.rightF fk fsz fc fsib).withColor BLACK) =
                Tree.node fsib fk fsz BLACK z from rfl, sizeOk_node_iff]
              exact ⟨by omega, hsib, hz⟩
          · simp only [size_node]
            simpa using hp3
  case case6 z f rest hfc gk gs gc uncle hu =>
      intro hz hp
      simp only [fixup_insert]
      rw [if_pos hfc, if_neg hu]
      cases f with
      | leftF fk fsz fc fsib =>
          rw [pathSizeOk_cons_left] at hp
          obtain ⟨he, hsib, hp2⟩ := hp
          rw [pathSizeOk_cons_right] at hp2
          obtain ⟨hge, hgsib, hp3⟩ := hp2
          have hin : (Tree.node z fk fsz fc fsib).sizeOk = true := by
            rw [sizeOk_node_iff]
            exact ⟨by omega, hz, hsib⟩
          have hrotR := sizeOk_rotate_right hin
          have hG : (Tree.node uncle gk gs RED
              (rotate_right (Tree.node z fk fsz fc fsib)).setBlack).sizeOk = true := by
            rw [sizeOk_node_iff]
            refine ⟨?_, hgsib, sizeOk_setBlack hrotR.1⟩
            rw [size_setBlack, hrotR.2]
            simp
            omega
          have hrot := sizeOk_rotate_left hG
          exact sizeOk_setBlack (sizeOk_plug hrot.1 (by rw [hrot.2]; simpa using hp3))
      | rightF fk fsz fc fsib =>
          rw [pathSizeOk_cons_right] at hp
          obtain ⟨he, hsib, hp2⟩ := hp
          rw [pathSizeOk_cons_right] at hp2
          obtain ⟨hge, hgsib, hp3⟩ := hp2
          have hG : (Tree.node uncle gk gs RED (Tree.node fsib fk fsz fc z).setBlack).sizeOk
              = true := by
            rw [sizeOk_node_iff]
            refine ⟨by simp; omega, hgsib, sizeOk_setBlack ?_⟩
            rw [sizeOk_node_iff]
            exact ⟨by omega, hsib, hz⟩
          have hrot := sizeOk_rotate_left hG
          exact sizeOk_setBlack (sizeOk_plug hrot.1 (by rw [hrot.2]; simpa using hp3))
  case case7 z f g rest hfc =>
      intro hz hp
      simp only [fixup_insert]
      rw [if_neg hfc]
      exact sizeOk_setBlack (sizeOk_plug hz hp)

/-! ## `insert` preserves the invariants; its in-order effect -/

lemma insertLoop_sizeOk {key : Int} : ∀ (t : Tree) (path : Path), t.sizeOk = true →
    pathSizeOk path t.size = true → ((insertLoop t path key).1).sizeOk = true := by
  intro t
  induction t with
  | nil =>
      intro path _ hp
      rw [insertLoop]
      exact sizeOk_fixup_insert _ _ rfl
        (by simpa using pathSizeOk_bumpPath (by simpa using hp))
  | node l k sz col r ihl ihr =>
      intro path hs hp
      obtain ⟨h1, hsl, hsr⟩ := sizeOk_node hs
      rw [insertLoop]
      by_cases hkey : key = k
      · rw [if_pos hkey]
        exact sizeOk_plug hs hp
      · rw [if_neg hkey]
        by_cases hlt : key < k
        · rw [if_pos hlt]
          refine ihl _ hsl ?_
          rw [pathSizeOk_cons_left]
          exact ⟨by omega, hsr, by simpa using hp⟩
        · rw [if_neg hlt]
          refine ihr _ hsr ?_
          rw [pathSizeOk_cons_right]
          exact ⟨by omega, hsl, by simpa using hp⟩

lemma insertLoop_new {key : Int} : ∀ (t : Tree) (path : Path), t.bst = true →
    key ∉ t.inorder →
    ∃ p', insertLoop t path key =
        (fixup_insert (.node .nil key 1 RED .nil) (bumpPath p'), key, true) ∧
      leftList p' = leftList path ++ t.inorder.filter (fun x => decide (x < key)) ∧
      rightList p' = t.inorder.filter (fun x => decide (key < x)) ++ rightList path := by
  intro t
  induction t with
  | nil =>
      intro path _ _
      exact ⟨path, rfl, by simp, by simp⟩
  | node l k sz col r ihl ihr =>
      intro path hb hmem
      obtain ⟨hal, har, hbl, hbr⟩ := bst_node hb
      have hkey : key ≠ k := fun h => hmem (by simp [h])
      have hrk : ∀ x ∈ r.inorder, k < x := fun x hx => by simpa using allB_mem har hx
      have hlk : ∀ x ∈ l.inorder, x < k := fun x hx => by simpa using allB_mem hal hx
      rw [insertLoop, if_neg hkey]
      by_cases hlt : key < k
      · rw [if_pos hlt]
        obtain ⟨p', h1, h2, h3⟩ :=
          ihl (.leftF k sz col r :: path) hbl (fun h => hmem (by simp [h]))
        refine ⟨p', h1, ?_, ?_⟩
        · rw [h2]
          simp only [leftList, inorder_node, List.filter_append, List.filter_cons]
          have e1 : ¬ (decide (k < key) = true) := by simp; omega
          have e2 : r.inorder.filter (fun x => decide (x < key)) = [] :=
            List.filter_eq_nil.2 fun a ha => by
              have := hrk a ha; simp; omega
          simp [e1, e2]
        · rw [h3]
          simp only [rightList, inorder_node, List.filter_append, List.filter_cons]
          have e1 : decide (k < key) = false := by simp; omega
          have e2 : r.inorder.filter (fun x => decide (key < x)) = r.inorder :=
            List.filter_eq_self.2 fun a ha => by
              have := hrk a ha; simp; omega
          simp [hlt, e2, List.append_assoc]
      · have hgt : k < key := by omega
        rw [if_neg hlt]
        obtain ⟨p', h1, h2, h3⟩ :=
          ihr (.rightF k sz col l :: path) hbr (fun h => hmem (by simp [h]))
        refine ⟨p', h1, ?_, ?_⟩
        · rw [h2]
          simp only [leftList, inorder_node, List.filter_append, List.filter_cons]
          have e2 : l.inorder.filter (fun x => decide (x < key)) = l.inorder :=
            List.filter_eq_self.2 fun a ha => by
              have := hlk a ha; simp; omega
          simp [hgt, e2, List.append_assoc]
        · rw [h3]
          simp only [rightList, inorder_node, List.filter_append, List.filter_cons]
          have e1 : ¬ (decide (key < k) = true) := by simp; omega
          have e2 : l.inorder.filter (fun x => decide (key < x)) = [] :=
            List.filter_eq_nil.2 fun a ha => by
              have := hlk a ha; simp; omega
          simp [e1, e2]

lemma insert_inorder_new {t : Tree} {key : Int} (hb : t.bst = true)
    (hmem : key ∉ t.inorder) :
    (insert t key).1.inorder =
      t.inorder.filter (fun x => decide (x < key)) ++
        key :: t.inorder.filter (fun x => decide (key < x)) := by
  obtain ⟨p', h1, h2, h3⟩ := insertLoop_new t [] hb hmem
  rw [insert, h1]
  simp only [inorder_fixup_insert, inorder_plug, leftList_bumpPath, rightList_bumpPath,
    h2, h3]
  simp [leftList, rightList]

lemma insert_sizeOk {t : Tree} {key : Int} (hs : t.sizeOk = true) :
    ((insert t key).1).sizeOk = true :=
  insertLoop_sizeOk t [] hs rfl

lemma pairwise_filter_insert {A : List Int} {key : Int}
    (h : A.Pairwise (· < ·)) :
    (A.filter (fun x => decide (x < key)) ++
      key :: A.filter (fun x => decide (key < x))).Pairwise (· < ·) := by
  rw [List.pairwise_append]
  refine ⟨h.sublist (List.filter_sublist A), ?_, ?_⟩
  · rw [List.pairwise_cons]
    refine ⟨fun b hb => ?_, (h.sublist (List.filter_sublist A))⟩
    have := List.of_mem_filter hb
    simpa using this
  · intro a ha b hb
    have ha' := List.of_mem_filter ha
    simp only [decide_eq_true_eq] at ha'
    rcases List.mem_cons.1 hb with rfl | hb
    · exact ha'
    · have hb' := List.of_mem_filter hb
      simp only [decide_eq_true_eq] at hb'
      omega

lemma insert_bst {t : Tree} {key : Int} (hb : t.bst = true) :
    ((insert t key).1).bst = true := by
  by_cases hmem : key ∈ t.inorder
  · rw [insert_present_noop t key hb hmem]
    exact hb
  · rw [bst_iff_pairwise, insert_inorder_new hb hmem]
    exact pairwise_filter_insert (bst_pairwise hb)

lemma buildFrom_invariants (ks : List Int) :
    (buildFrom ks).sizeOk = true ∧ (buildFrom ks).bst = true := by
  have main : ∀ (l : List Int) (t : Tree), t.sizeOk = true → t.bst = true →
      (l.foldl (fun t k => (insert t k).1) t).sizeOk = true ∧
      (l.foldl (fun t k => (insert t k).1) t).bst = true := by
    intro l
    induction l with
    | nil => intro t hs hb; exact ⟨hs, hb⟩
    | cons a l ih =>
        intro t hs hb
        exact ih _ (insert_sizeOk hs) (insert_bst hb)
  exact main ks .nil rfl rfl

/-! ## C6: rank/order round-trip -/

lemma countP_lt_of_sorted : ∀ {A : List Int}, A.Pairwise (· < ·) →
    ∀ {i : Nat} (hi : i < A.length),
      A.countP (fun x => decide (x < A.get ⟨i, hi⟩)) = i := by
  intro A
  induction A with
  | nil => intro _ i hi; simp at hi
  | cons a A ih =>
      intro h i hi
      rw [List.pairwise_cons] at h
      cases i with
      | zero =>
          simp only [List.get]
          rw [List.countP_cons]
          have e1 : A.countP (fun x => decide (x < a)) = 0 :=
            List.countP_eq_zero.2 fun b hb => by
              have := h.1 b hb; simp; omega
          simp [e1]
      | succ i =>
          have hi' : i < A.length := by
            have h2 := hi
            simp only [List.length_cons] at h2
            omega
          have hget : List.get (a :: A) ⟨i + 1, hi⟩ = A.get ⟨i, hi'⟩ := rfl
          rw [hget, List.countP_cons]
          have e1 : decide (a < A.get ⟨i, hi'⟩) = true := by
            simp only [decide_eq_true_eq]
            exact h.1 _ (A.get_mem i hi')
          rw [ih h.2 hi', e1]
          simp

/-- C6.  For every tree reachable by inserting any sequence of keys into
an empty tree, and every rank `i < size()`: `find_by_order(i)` lands on a
node whose key `k` satisfies `order_of_key(k) = i`. -/
theorem rank_order_roundtrip (ks : List Int) (i : Nat)
    (hi : i < (buildFrom ks).size) :
    ∃ k, find_by_order (buildFrom ks) i = some k ∧
      order_of_key (buildFrom ks) k = i := by
  obtain ⟨hs, hb⟩ := buildFrom_invariants ks
  have hlen : (buildFrom ks).inorder.length = (buildFrom ks).size := length_inorder hs
  have hil : i < (buildFrom ks).inorder.length := by omega
  refine ⟨(buildFrom ks).inorder.get ⟨i, hil⟩, ?_, ?_⟩
  · rw [(find_by_order_spec _ i hs).1 hi, List.get?_eq_get hil]
  · rw [order_of_key_counts _ _ hs hb]
    exact countP_lt_of_sorted (bst_pairwise hb) hil

/-- Witness for C6 on the spec's §8 scenario insertion sequence. -/
theorem rank_order_roundtrip_witness :
    2 < (buildFrom [12, 505, 30, 1000, 10000, 100]).size ∧
    ∃ k, find_by_order (buildFrom [12, 505, 30, 1000, 10000, 100]) 2 = some k ∧
      order_of_key (buildFrom [12, 505, 30, 1000, 10000, 100]) k = 2 :=
  ⟨by decide, rank_order_roundtrip [12, 505, 30, 1000, 10000, 100] 2 (by decide)⟩

/-! ## `fixup_erase` preserves the in-order sequence -/

lemma fixup_erase_red {x : Tree} (hx : x.rootColor = RED) (f : Frame) (p : Path) :
    fixup_erase x (f :: p) = plug x.setBlack (f :: p) := by
  rw [fixup_erase.eq_def]
  simp [hx]

lemma inorder_eraseTermL (x : Tree) (pk : Int) (ps : Nat) (pc : Bool) (w2 : Tree)
    (rest : Path) :
    (eraseTermL x pk ps pc w2 rest).inorder =
      leftList rest ++ x.inorder ++ pk :: w2.inorder ++ rightList rest := by
  cases w2 <;>
    simp [eraseTermL, inorder_plug, inorder_rotate_left, List.append_assoc]

lemma inorder_eraseTermR (x : Tree) (pk : Int) (ps : Nat) (pc : Bool) (w2 : Tree)
    (rest : Path) :
    (eraseTermR x pk ps pc w2 rest).inorder =
      leftList rest ++ w2.inorder ++ pk :: x.inorder ++ rightList rest := by
  cases w2 <;>
    simp [eraseTermR, inorder_plug, inorder_rotate_right, List.append_assoc]

lemma inorder_ite (c : Prop) [Decidable c] (a b : Tree) :
    (if c then a else b).inorder = if c then a.inorder else b.inorder := by
  split <;> rfl

lemma inorder_fixup_erase : ∀ x p, (fixup_erase x p).inorder = (plug x p).inorder := by
  intro x p
  induction x, p using fixup_erase.induct <;>
    simp_all [fixup_erase, fixup_erase_red, inorder_plug, inorder_rotate_left,
      inorder_rotate_right, inorder_eraseTermL, inorder_eraseTermR, inorder_ite,
      plug_cons, plug1, leftList, rightList, List.append_assoc] <;>
    first
    | (rw [fixup_erase.eq_def] <;>
        simp_all [inorder_plug, inorder_rotate_left, inorder_rotate_right,
          inorder_eraseTermL, inorder_eraseTermR, inorder_ite, plug_cons, plug1,
          leftList, rightList, List.append_assoc])
    | (split <;>
        simp_all [fixup_erase, inorder_plug, inorder_rotate_left, inorder_rotate_right,
          inorder_eraseTermL, inorder_eraseTermR, inorder_ite, plug_cons, plug1,
          leftList, rightList, List.append_assoc])

/-! ## Path bookkeeping for `erase` -/

lemma leftList_append (p q : Path) : leftList (p ++ q) = leftList q ++ leftList p := by
  induction p with
  | nil => simp [leftList]
  | cons f p ih => cases f <;> simp [leftList, ih, List.append_assoc]

lemma rightList_append (p q : Path) : rightList (p ++ q) = rightList p ++ rightList q := by
  induction p with
  | nil => simp [rightList]
  | cons f p ih => cases f <;> simp [rightList, ih, List.append_assoc]

lemma plug_append (t : Tree) (p q : Path) : plug t (p ++ q) = plug (plug t p) q := by
  induction p generalizing t with
  | nil => rfl
  | cons f p ih => simp [plug_cons, ih]

/-- Number of keys a parent chain adds around its hole. -/
def frameWeight : Path → Nat
  | [] => 0
  | f :: p => 1 + f.sib.size + frameWeight p

lemma frameWeight_decPath (p : Path) : frameWeight (decPath p) = frameWeight p := by
  induction p with
  | nil => rfl
  | cons f p ih => cases f <;> simp [decPath, frameWeight, Frame.sib, ih]

lemma size_plug {t : Tree} : ∀ {p : Path}, pathSizeOk p t.size = true →
    (plug t p).size = t.size + frameWeight p := by
  intro p
  induction p generalizing t with
  | nil => intro _; simp [frameWeight]
  | cons f p ih =>
      intro hp
      cases f with
      | leftF k sz c sib =>
          rw [pathSizeOk_cons_left] at hp
          rw [plug_cons, show plug1 t (Frame.leftF k sz c sib) =
            Tree.node t k sz c sib from rfl,
            ih (by simpa using hp.2.2)]
          simp [frameWeight, Frame.sib]
          omega
      | rightF k sz c sib =>
          rw [pathSizeOk_cons_right] at hp
          rw [plug_cons, show plug1 t (Frame.rightF k sz c sib) =
            Tree.node sib k sz c t from rfl,
            ih (by simpa using hp.2.2)]
          simp [frameWeight, Frame.sib]
          omega

lemma pathSizeOk_decPath {p : Path} {n : Nat} (h : pathSizeOk p (n + 1) = true) :
    pathSizeOk (decPath p) n = true := by
  induction p generalizing n with
  | nil => rfl
  | cons f p ih =>
      cases f with
      | leftF k sz c sib =>
          rw [pathSizeOk_cons_left] at h
          rw [show decPath (Frame.leftF k sz c sib :: p) =
            Frame.leftF k (sz - 1) c sib :: decPath p from rfl, pathSizeOk_cons_left]
          obtain ⟨h1, h2, h3⟩ := h
          refine ⟨by omega, h2, ?_⟩
          have : sz - 1 + 1 = sz := by omega
          exact this ▸ ih (by simpa [this] using h3)
      | rightF k sz c sib =>
          rw [pathSizeOk_cons_right] at h
          rw [show decPath (Frame.rightF k sz c sib :: p) =
            Frame.rightF k (sz - 1) c sib :: decPath p from rfl, pathSizeOk_cons_right]
          obtain ⟨h1, h2, h3⟩ := h
          refine ⟨by omega, h2, ?_⟩
          have : sz - 1 + 1 = sz := by omega
          exact this ▸ ih (by simpa [this] using h3)

lemma pathSizeOk_append {p q : Path} {n : Nat} (hp : pathSizeOk p n = true)
    (hq : pathSizeOk q (n + frameWeight p) = true) :
    pathSizeOk (p ++ q) n = true := by
  induction p generalizing n with
  | nil => simpa [frameWeight] using hq
  | cons f p ih =>
      cases f with
      | leftF k sz c sib =>
          rw [pathSizeOk_cons_left] at hp
          rw [List.cons_append, pathSizeOk_cons_left]
          refine ⟨hp.1, hp.2.1, ih hp.2.2 ?_⟩
          have : sz + frameWeight p = n + frameWeight (Frame.leftF k sz c sib :: p) := by
            simp [frameWeight, Frame.sib]
            omega
          rw [this]
          exact hq
      | rightF k sz c sib =>
          rw [pathSizeOk_cons_right] at hp
          rw [List.cons_append, pathSizeOk_cons_right]
          refine ⟨hp.1, hp.2.1, ih hp.2.2 ?_⟩
          have : sz + frameWeight p = n + frameWeight (Frame.rightF k sz c sib :: p) := by
            simp [frameWeight, Frame.sib]
            omega
          rw [this]
          exact hq

lemma sizeOk_plug_decomp {t : Tree} : ∀ {p : Path}, (plug t p).sizeOk = true →
    t.sizeOk = true ∧ pathSizeOk p t.size = true := by
  intro p
  induction p generalizing t with
  | nil => intro h; exact ⟨h, rfl⟩
  | cons f p ih =>
      intro h
      cases f with
      | leftF k sz c sib =>
          rw [plug_cons, show plug1 t (Frame.leftF k sz c sib) =
            Tree.node t k sz c sib from rfl] at h
          obtain ⟨h1, h2⟩ := ih h
          obtain ⟨h3, h4, h5⟩ := sizeOk_node h1
          exact ⟨h4, by rw [pathSizeOk_cons_left]; exact ⟨by simpa using h3, h5, by simpa using h2⟩⟩
      | rightF k sz c sib =>
          rw [plug_cons, show plug1 t (Frame.rightF k sz c sib) =
            Tree.node sib k sz c t from rfl] at h
          obtain ⟨h1, h2⟩ := ih h
          obtain ⟨h3, h4, h5⟩ := sizeOk_node h1
          exact ⟨h5, by rw [pathSizeOk_cons_right]; exact ⟨by simpa using h3, h4, by simpa using h2⟩⟩

lemma minSplit_spec : ∀ (u : Tree), u ≠ .nil → ∀ (acc : Path),
    ∃ yk ys yc yr inner, minSplit u acc = (.node .nil yk ys yc yr, inner ++ acc) ∧
      leftList inner = [] ∧
      plug (.node .nil yk ys yc yr) inner = u := by
  intro u
  induction u with
  | nil => intro h; exact absurd rfl h
  | node l k sz c r ihl _ =>
      intro _ acc
      cases l with
      | nil => exact ⟨k, sz, c, r, [], by simp [minSplit], rfl, rfl⟩
      | node ll lk ls lc lr =>
          obtain ⟨yk, ys, yc, yr, inner, h1, h2, h3⟩ :=
            ihl (by simp) (.leftF k sz c r :: acc)
          refine ⟨yk, ys, yc, yr, inner ++ [.leftF k sz c r], ?_, ?_, ?_⟩
          · rw [minSplit, h1]
            simp
          · rw [leftList_append, h2]
            simp [leftList]
          · rw [plug_append, h3]
            rfl

lemma searchLoop_plug {key : Int} : ∀ (t : Tree) (path : Path) (z : Tree) (p' : Path),
    searchLoop t key path = some (z, p') →
    plug z p' = plug t path ∧
    ∃ zl zs zc zr, z = Tree.node zl key zs zc zr := by
  intro t
  induction t with
  | nil => intro path z p' h; simp [searchLoop] at h
  | node l k sz col r ihl ihr =>
      intro path z p' h
      rw [searchLoop] at h
      by_cases hkey : key ≠ k
      · rw [if_pos hkey] at h
        by_cases hlt : key < k
        · rw [if_pos hlt] at h
          obtain ⟨h1, h2⟩ := ihl _ _ _ h
          exact ⟨h1, h2⟩
        · rw [if_neg hlt] at h
          obtain ⟨h1, h2⟩ := ihr _ _ _ h
          exact ⟨h1, h2⟩
      · rw [if_neg hkey] at h
        push_neg at hkey
        injection h with h
        injection h with h1 h2
        subst h2
        exact ⟨by rw [← h1], l, sz, col, r, by rw [← h1, hkey]⟩

/-! ## `fixup_erase` preserves size consistency -/
lemma sizeOk_eraseTermL {x w2 : Tree} {pk : Int} {ps : Nat} {pc : Bool} {rest : Path}
    (hx : x.sizeOk = true) (hw : w2.sizeOk = true) (hps : ps = 1 + x.size + w2.size)
    (hrest : pathSizeOk rest ps = true) :
    (eraseTermL x pk ps pc w2 rest).sizeOk = true := by
  cases w2 with
  | nil =>
      simp only [size_nil] at hps
      refine sizeOk_setBlack (sizeOk_plug ?_ ?_)
      · rw [sizeOk_node_iff]
        exact ⟨by simp; omega, hx, rfl⟩
      · simpa using hrest
  | node bl bk bs bc br =>
      obtain ⟨h1, h2, h3⟩ := sizeOk_node hw
      simp only [size_node] at hps
      have hin : (Tree.node x pk ps BLACK (Tree.node bl bk bs pc br.setBlack)).sizeOk
          = true := by
        rw [sizeOk_node_iff]
        refine ⟨by simp; omega, hx, ?_⟩
        rw [sizeOk_node_iff]
        exact ⟨by simp; omega, h2, sizeOk_setBlack h3⟩
      have hrot := sizeOk_rotate_left hin
      exact sizeOk_setBlack (sizeOk_plug hrot.1 (by rw [hrot.2]; simpa using hrest))

lemma sizeOk_eraseTermR {x w2 : Tree} {pk : Int} {ps : Nat} {pc : Bool} {rest : Path}
    (hx : x.sizeOk = true) (hw : w2.sizeOk = true) (hps : ps = 1 + w2.size + x.size)
    (hrest : pathSizeOk rest ps = true) :
    (eraseTermR x pk ps pc w2 rest).sizeOk = true := by
  cases w2 with
  | nil =>
      simp only [size_nil] at hps
      refine sizeOk_setBlack (sizeOk_plug ?_ ?_)
      · rw [sizeOk_node_iff]
        exact ⟨by simp; omega, rfl, hx⟩
      · simpa using hrest
  | node bl bk bs bc br =>
      obtain ⟨h1, h2, h3⟩ := sizeOk_node hw
      simp only [size_node] at hps
      have hin : (Tree.node (Tree.node bl.setBlack bk bs pc br) pk ps BLACK x).sizeOk
          = true := by
        rw [sizeOk_node_iff]
        refine ⟨by simp; omega, ?_, hx⟩
        rw [sizeOk_node_iff]
        exact ⟨by simp; omega, sizeOk_setBlack h2, h3⟩
      have hrot := sizeOk_rotate_right hin
      exact sizeOk_setBlack (sizeOk_plug hrot.1 (by rw [hrot.2]; simpa using hrest))
lemma sizeOk_fixup_erase : ∀ x p, x.sizeOk = true → pathSizeOk p x.size = true →
    (fixup_erase x p).sizeOk = true := by
  intro x p
  induction x, p using fixup_erase.induct
  case case1 x =>
      intro hx _
      rw [fixup_erase.eq_def]
      exact sizeOk_setBlack hx
  case case2 x f p hred =>
      intro hx hp
      rw [fixup_erase_red hred]
      exact sizeOk_plug (sizeOk_setBlack hx) (by simpa using hp)
  case case3 x p hb pk ps pc ih =>
      intro hx hp
      rw [fixup_erase.eq_def]
      simp only [hb, if_false, if_true]
      rw [pathSizeOk_cons_left] at hp
      apply ih
      · rw [sizeOk_node_iff]
        exact ⟨by simp at hp ⊢; omega, hx, rfl⟩
      · simpa using hp.2.2
  case case4 x p hb pk ps pc wk wsz wr ih =>
      intro hx hp
      rw [fixup_erase.eq_def]
      simp only [hb, if_false, if_true]
      rw [pathSizeOk_cons_left] at hp
      obtain ⟨he, hw, hp2⟩ := hp
      obtain ⟨he2, hwl, hwr⟩ := sizeOk_node hw
      simp only [size_node] at he
      simp only [size_nil] at he2
      apply ih
      · rw [sizeOk_node_iff]
        exact ⟨by (try simp); omega, hx, rfl⟩
      · rw [pathSizeOk_cons_left]
        exact ⟨by (try simp); omega, hwr, by simpa [show wsz + x.size + 1 = ps by omega] using hp2⟩
  case case5 x p hb pk ps pc wk wsz wr al ak asz acol ar hbb ih =>
      intro hx hp
      rw [fixup_erase.eq_def]
      simp only [hb, if_false, if_true]
      rw [if_pos hbb]
      rw [pathSizeOk_cons_left] at hp
      obtain ⟨he, hw, hp2⟩ := hp
      obtain ⟨he2, hwl, hwr⟩ := sizeOk_node hw
      obtain ⟨he3, hal, har⟩ := sizeOk_node hwl
      simp only [size_node] at he he2
      apply ih
      · rw [sizeOk_node_iff]
        refine ⟨by (try simp); omega, hx, ?_⟩
        rw [sizeOk_node_iff]
        exact ⟨he3, hal, har⟩
      · rw [pathSizeOk_cons_left]
        exact ⟨by (try simp); omega, hwr, by simpa [show wsz + x.size + 1 = ps by omega] using hp2⟩
  case case6 x p hb pk ps pc wk wsz wr al ak asz acol ar hbb =>
      intro hx hp
      rw [fixup_erase.eq_def]
      simp only [hb, if_false, if_true]
      rw [if_neg hbb]
      rw [pathSizeOk_cons_left] at hp
      obtain ⟨he, hw, hp2⟩ := hp
      obtain ⟨he2, hwl, hwr⟩ := sizeOk_node hw
      obtain ⟨he3, hal, har⟩ := sizeOk_node hwl
      simp only [size_node] at he he2
      refine sizeOk_eraseTermL hx ?_ ?_ ?_
      · by_cases hc : ar.rootColor = BLACK
        · rw [if_pos hc]
          refine (sizeOk_rotate_right ?_).1
          rw [sizeOk_node_iff]
          exact ⟨by (try simp); omega, sizeOk_setBlack hal, har⟩
        · rw [if_neg hc]
          rw [sizeOk_node_iff]
          exact ⟨he3, hal, har⟩
      · by_cases hc : ar.rootColor = BLACK
        · rw [if_pos hc]
          have := (sizeOk_rotate_right (t := Tree.node al.setBlack ak asz RED ar) ?_).2
          · rw [this]; simp; omega
          · rw [sizeOk_node_iff]
            exact ⟨by (try simp); omega, sizeOk_setBlack hal, har⟩
        · rw [if_neg hc]
          simp only [size_node]
          omega
      · rw [pathSizeOk_cons_left]
        exact ⟨by (try simp); omega, hwr, by simpa [show wsz + x.size + 1 = ps by omega] using hp2⟩
  case case7 x p hb pk ps pc wl wk wsz wcol wr hw2 hbb ih =>
      intro hx hp
      rw [fixup_erase.eq_def]
      simp only [hb, hw2, if_false, if_true]
      rw [if_pos hbb]
      rw [pathSizeOk_cons_left] at hp
      obtain ⟨he, hw, hp2⟩ := hp
      obtain ⟨he2, hwl, hwr⟩ := sizeOk_node hw
      simp only [size_node] at he
      apply ih
      · rw [sizeOk_node_iff]
        refine ⟨by (try simp); omega, hx, ?_⟩
        rw [sizeOk_node_iff]
        exact ⟨he2, hwl, hwr⟩
      · simpa using hp2
  case case8 x p hb pk ps pc wl wk wsz wcol wr hw2 hbb =>
      intro hx hp
      rw [fixup_erase.eq_def]
      simp only [hb, hw2, if_false, if_true]
      rw [if_neg hbb]
      rw [pathSizeOk_cons_left] at hp
      obtain ⟨he, hw, hp2⟩ := hp
      obtain ⟨he2, hwl, hwr⟩ := sizeOk_node hw
      simp only [size_node] at he
      refine sizeOk_eraseTermL hx ?_ ?_ (by simpa using hp2)
      · by_cases hc : wr.rootColor = BLACK
        · rw [if_pos hc]
          refine (sizeOk_rotate_right ?_).1
          rw [sizeOk_node_iff]
          exact ⟨by (try simp); omega, sizeOk_setBlack hwl, hwr⟩
        · rw [if_neg hc]
          rw [sizeOk_node_iff]
          exact ⟨he2, hwl, hwr⟩
      · by_cases hc : wr.rootColor = BLACK
        · rw [if_pos hc]
          have := (sizeOk_rotate_right (t := Tree.node wl.setBlack wk wsz RED wr) ?_).2
          · rw [this]; simp; omega
          · rw [sizeOk_node_iff]
            exact ⟨by (try simp); omega, sizeOk_setBlack hwl, hwr⟩
        · rw [if_neg hc]
          simp only [size_node]
          omega
  case case9 x p hb pk ps pc ih =>
      intro hx hp
      rw [fixup_erase.eq_def]
      simp only [hb, if_false, if_true]
      rw [pathSizeOk_cons_right] at hp
      apply ih
      · rw [sizeOk_node_iff]
        exact ⟨by simp at hp ⊢; omega, rfl, hx⟩
      · simpa using hp.2.2
  case case10 x p hb pk ps pc wl wk wsz ih =>
      intro hx hp
      rw [fixup_erase.eq_def]
      simp only [hb, if_false, if_true]
      rw [pathSizeOk_cons_right] at hp
      obtain ⟨he, hw, hp2⟩ := hp
      obtain ⟨he2, hwl, hwr⟩ := sizeOk_node hw
      simp only [size_node] at he
      simp only [size_nil] at he2
      apply ih
      · rw [sizeOk_node_iff]
        exact ⟨by (try simp); omega, rfl, hx⟩
      · rw [pathSizeOk_cons_right]
        exact ⟨by (try simp); omega, hwl, by simpa [show wsz + x.size + 1 = ps by omega] using hp2⟩
  case case11 x p hb pk ps pc wl wk wsz al ak asz acol ar hbb ih =>
      intro hx hp
      rw [fixup_erase.eq_def]
      simp only [hb, if_false, if_true]
      rw [if_pos hbb]
      rw [pathSizeOk_cons_right] at hp
      obtain ⟨he, hw, hp2⟩ := hp
      obtain ⟨he2, hwl, hwr⟩ := sizeOk_node hw
      obtain ⟨he3, hal, har⟩ := sizeOk_node hwr
      simp only [size_node] at he he2
      apply ih
      · rw [sizeOk_node_iff]
        refine ⟨by (try simp); omega, ?_, hx⟩
        rw [sizeOk_node_iff]
        exact ⟨he3, hal, har⟩
      · rw [pathSizeOk_cons_right]
        exact ⟨by (try simp); omega, hwl, by simpa [show wsz + x.size + 1 = ps by omega] using hp2⟩
  case case12 x p hb pk ps pc wl wk wsz al ak asz acol ar hbb =>
      intro hx hp
      rw [fixup_erase.eq_def]
      simp only [hb, if_false, if_true]
      rw [if_neg hbb]
      rw [pathSizeOk_cons_right] at hp
      obtain ⟨he, hw, hp2⟩ := hp
      obtain ⟨he2, hwl, hwr⟩ := sizeOk_node hw
      obtain ⟨he3, hal, har⟩ := sizeOk_node hwr
      simp only [size_node] at he he2
      refine sizeOk_eraseTermR hx ?_ ?_ ?_
      · by_cases hc : al.rootColor = BLACK
        · rw [if_pos hc]
          refine (sizeOk_rotate_left ?_).1
          rw [sizeOk_node_iff]
          exact ⟨by (try simp); omega, hal, sizeOk_setBlack har⟩
        · rw [if_neg hc]
          rw [sizeOk_node_iff]
          exact ⟨he3, hal, har⟩
      · by_cases hc : al.rootColor = BLACK
        · rw [if_pos hc]
          have := (sizeOk_rotate_left (t := Tree.node al ak asz RED ar.setBlack) ?_).2
          · rw [this]; simp; omega
          · rw [sizeOk_node_iff]
            exact ⟨by (try simp); omega, hal, sizeOk_setBlack har⟩
        · rw [if_neg hc]
          simp only [size_node]
          omega
      · rw [pathSizeOk_cons_right]
        exact ⟨by (try simp); omega, hwl, by simpa [show wsz + x.size + 1 = ps by omega] using hp2⟩
  case case13 x p hb pk ps pc wl wk wsz wcol wr hw2 hbb ih =>
      intro hx hp
      rw [fixup_erase.eq_def]
      simp only [hb, hw2, if_false, if_true]
      rw [if_pos hbb]
      rw [pathSizeOk_cons_right] at hp
      obtain ⟨he, hw, hp2⟩ := hp
      obtain ⟨he2, hwl, hwr⟩ := sizeOk_node hw
      simp only [size_node] at he
      apply ih
      · rw [sizeOk_node_iff]
        refine ⟨by (try simp); omega, ?_, hx⟩
        rw [sizeOk_node_iff]
        exact ⟨he2, hwl, hwr⟩
      · simpa using hp2
  case case14 x p hb pk ps pc wl wk wsz wcol wr hw2 hbb =>
      intro hx hp
      rw [fixup_erase.eq_def]
      simp only [hb, hw2, if_false, if_true]
      rw [if_neg hbb]
      rw [pathSizeOk_cons_right] at hp
      obtain ⟨he, hw, hp2⟩ := hp
      obtain ⟨he2, hwl, hwr⟩ := sizeOk_node hw
      simp only [size_node] at he
      refine sizeOk_eraseTermR hx ?_ ?_ (by simpa using hp2)
      · by_cases hc : wl.rootColor = BLACK
        · rw [if_pos hc]
          refine (sizeOk_rotate_left ?_).1
          rw [sizeOk_node_iff]
          exact ⟨by (try simp); omega, hwl, sizeOk_setBlack hwr⟩
        · rw [if_neg hc]
          rw [sizeOk_node_iff]
          exact ⟨he2, hwl, hwr⟩
      · by_cases hc : wl.rootColor = BLACK
        · rw [if_pos hc]
          have := (sizeOk_rotate_left (t := Tree.node wl wk wsz RED wr.setBlack) ?_).2
          · rw [this]; simp; omega
          · rw [sizeOk_node_iff]
            exact ⟨by (try simp); omega, hwl, sizeOk_setBlack hwr⟩
        · rw [if_neg hc]
          simp only [size_node]
          omega

/-! ## `eraseNode` and `erase`: in-order effect and size consistency -/
lemma inorder_eraseNode (zl : Tree) (zk : Int) (zs : Nat) (zc : Bool) (zr : Tree)
    (path : Path) :
    (eraseNode (.node zl zk zs zc zr) path).inorder =
      leftList path ++ (zl.inorder ++ zr.inorder) ++ rightList path := by
  rw [eraseNode.eq_def]
  cases zl with
  | nil =>
      by_cases hc : zc = BLACK <;>
        simp [hc, inorder_fixup_erase, inorder_plug, leftList_decPath,
          rightList_decPath, List.append_assoc]
  | node l1 k1 s1 c1 r1 =>
      cases zr with
      | nil =>
          by_cases hc : zc = BLACK <;>
            simp [hc, inorder_fixup_erase, inorder_plug, leftList_decPath,
              rightList_decPath, List.append_assoc]
      | node l2 k2 s2 c2 r2 =>
          obtain ⟨yk, ys, yc, yr, inner, h1, h2, h3⟩ :=
            minSplit_spec (.node l2 k2 s2 c2 r2) (by simp) []
          rw [List.append_nil] at h1
          have hzr : (Tree.node l2 k2 s2 c2 r2).inorder =
              yk :: yr.inorder ++ rightList inner := by
            rw [← h3, inorder_plug, h2]
            simp
          simp only [h1]
          cases inner with
          | nil =>
              simp only [inorder_nil, List.nil_append] at hzr
              by_cases hc : yc = BLACK <;>
                simp [hc, inorder_fixup_erase, inorder_plug, leftList_decPath,
                  rightList_decPath, plug_cons, plug1, hzr, rightList,
                  List.append_assoc]
          | cons f inner' =>
              by_cases hc : yc = BLACK <;>
                simp [hc, inorder_fixup_erase, inorder_plug, leftList_decPath,
                  rightList_decPath, leftList_append, rightList_append, plug_append,
                  plug_cons, plug1, hzr, h2, leftList, rightList,
                  List.append_assoc]
lemma sizeOk_eraseNode {zl : Tree} {zk : Int} {zs : Nat} {zc : Bool} {zr : Tree}
    {path : Path} (hz : (Tree.node zl zk zs zc zr).sizeOk = true)
    (hp : pathSizeOk path zs = true) :
    (eraseNode (.node zl zk zs zc zr) path).sizeOk = true := by
  obtain ⟨h1, hzl, hzr⟩ := sizeOk_node hz
  rw [eraseNode.eq_def]
  cases zl with
  | nil =>
      simp only [size_nil] at h1
      have hdec : pathSizeOk (decPath path) zr.size = true :=
        pathSizeOk_decPath (by rw [show zr.size + 1 = zs by omega]; exact hp)
      by_cases hc : zc = BLACK
      · simp only [hc, if_true]
        exact sizeOk_fixup_erase zr _ hzr hdec
      · simp only [hc, if_false]
        exact sizeOk_plug hzr hdec
  | node l1 k1 s1 c1 r1 =>
      cases zr with
      | nil =>
          simp only [size_nil, size_node] at h1
          have hdec : pathSizeOk (decPath path) (Tree.node l1 k1 s1 c1 r1).size = true :=
            pathSizeOk_decPath (by
              rw [show (Tree.node l1 k1 s1 c1 r1).size + 1 = zs by simp; omega]
              exact hp)
          by_cases hc : zc = BLACK
          · simp only [hc, if_true]
            exact sizeOk_fixup_erase _ _ hzl hdec
          · simp only [hc, if_false]
            exact sizeOk_plug hzl hdec
      | node l2 k2 s2 c2 r2 =>
          obtain ⟨yk, ys, yc, yr, inner, hms, h2, h3⟩ :=
            minSplit_spec (.node l2 k2 s2 c2 r2) (by simp) []
          rw [List.append_nil] at hms
          have hdz := sizeOk_plug_decomp (h3.symm ▸ hzr)
          obtain ⟨hyt, hinner⟩ := hdz
          obtain ⟨hys, _, hyr⟩ := sizeOk_node hyt
          simp only [size_nil, size_node] at hys hinner h1
          simp only [hms]
          cases inner with
          | nil =>
              have hzr2 : Tree.node l2 k2 s2 c2 r2 = Tree.node Tree.nil yk ys yc yr := by
                rw [← h3]; rfl
              have hs2 : s2 = ys := by
                have := congrArg Tree.size hzr2
                simpa using this
              have hysF : ys + (Tree.node l1 k1 s1 c1 r1).size =
                  1 + (Tree.node l1 k1 s1 c1 r1).size + yr.size := by
                simp; omega
              have hdec : pathSizeOk (decPath path)
                  (ys + (Tree.node l1 k1 s1 c1 r1).size) = true :=
                pathSizeOk_decPath (by
                  rw [show ys + (Tree.node l1 k1 s1 c1 r1).size + 1 = zs by simp at h1 ⊢; omega]
                  exact hp)
              by_cases hc : yc = BLACK
              · simp only [hc, if_true]
                apply sizeOk_fixup_erase _ _ hyr
                rw [pathSizeOk_cons_right]
                exact ⟨by simpa using hysF, hzl, hdec⟩
              · simp only [hc, if_false]
                refine sizeOk_plug ?_ (by simpa using hdec)
                rw [sizeOk_node_iff]
                exact ⟨by simpa using hysF, hzl, hyr⟩
          | cons f inner2 =>
              have hinnerDec : pathSizeOk (decPath (f :: inner2)) yr.size = true :=
                pathSizeOk_decPath (by rw [show yr.size + 1 = ys by omega]; exact hinner)
              have hnewR : (plug yr (decPath (f :: inner2))).sizeOk = true :=
                sizeOk_plug hyr hinnerDec
              have hnewRsize : (plug yr (decPath (f :: inner2))).size =
                  yr.size + frameWeight (f :: inner2) := by
                rw [size_plug hinnerDec, frameWeight_decPath]
              have hs2 : s2 = ys + frameWeight (f :: inner2) := by
                have := size_plug (t := Tree.node Tree.nil yk ys yc yr) (p := f :: inner2)
                  (by simpa using hinner)
                rw [h3] at this
                simpa using this
              -- the stored size of the spliced successor
              have hysF : ys - yr.size + (plug yr (decPath (f :: inner2))).size +
                  (Tree.node l1 k1 s1 c1 r1).size =
                  1 + (Tree.node l1 k1 s1 c1 r1).size +
                    (plug yr (decPath (f :: inner2))).size := by
                rw [hnewRsize]
                simp
                omega
              have hdec : pathSizeOk (decPath path)
                  (ys - yr.size + (plug yr (decPath (f :: inner2))).size +
                    (Tree.node l1 k1 s1 c1 r1).size) = true :=
                pathSizeOk_decPath (by
                  rw [show ys - yr.size + (plug yr (decPath (f :: inner2))).size +
                      (Tree.node l1 k1 s1 c1 r1).size + 1 = zs by
                    rw [hnewRsize]; simp at h1 ⊢; omega]
                  exact hp)
              by_cases hc : yc = BLACK
              · simp only [hc, if_true]
                apply sizeOk_fixup_erase _ _ hyr
                apply pathSizeOk_append hinnerDec
                rw [frameWeight_decPath, ← hnewRsize, pathSizeOk_cons_right]
                exact ⟨by simpa using hysF, hzl, hdec⟩
              · simp only [hc, if_false]
                refine sizeOk_plug ?_ (by simpa using hdec)
                rw [sizeOk_node_iff]
                exact ⟨by simpa using hysF, hzl, hnewR⟩

lemma erase_sizeOk {t : Tree} {key : Int} (hs : t.sizeOk = true) :
    ((erase t key).1).sizeOk = true := by
  cases hsearch : searchLoop t key [] with
  | none => simpa only [erase, hsearch] using hs
  | some zp =>
      obtain ⟨z, p2⟩ := zp
      obtain ⟨hplug, zl, zs2, zc, zr, hzeq⟩ := searchLoop_plug t [] z p2 hsearch
      subst hzeq
      simp only [erase, hsearch]
      have hd := sizeOk_plug_decomp (p := p2)
        (t := Tree.node zl key zs2 zc zr) (by rw [hplug]; exact hs)
      exact sizeOk_eraseNode hd.1 (by simpa using hd.2)

lemma erase_inorder_present {t : Tree} {key : Int} (hb : t.bst = true)
    (hmem : key ∈ t.inorder) :
    ∃ A B, t.inorder = A ++ key :: B ∧ (erase t key).1.inorder = A ++ B := by
  obtain ⟨zl, zs2, zc, zr, p2, h1, h2⟩ := searchLoop_found t hb hmem []
  refine ⟨leftList p2 ++ zl.inorder, zr.inorder ++ rightList p2, ?_, ?_⟩
  · have := inorder_plug (.node zl key zs2 zc zr) p2
    rw [h2] at this
    simp only [plug_nil_path] at this
    rw [this, inorder_node]
    simp [List.append_assoc]
  · simp only [erase, h1]
    rw [inorder_eraseNode]
    simp [List.append_assoc]

lemma erase_bst {t : Tree} {key : Int} (hb : t.bst = true) :
    ((erase t key).1).bst = true := by
  by_cases hmem : key ∈ t.inorder
  · obtain ⟨A, B, h1, h2⟩ := erase_inorder_present hb hmem
    rw [bst_iff_pairwise, h2]
    have hpw := bst_pairwise hb
    rw [h1] at hpw
    exact hpw.sublist ((List.sublist_cons_self key B).append_left A)
  · simpa only [erase, searchLoop_not_found t hb hmem []] using hb

/-- Every tree reachable through the public mutating interface satisfies
the size and ordering invariants. -/
lemma reachable_sizeOk_bst {t : Tree} (h : Reachable t) :
    t.sizeOk = true ∧ t.bst = true := by
  induction h with
  | empty => exact ⟨rfl, rfl⟩
  | ins t k _ ih => exact ⟨insert_sizeOk ih.1, insert_bst ih.2⟩
  | ers t k _ ih => exact ⟨erase_sizeOk ih.1, erase_bst ih.2⟩

lemma minPos_spec : ∀ (u : Tree), u ≠ .nil → ∀ (q : Path),
    ∃ mk msz mc mr p2, minPos u q = some (.node .nil mk msz mc mr, p2) ∧
      mk :: mr.inorder ++ rightList p2 = u.inorder ++ rightList q := by
  intro u
  induction u with
  | nil => intro h; exact absurd rfl h
  | node l k sz c r ihl _ =>
      intro _ q
      cases l with
      | nil => exact ⟨k, sz, c, r, q, rfl, by simp⟩
      | node ll lk ls lc lr =>
          obtain ⟨mk, msz, mc, mr, p2, h1, h2⟩ := ihl (by simp) (.leftF k sz c r :: q)
          refine ⟨mk, msz, mc, mr, p2, by rw [minPos]; exact h1, ?_⟩
          rw [h2]
          simp [rightList, List.append_assoc]

lemma upLeftPos_spec : ∀ (p : Path) (x : Tree),
    (upLeftPos x p = none ∧ rightList p = []) ∨
    (∃ yl yk ysz yc yr p2, upLeftPos x p = some (.node yl yk ysz yc yr, p2) ∧
      yk :: yr.inorder ++ rightList p2 = rightList p) := by
  intro p
  induction p with
  | nil => intro x; exact Or.inl ⟨rfl, rfl⟩
  | cons f p ih =>
      intro x
      cases f with
      | leftF k sz c sib =>
          exact Or.inr ⟨x, k, sz, c, sib, p, rfl, by simp [rightList]⟩
      | rightF k sz c sib =>
          rcases ih (.node sib k sz c x) with ⟨h1, h2⟩ | ⟨yl, yk, ysz, yc, yr, p2, h1, h2⟩
          · exact Or.inl ⟨h1, by simpa [rightList] using h2⟩
          · exact Or.inr ⟨yl, yk, ysz, yc, yr, p2, h1, by simpa [rightList] using h2⟩

lemma iterKeys_none : ∀ n, iterKeys n none = [] := by
  intro n
  cases n <;> rfl

lemma iterKeys_pos : ∀ (fuel : Nat) (l : Tree) (k : Int) (sz : Nat) (c : Bool) (r : Tree)
    (p : Path), fuel = 1 + r.inorder.length + (rightList p).length →
    iterKeys fuel (some (.node l k sz c r, p)) = k :: (r.inorder ++ rightList p) := by
  intro fuel
  induction fuel using Nat.strong_induction_on with
  | _ fuel ih =>
      intro l k sz c r p hfuel
      obtain ⟨n, rfl⟩ : ∃ n, fuel = n + 1 := ⟨fuel - 1, by omega⟩
      rw [iterKeys]
      cases r with
      | nil =>
          rw [show succPos (Tree.node l k sz c .nil, p) =
            upLeftPos (Tree.node l k sz c .nil) p from rfl]
          rcases upLeftPos_spec p (Tree.node l k sz c .nil) with
            ⟨h1, h2⟩ | ⟨yl, yk, ysz, yc, yr, p2, h1, h2⟩
          · rw [h1, iterKeys_none]
            simp [h2]
          · have hlen := congrArg List.length h2
            simp at hlen hfuel
            rw [h1, ih n (by omega) yl yk ysz yc yr p2 (by omega)]
            rw [show (Tree.nil).inorder = ([] : List Int) from rfl, List.nil_append]
            exact congrArg _ h2
      | node rl rk rs rc rr =>
          rw [show succPos (Tree.node l k sz c (.node rl rk rs rc rr), p) =
            minPos (.node rl rk rs rc rr) (.rightF k sz c l :: p) from rfl]
          obtain ⟨mk, msz, mc, mr, p2, h1, h2⟩ :=
            minPos_spec (.node rl rk rs rc rr) (by simp) (.rightF k sz c l :: p)
          rw [show rightList (Frame.rightF k sz c l :: p) = rightList p from rfl] at h2
          have hlen := congrArg List.length h2
          simp at hlen hfuel
          rw [h1, ih n (by omega) .nil mk msz mc mr p2 (by omega)]
          exact congrArg _ h2

lemma fboPos_min : ∀ (t : Tree) (p : Path), t.sizeOk = true →
    fboPosLoop t p t.lsize 0 = minPos t p := by
  intro t
  induction t with
  | nil => intro p _; rfl
  | node l k sz c r ihl _ =>
      intro p hs
      obtain ⟨h1, hsl, hsr⟩ := sizeOk_node hs
      cases l with
      | nil =>
          rw [lsize_node, size_nil, fboPosLoop, if_neg (by omega)]
          rfl
      | node ll lk ls lc lr =>
          have hpos : 0 < (Tree.node ll lk ls lc lr).size := by
            obtain ⟨e, _, _⟩ := sizeOk_node hsl
            simp [e]
          rw [lsize_node, fboPosLoop, if_pos (by omega), if_pos (by omega),
            show (Tree.node ll lk ls lc lr).size -
              (Tree.node ll lk ls lc lr).size +
              (Tree.node ll lk ls lc lr).lsize =
              (Tree.node ll lk ls lc lr).lsize by omega,
            ihl _ hsl, minPos]

lemma search_present {key : Int} : ∀ (t : Tree), t.bst = true → key ∈ t.inorder →
    search t key = some key := by
  intro t
  induction t with
  | nil => intro _ h; simp at h
  | node l k sz c r ihl ihr =>
      intro hb hmem
      obtain ⟨hal, har, hbl, hbr⟩ := bst_node hb
      rw [search]
      rcases mem_parts hb hmem with ⟨hlt, hml⟩ | heq | ⟨hgt, hmr⟩
      · rw [if_pos (by omega), if_pos hlt]
        exact ihl hbl hml
      · rw [if_neg (by omega)]
        rw [heq]
      · rw [if_pos (by omega), if_neg (by omega)]
        exact ihr hbr hmr

lemma search_absent {key : Int} : ∀ (t : Tree), t.bst = true → key ∉ t.inorder →
    search t key = none := by
  intro t
  induction t with
  | nil => intro _ _; rfl
  | node l k sz c r ihl ihr =>
      intro hb hmem
      obtain ⟨hal, har, hbl, hbr⟩ := bst_node hb
      have hkey : key ≠ k := fun h => hmem (by simp [h])
      rw [search, if_pos hkey]
      by_cases hlt : key < k
      · rw [if_pos hlt]
        exact ihl hbl (fun h => hmem (by simp [h]))
      · rw [if_neg hlt]
        exact ihr hbr (fun h => hmem (by simp [h]))

/-- C7.  After any sequence of inserts and erases starting from an empty
tree, iterating from `begin()` to `end()` by repeated `operator++`
(successor) visits exactly the in-order key sequence: a strictly
increasing sequence whose members are exactly the currently present keys
(those `search`/`find` locates), of length `size()`. -/
theorem iteration_sorted (t : Tree) (h : Reachable t) :
    iterKeys t.size (begin_pos t) = t.inorder ∧
    (iterKeys t.size (begin_pos t)).Pairwise (· < ·) ∧
    (iterKeys t.size (begin_pos t)).length = t.size ∧
    ∀ k : Int, k ∈ iterKeys t.size (begin_pos t) ↔ search t k ≠ none := by
  obtain ⟨hs, hb⟩ := reachable_sizeOk_bst h
  have main : iterKeys t.size (begin_pos t) = t.inorder := by
    cases ht : t with
    | nil => rfl
    | node l k sz c r =>
        rw [← ht, begin_pos, fboPos_min _ _ hs]
        obtain ⟨mk, msz, mc, mr, p2, h1, h2⟩ := minPos_spec t (by rw [ht]; simp) []
        rw [show rightList ([] : Path) = [] from rfl, List.append_nil] at h2
        have hlen := congrArg List.length h2
        rw [length_inorder hs] at hlen
        simp at hlen
        rw [h1, iterKeys_pos _ _ _ _ _ _ _ (by omega)]
        exact h2
  refine ⟨main, main ▸ bst_pairwise hb, by rw [main, length_inorder hs], fun k => ?_⟩
  rw [main]
  constructor
  · intro hmem
    rw [search_present t hb hmem]
    simp
  · intro hne
    by_contra hmem
    exact hne (search_absent t hb hmem)

/-- Witness for C7 after one insert and one erase. -/
theorem iteration_sorted_witness :
    Reachable (erase (insert Tree.nil 5).1 4).1 ∧
    iterKeys (erase (insert Tree.nil 5).1 4).1.size
        (begin_pos (erase (insert Tree.nil 5).1 4).1) =
      (erase (insert Tree.nil 5).1 4).1.inorder :=
  ⟨Reachable.ers _ 4 (Reachable.ins _ 5 Reachable.empty),
    (iteration_sorted _ (Reachable.ers _ 4 (Reachable.ins _ 5 Reachable.empty))).1⟩

/-! ## Red-black bookkeeping lemmas -/

@[simp] lemma blackH_nil : (Tree.nil).blackH = some 0 := rfl

@[simp] lemma noRedRed_nil : (Tree.nil).noRedRed = true := rfl

@[simp] lemma bhinc_black : bhinc BLACK = 1 := rfl

@[simp] lemma bhinc_red : bhinc RED = 0 := rfl

@[simp] lemma color_leftF {k : Int} {sz : Nat} {c : Bool} {sib : Tree} :
    (Frame.leftF k sz c sib).color = c := rfl

@[simp] lemma color_rightF {k : Int} {sz : Nat} {c : Bool} {sib : Tree} :
    (Frame.rightF k sz c sib).color = c := rfl

@[simp] lemma sib_leftF {k : Int} {sz : Nat} {c : Bool} {sib : Tree} :
    (Frame.leftF k sz c sib).sib = sib := rfl

@[simp] lemma sib_rightF {k : Int} {sz : Nat} {c : Bool} {sib : Tree} :
    (Frame.rightF k sz c sib).sib = sib := rfl

lemma noRedRed_node {l r : Tree} {k : Int} {sz : Nat} {c : Bool} :
    (Tree.node l k sz c r).noRedRed = true ↔
      (c = RED → l.rootColor = BLACK ∧ r.rootColor = BLACK) ∧
        l.noRedRed = true ∧ r.noRedRed = true := by
  rw [show (Tree.node l k sz c r).noRedRed =
    ((!(c = RED) || (l.rootColor = BLACK && r.rootColor = BLACK))
      && l.noRedRed && r.noRedRed) from rfl]
  by_cases hc : c = RED <;> simp [hc]
  tauto

lemma blackH_node {l r : Tree} {k : Int} {sz : Nat} {c : Bool} {n : Nat} :
    (Tree.node l k sz c r).blackH = some n ↔
      ∃ m, l.blackH = some m ∧ r.blackH = some m ∧ n = m + bhinc c := by
  constructor
  · intro h
    simp only [Tree.blackH] at h
    cases hl : l.blackH with
    | none => rw [hl] at h; simp at h
    | some a =>
        cases hr : r.blackH with
        | none => rw [hl, hr] at h; simp at h
        | some b =>
            rw [hl, hr] at h
            simp only [] at h
            by_cases hab : a = b
            · rw [if_pos hab] at h
              refine ⟨a, rfl, by rw [hab], ?_⟩
              have := (Option.some_inj.1 h).symm
              rw [bhinc]
              exact this
            · rw [if_neg hab] at h; cases h
  · rintro ⟨m, hl, hr, rfl⟩
    simp only [Tree.blackH, hl, hr]
    simp [bhinc]

lemma setBlack_eq_self {t : Tree} (h : t.rootColor = BLACK) : t.setBlack = t := by
  cases t with
  | nil => rfl
  | node l k sz c r => rw [rootColor_node] at h; rw [h]; rfl

@[simp] lemma rootColor_setBlack {t : Tree} : t.setBlack.rootColor = BLACK := by
  cases t <;> rfl

lemma noRedRed_setBlack {t : Tree} (h : t.noRedRed = true) :
    t.setBlack.noRedRed = true := by
  cases t with
  | nil => rfl
  | node l k sz c r =>
      rw [noRedRed_node] at h
      rw [setBlack_node, noRedRed_node]
      exact ⟨(by intro hb; exact absurd hb (by decide)), h.2.1, h.2.2⟩

lemma blackH_setBlack_red {t : Tree} {n : Nat} (hc : t.rootColor = RED)
    (h : t.blackH = some n) : t.setBlack.blackH = some (n + 1) := by
  cases t with
  | nil => simp [RED, BLACK] at hc
  | node l k sz c r =>
      rw [rootColor_node] at hc
      rw [blackH_node] at h
      obtain ⟨m, hl, hr, rfl⟩ := h
      rw [setBlack_node, blackH_node]
      exact ⟨m, hl, hr, by simp [hc, bhinc, RED, BLACK]⟩

lemma blackH_setBlack_isSome {t : Tree} {n : Nat} (h : t.blackH = some n) :
    (t.setBlack.blackH).isSome = true := by
  by_cases hc : t.rootColor = BLACK
  · rw [setBlack_eq_self hc, h]; rfl
  · have : t.rootColor = RED := by
      cases hcv : t.rootColor
      · rfl
      · exact absurd (by rw [hcv]; rfl) hc
    rw [blackH_setBlack_red this h]; rfl

lemma rbInv_intro {t : Tree} (h1 : t.rootColor = BLACK) (h2 : t.noRedRed = true)
    (h3 : (t.blackH).isSome = true) : t.rbInv = true := by
  simp [rbInv, h1, h2, h3]

lemma rbInv_setBlack {t : Tree} {n : Nat} (h2 : t.noRedRed = true)
    (h3 : t.blackH = some n) : t.setBlack.rbInv = true :=
  rbInv_intro rootColor_setBlack (noRedRed_setBlack h2) (blackH_setBlack_isSome h3)

/-! ## Parent-chain context lemmas -/

lemma ctxOK_weaken : ∀ (p : Path) (n : Nat) (c : Bool), ctxOK p n c → insCtx p n := by
  intro p n c h
  cases p with
  | nil => trivial
  | cons f q =>
      obtain ⟨h1, h2, h3, h4⟩ := h
      exact ⟨h1, h2, fun hr => (h3 hr).2, h4⟩

lemma insCtx_black : ∀ (p : Path) (n : Nat), insCtx p n → ctxOK p n BLACK := by
  intro p n h
  cases p with
  | nil => trivial
  | cons f q =>
      obtain ⟨h1, h2, h3, h4⟩ := h
      exact ⟨h1, h2, fun hr => ⟨rfl, h3 hr⟩, h4⟩

lemma lastBlack_tail {f : Frame} {p : Path} (h : lastBlack (f :: p)) : lastBlack p := by
  cases p with
  | nil => trivial
  | cons g q => exact h

lemma lastBlack_cons {f : Frame} {p : Path} (h0 : p = [] → f.color = BLACK)
    (h : lastBlack p) : lastBlack (f :: p) := by
  cases p with
  | nil => exact h0 rfl
  | cons g q => exact h

lemma lastBlack_append {p1 p2 : Path} (hne : p2 ≠ []) (h : lastBlack p2) :
    lastBlack (p1 ++ p2) := by
  induction p1 with
  | nil => exact h
  | cons f q ih =>
      have : q ++ p2 ≠ [] := by
        intro he
        exact hne (List.append_eq_nil.1 he).2
      cases hq : q ++ p2 with
      | nil => exact absurd hq this
      | cons g r =>
          rw [List.cons_append, hq]
          rw [hq] at ih
          exact ih

lemma pathBH_append : ∀ (p1 p2 : Path), pathBH (p1 ++ p2) = pathBH p1 + pathBH p2 := by
  intro p1 p2
  induction p1 with
  | nil => simp [pathBH]
  | cons f q ih => rw [List.cons_append, pathBH, pathBH, ih]; omega

lemma topColor_append : ∀ (p1 p2 : Path) (c : Bool),
    topColor (p1 ++ p2) c = topColor p2 (topColor p1 c) := by
  intro p1
  induction p1 with
  | nil => intro p2 c; rfl
  | cons f q ih => intro p2 c; rw [List.cons_append, topColor, topColor, ih]

lemma topColor_ne_nil : ∀ (p : Path) (c c' : Bool), p ≠ [] →
    topColor p c = topColor p c' := by
  intro p c c' h
  cases p with
  | nil => exact absurd rfl h
  | cons f q => rfl

lemma topColor_lastBlack : ∀ (p : Path) (c : Bool), p ≠ [] → lastBlack p →
    topColor p c = BLACK := by
  intro p
  induction p with
  | nil => intro c h; exact absurd rfl h
  | cons f q ih =>
      intro c _ hlb
      rw [topColor]
      cases q with
      | nil => exact hlb
      | cons g r => exact ih f.color (by simp) hlb

lemma ctxOK_append : ∀ (p1 p2 : Path) (n : Nat) (c : Bool), ctxOK p1 n c →
    ctxOK p2 (n + pathBH p1) (topColor p1 c) → ctxOK (p1 ++ p2) n c := by
  intro p1
  induction p1 with
  | nil => intro p2 n c _ h2; simpa using h2
  | cons f q ih =>
      intro p2 n c h1 h2
      obtain ⟨ha, hb, hc, hd⟩ := h1
      refine ⟨ha, hb, hc, ih p2 (n + bhinc f.color) f.color hd ?_⟩
      rw [show n + bhinc f.color + pathBH q = n + pathBH (f :: q) from by
        rw [pathBH]; omega]
      exact h2

lemma insCtx_append : ∀ (f : Frame) (p1 p2 : Path) (n : Nat), insCtx (f :: p1) n →
    ctxOK p2 (n + pathBH (f :: p1)) (topColor (f :: p1) f.color) →
    insCtx (f :: p1 ++ p2) n := by
  intro f p1 p2 n h1 h2
  obtain ⟨ha, hb, hc, hd⟩ := h1
  refine ⟨ha, hb, hc, ctxOK_append p1 p2 (n + bhinc f.color) f.color hd ?_⟩
  rw [show n + bhinc f.color + pathBH p1 = n + pathBH (f :: p1) from by
    rw [pathBH]; omega]
  rw [show topColor p1 f.color = topColor (f :: p1) f.color from rfl]
  exact h2

/-! ## `bumpPath` and `decPath` touch only sizes -/

lemma ctxOK_bumpPath : ∀ (p : Path) (n : Nat) (c : Bool), ctxOK p n c →
    ctxOK (bumpPath p) n c := by
  intro p
  induction p with
  | nil => intro n c h; exact h
  | cons f q ih =>
      intro n c h
      obtain ⟨ha, hb, hc, hd⟩ := h
      cases f <;> exact ⟨ha, hb, hc, ih _ _ hd⟩

lemma ctxOK_decPath : ∀ (p : Path) (n : Nat) (c : Bool), ctxOK p n c →
    ctxOK (decPath p) n c := by
  intro p
  induction p with
  | nil => intro n c h; exact h
  | cons f q ih =>
      intro n c h
      obtain ⟨ha, hb, hc, hd⟩ := h
      cases f <;> exact ⟨ha, hb, hc, ih _ _ hd⟩

lemma lastBlack_bumpPath : ∀ (p : Path), lastBlack p → lastBlack (bumpPath p) := by
  intro p
  induction p with
  | nil => intro h; exact h
  | cons f q ih =>
      intro h
      cases q with
      | nil => cases f <;> exact h
      | cons g r =>
          have := ih (lastBlack_tail h)
          cases f <;>
            exact lastBlack_cons (by intro he; rw [show bumpPath (g :: r) =
              bumpPath (g :: r) from rfl] at he; cases g <;> simp [bumpPath] at he) this

lemma lastBlack_decPath : ∀ (p : Path), lastBlack p → lastBlack (decPath p) := by
  intro p
  induction p with
  | nil => intro h; exact h
  | cons f q ih =>
      intro h
      cases q with
      | nil => cases f <;> exact h
      | cons g r =>
          have := ih (lastBlack_tail h)
          cases f <;>
            exact lastBlack_cons (by intro he; cases g <;> simp [decPath] at he) this

lemma decPath_eq_nil {p : Path} : decPath p = [] ↔ p = [] := by
  cases p with
  | nil => simp [decPath]
  | cons f q => cases f <;> simp [decPath]

lemma pathBH_decPath : ∀ (p : Path), pathBH (decPath p) = pathBH p := by
  intro p
  induction p with
  | nil => rfl
  | cons f q ih => cases f <;> simp [decPath, pathBH, ih]

lemma topColor_decPath : ∀ (p : Path) (c : Bool), topColor (decPath p) c = topColor p c := by
  intro p
  induction p with
  | nil => intro c; rfl
  | cons f q ih => intro c; cases f <;> (rw [decPath, topColor, topColor]; exact ih _)

/-! ## Plugging a red-black subtree into a consistent context -/

lemma rootColor_plug : ∀ (p : Path) (u : Tree), (plug u p).rootColor = topColor p u.rootColor := by
  intro p
  induction p with
  | nil => intro u; rfl
  | cons f q ih =>
      intro u
      rw [plug_cons, ih, show (plug1 u f).rootColor = f.color from by cases f <;> rfl]
      rfl

lemma rootColor_plug_black {p : Path} {u : Tree} (hlb : lastBlack p)
    (h0 : p = [] → u.rootColor = BLACK) : (plug u p).rootColor = BLACK := by
  by_cases hp : p = []
  · rw [rootColor_plug, hp]; exact h0 hp
  · rw [rootColor_plug]; exact topColor_lastBlack p u.rootColor hp hlb

lemma plug_rb : ∀ (p : Path) (u : Tree) (n : Nat), ctxOK p n u.rootColor →
    u.noRedRed = true → u.blackH = some n →
    (plug u p).noRedRed = true ∧ (plug u p).blackH = some (n + pathBH p) := by
  intro p
  induction p with
  | nil =>
      intro u n _ h2 h3
      refine ⟨h2, ?_⟩
      simp only [plug, pathBH]
      rw [h3]
      simp
  | cons f q ih =>
      intro u n hctx h2 h3
      obtain ⟨ha, hb, hc, hd⟩ := hctx
      rw [plug_cons]
      have hcol : (plug1 u f).rootColor = f.color := by cases f <;> rfl
      have hnrr : (plug1 u f).noRedRed = true := by
        cases f with
        | leftF k sz c sib =>
            rw [show plug1 u (Frame.leftF k sz c sib) = Tree.node u k sz c sib from rfl,
              noRedRed_node]
            exact ⟨fun hr => ⟨(hc (by simpa using hr)).1, (hc (by simpa using hr)).2⟩,
              h2, by simpa using ha⟩
        | rightF k sz c sib =>
            rw [show plug1 u (Frame.rightF k sz c sib) = Tree.node sib k sz c u from rfl,
              noRedRed_node]
            exact ⟨fun hr => ⟨(hc (by simpa using hr)).2, (hc (by simpa using hr)).1⟩,
              by simpa using ha, h2⟩
      have hbh : (plug1 u f).blackH = some (n + bhinc f.color) := by
        cases f with
        | leftF k sz c sib =>
            rw [show plug1 u (Frame.leftF k sz c sib) = Tree.node u k sz c sib from rfl,
              blackH_node]
            exact ⟨n, h3, by simpa using hb, by simp⟩
        | rightF k sz c sib =>
            rw [show plug1 u (Frame.rightF k sz c sib) = Tree.node sib k sz c u from rfl,
              blackH_node]
            exact ⟨n, by simpa using hb, h3, by simp⟩
      have := ih (plug1 u f) (n + bhinc f.color) (by rw [hcol]; exact hd) hnrr hbh
      refine ⟨this.1, ?_⟩
      rw [this.2, pathBH]
      congr 1
      omega

/-! ## `fixup_insert` restores the red-black invariant -/

@[simp] lemma rootColor_plug1 {u : Tree} {f : Frame} :
    (plug1 u f).rootColor = f.color := by cases f <;> rfl

@[simp] lemma color_withColor {f : Frame} {b : Bool} :
    (f.withColor b).color = b := by cases f <;> rfl

@[simp] lemma sib_withColor {f : Frame} {b : Bool} :
    (f.withColor b).sib = f.sib := by cases f <;> rfl

lemma noRedRed_plug1_black {u : Tree} {f : Frame} (hf : f.color = BLACK)
    (hu : u.noRedRed = true) (hs : f.sib.noRedRed = true) :
    (plug1 u f).noRedRed = true := by
  cases f with
  | leftF k sz c sib =>
      simp only [color_leftF] at hf
      simp only [sib_leftF] at hs
      rw [show plug1 u (Frame.leftF k sz c sib) = Tree.node u k sz c sib from rfl,
        noRedRed_node]
      exact ⟨fun hr => absurd hr (by rw [hf]; decide), hu, hs⟩
  | rightF k sz c sib =>
      simp only [color_rightF] at hf
      simp only [sib_rightF] at hs
      rw [show plug1 u (Frame.rightF k sz c sib) = Tree.node sib k sz c u from rfl,
        noRedRed_node]
      exact ⟨fun hr => absurd hr (by rw [hf]; decide), hs, hu⟩

lemma blackH_plug1 {u : Tree} {f : Frame} {n : Nat} (hu : u.blackH = some n)
    (hs : f.sib.blackH = some n) :
    (plug1 u f).blackH = some (n + bhinc f.color) := by
  cases f with
  | leftF k sz c sib =>
      simp only [sib_leftF] at hs
      rw [show plug1 u (Frame.leftF k sz c sib) = Tree.node u k sz c sib from rfl,
        blackH_node]
      exact ⟨n, hu, hs, rfl⟩
  | rightF k sz c sib =>
      simp only [sib_rightF] at hs
      rw [show plug1 u (Frame.rightF k sz c sib) = Tree.node sib k sz c u from rfl,
        blackH_node]
      exact ⟨n, hs, hu, rfl⟩

lemma rootColor_black_of_not_red {t : Tree} (h : ¬ t.rootColor = RED) :
    t.rootColor = BLACK := by
  cases hv : t.rootColor
  · exact absurd hv h
  · rfl

lemma fixup_insert_rb : ∀ (z : Tree) (p : Path), z.rootColor = RED → z.noRedRed = true →
    ∀ n : Nat, z.blackH = some n → insCtx p n → lastBlack p →
    (fixup_insert z p).rbInv = true := by
  intro z p
  induction z, p using fixup_insert.induct
  case case1 z =>
      intro _ hnrr n hbh _ _
      exact rbInv_setBlack hnrr hbh
  case case2 z f =>
      intro hzc hnrr n hbh hins hlb
      have hfb : f.color = BLACK := hlb
      obtain ⟨ha, hb, _, _⟩ := hins
      have hctx : ctxOK [f] n z.rootColor :=
        ⟨ha, hb, fun hr => absurd hr (by rw [hfb]; decide), trivial⟩
      have hres := plug_rb [f] z n hctx hnrr hbh
      simp only [fixup_insert]
      exact rbInv_setBlack hres.1 hres.2
  case case3 z f rest hfc gk gs gc uncle hu ih =>
      intro hzc hnrr n hbh hins hlb
      obtain ⟨hfs_nrr, hfs_bh, hf_imp, htail⟩ := hins
      rw [hfc] at htail
      simp only [bhinc_red, Nat.add_zero] at htail
      obtain ⟨hu_nrr, hu_bh, hg_imp, hrest⟩ := htail
      simp only [sib_leftF, color_leftF] at hu_nrr hu_bh hg_imp hrest
      have hgc : gc = BLACK := by
        cases gc
        · exact absurd (hg_imp (by decide)).1 (by decide)
        · rfl
      rw [hgc] at hrest
      simp only [bhinc_black] at hrest
      simp only [fixup_insert]
      rw [if_pos hfc, if_pos hu]
      apply ih rfl
      · rw [noRedRed_node]
        refine ⟨fun _ => ⟨by rw [rootColor_plug1, color_withColor], rootColor_setBlack⟩,
          ?_, noRedRed_setBlack hu_nrr⟩
        exact noRedRed_plug1_black (by rw [color_withColor]) hnrr
          (by rw [sib_withColor]; exact hfs_nrr)
      · show (Tree.node (plug1 z (f.withColor BLACK)) gk gs RED uncle.setBlack).blackH
          = some (n + 1)
        rw [blackH_node]
        refine ⟨n + 1, ?_, blackH_setBlack_red hu hu_bh, by simp [RED, BLACK, bhinc]⟩
        have := blackH_plug1 (f := f.withColor BLACK) hbh
          (by rw [sib_withColor]; exact hfs_bh)
        rw [color_withColor, bhinc_black] at this
        exact this
      · exact ctxOK_weaken _ _ _ hrest
      · exact lastBlack_tail (lastBlack_tail hlb)
  case case4 z f rest hfc gk gs gc uncle hu =>
      intro hzc hnrr n hbh hins hlb
      obtain ⟨hfs_nrr, hfs_bh, hf_imp, htail⟩ := hins
      rw [hfc] at htail
      simp only [bhinc_red, Nat.add_zero] at htail
      obtain ⟨hu_nrr, hu_bh, hg_imp, hrest⟩ := htail
      simp only [sib_leftF, color_leftF] at hu_nrr hu_bh hg_imp hrest
      have hgc : gc = BLACK := by
        cases gc
        · exact absurd (hg_imp (by decide)).1 (by decide)
        · rfl
      rw [hgc] at hrest
      simp only [bhinc_black] at hrest
      have hub : uncle.rootColor = BLACK := rootColor_black_of_not_red hu
      have hsibB := hf_imp hfc
      simp only [fixup_insert]
      rw [if_pos hfc, if_neg hu]
      cases f with
      | leftF fk fsz fc fsib =>
          simp only [sib_leftF] at hfs_nrr hfs_bh hsibB
          have hnrr2 : (Tree.node z fk (fsz + uncle.size + 1) BLACK
              (Tree.node fsib gk (gs - z.size - 1) RED uncle)).noRedRed = true := by
            rw [noRedRed_node]
            refine ⟨fun hr => absurd hr (by decide), hnrr, ?_⟩
            rw [noRedRed_node]
            exact ⟨fun _ => ⟨hsibB, hub⟩, hfs_nrr, hu_nrr⟩
          have hbh2 : (Tree.node z fk (fsz + uncle.size + 1) BLACK
              (Tree.node fsib gk (gs - z.size - 1) RED uncle)).blackH = some (n + 1) := by
            rw [blackH_node]
            refine ⟨n, hbh, ?_, by simp⟩
            rw [blackH_node]
            exact ⟨n, hfs_bh, hu_bh, by simp [RED, BLACK, bhinc]⟩
          have hres := plug_rb rest _ _ (by rw [rootColor_node]; exact hrest) hnrr2 hbh2
          exact rbInv_setBlack hres.1 hres.2
      | rightF fk fsz fc fsib =>
          simp only [sib_rightF] at hfs_nrr hfs_bh hsibB
          have hfc' : fc = RED := by simpa using hfc
          cases z with
          | nil => exact absurd hzc (by decide)
          | node zl zk zsz zc zr =>
              have hzc' : zc = RED := by simpa using hzc
              rw [noRedRed_node] at hnrr
              obtain ⟨hz_imp, hzl_nrr, hzr_nrr⟩ := hnrr
              obtain ⟨hzlB, hzrB⟩ := hz_imp hzc'
              rw [blackH_node] at hbh
              obtain ⟨m, hzl_bh, hzr_bh, hm⟩ := hbh
              rw [hzc', bhinc_red] at hm
              have hmn : n = m := by omega
              subst hmn
              have hnrr2 : (Tree.node (Tree.node fsib fk (fsz - zr.size - 1) fc zl) zk
                  ((zsz + fsib.size + 1) + uncle.size + 1) BLACK
                  (Tree.node zr gk (gs - (Tree.node fsib fk (fsz - zr.size - 1) fc
                    zl).size - 1) RED uncle)).noRedRed = true := by
                rw [noRedRed_node]
                refine ⟨fun hr => absurd hr (by decide), ?_, ?_⟩
                · rw [noRedRed_node]
                  exact ⟨fun _ => ⟨hsibB, hzlB⟩, hfs_nrr, hzl_nrr⟩
                · rw [noRedRed_node]
                  exact ⟨fun _ => ⟨hzrB, hub⟩, hzr_nrr, hu_nrr⟩
              have hbh2 : (Tree.node (Tree.node fsib fk (fsz - zr.size - 1) fc zl) zk
                  ((zsz + fsib.size + 1) + uncle.size + 1) BLACK
                  (Tree.node zr gk (gs - (Tree.node fsib fk (fsz - zr.size - 1) fc
                    zl).size - 1) RED uncle)).blackH = some (n + 1) := by
                rw [blackH_node]
                refine ⟨n, ?_, ?_, by simp⟩
                · rw [blackH_node]
                  refine ⟨n, hfs_bh, hzl_bh, ?_⟩
                  rw [hfc', bhinc_red]
                  omega
                · rw [blackH_node]
                  exact ⟨n, hzr_bh, hu_bh, by simp [RED, BLACK, bhinc]⟩
              have hres := plug_rb rest _ _ (by rw [rootColor_node]; exact hrest)
                hnrr2 hbh2
              exact rbInv_setBlack hres.1 hres.2
  case case5 z f rest hfc gk gs gc uncle hu ih =>
      intro hzc hnrr n hbh hins hlb
      obtain ⟨hfs_nrr, hfs_bh, hf_imp, htail⟩ := hins
      rw [hfc] at htail
      simp only [bhinc_red, Nat.add_zero] at htail
      obtain ⟨hu_nrr, hu_bh, hg_imp, hrest⟩ := htail
      simp only [sib_rightF, color_rightF] at hu_nrr hu_bh hg_imp hrest
      have hgc : gc = BLACK := by
        cases gc
        · exact absurd (hg_imp (by decide)).1 (by decide)
        · rfl
      rw [hgc] at hrest
      simp only [bhinc_black] at hrest
      simp only [fixup_insert]
      rw [if_pos hfc, if_pos hu]
      apply ih rfl
      · rw [noRedRed_node]
        refine ⟨fun _ => ⟨rootColor_setBlack, by rw [rootColor_plug1, color_withColor]⟩,
          noRedRed_setBlack hu_nrr, ?_⟩
        exact noRedRed_plug1_black (by rw [color_withColor]) hnrr
          (by rw [sib_withColor]; exact hfs_nrr)
      · show (Tree.node uncle.setBlack gk gs RED (plug1 z (f.withColor BLACK))).blackH
          = some (n + 1)
        rw [blackH_node]
        refine ⟨n + 1, blackH_setBlack_red hu hu_bh, ?_, by simp [RED, BLACK, bhinc]⟩
        have := blackH_plug1 (f := f.withColor BLACK) hbh
          (by rw [sib_withColor]; exact hfs_bh)
        rw [color_withColor, bhinc_black] at this
        exact this
      · exact ctxOK_weaken _ _ _ hrest
      · exact lastBlack_tail (lastBlack_tail hlb)
  case case6 z f rest hfc gk gs gc uncle hu =>
      intro hzc hnrr n hbh hins hlb
      obtain ⟨hfs_nrr, hfs_bh, hf_imp, htail⟩ := hins
      rw [hfc] at htail
      simp only [bhinc_red, Nat.add_zero] at htail
      obtain ⟨hu_nrr, hu_bh, hg_imp, hrest⟩ := htail
      simp only [sib_rightF, color_rightF] at hu_nrr hu_bh hg_imp hrest
      have hgc : gc = BLACK := by
        cases gc
        · exact absurd (hg_imp (by decide)).1 (by decide)
        · rfl
      rw [hgc] at hrest
      simp only [bhinc_black] at hrest
      have hub : uncle.rootColor = BLACK := rootColor_black_of_not_red hu
      have hsibB := hf_imp hfc
      simp only [fixup_insert]
      rw [if_pos hfc, if_neg hu]
      cases f with
      | leftF fk fsz fc fsib =>
          simp only [sib_leftF] at hfs_nrr hfs_bh hsibB
          have hfc' : fc = RED := by simpa using hfc
          cases z with
          | nil => exact absurd hzc (by decide)
          | node zl zk zsz zc zr =>
              have hzc' : zc = RED := by simpa using hzc
              rw [noRedRed_node] at hnrr
              obtain ⟨hz_imp, hzl_nrr, hzr_nrr⟩ := hnrr
              obtain ⟨hzlB, hzrB⟩ := hz_imp hzc'
              rw [blackH_node] at hbh
              obtain ⟨m, hzl_bh, hzr_bh, hm⟩ := hbh
              rw [hzc', bhinc_red] at hm
              have hmn : n = m := by omega
              subst hmn
              have hnrr2 : (Tree.node (Tree.node uncle gk
                  (gs - (Tree.node zr fk (fsz - zl.size - 1) fc fsib).size - 1) RED zl) zk
                  ((zsz + fsib.size + 1) + uncle.size + 1) BLACK
                  (Tree.node zr fk (fsz - zl.size - 1) fc fsib)).noRedRed = true := by
                rw [noRedRed_node]
                refine ⟨fun hr => absurd hr (by decide), ?_, ?_⟩
                · rw [noRedRed_node]
                  exact ⟨fun _ => ⟨hub, hzlB⟩, hu_nrr, hzl_nrr⟩
                · rw [noRedRed_node]
                  exact ⟨fun _ => ⟨hzrB, hsibB⟩, hzr_nrr, hfs_nrr⟩
              have hbh2 : (Tree.node (Tree.node uncle gk
                  (gs - (Tree.node zr fk (fsz - zl.size - 1) fc fsib).size - 1) RED zl) zk
                  ((zsz + fsib.size + 1) + uncle.size + 1) BLACK
                  (Tree.node zr fk (fsz - zl.size - 1) fc fsib)).blackH
                    = some (n + 1) := by
                rw [blackH_node]
                refine ⟨n, ?_, ?_, by simp⟩
                · rw [blackH_node]
                  exact ⟨n, hu_bh, hzl_bh, by simp [RED, BLACK, bhinc]⟩
                · rw [blackH_node]
                  refine ⟨n, hzr_bh, hfs_bh, ?_⟩
                  rw [hfc', bhinc_red]
                  omega
              have hres := plug_rb rest _ _ (by rw [rootColor_node]; exact hrest)
                hnrr2 hbh2
              exact rbInv_setBlack hres.1 hres.2
      | rightF fk fsz fc fsib =>
          simp only [sib_rightF] at hfs_nrr hfs_bh hsibB
          have hnrr2 : (Tree.node (Tree.node uncle gk (gs - z.size - 1) RED fsib) fk
              (fsz + uncle.size + 1) BLACK z).noRedRed = true := by
            rw [noRedRed_node]
            refine ⟨fun hr => absurd hr (by decide), ?_, hnrr⟩
            rw [noRedRed_node]
            exact ⟨fun _ => ⟨hub, hsibB⟩, hu_nrr, hfs_nrr⟩
          have hbh2 : (Tree.node (Tree.node uncle gk (gs - z.size - 1) RED fsib) fk
              (fsz + uncle.size + 1) BLACK z).blackH = some (n + 1) := by
            rw [blackH_node]
            refine ⟨n, ?_, hbh, by simp⟩
            rw [blackH_node]
            exact ⟨n, hu_bh, hfs_bh, by simp [RED, BLACK, bhinc]⟩
          have hres := plug_rb rest _ _ (by rw [rootColor_node]; exact hrest) hnrr2 hbh2
          exact rbInv_setBlack hres.1 hres.2
  case case7 z f g rest hfc =>
      intro hzc hnrr n hbh hins hlb
      obtain ⟨ha, hb, hc3, htail⟩ := hins
      have hctx : ctxOK (f :: g :: rest) n z.rootColor :=
        ⟨ha, hb, fun hr => absurd hr hfc, htail⟩
      have hres := plug_rb _ z n hctx hnrr hbh
      simp only [fixup_insert]
      rw [if_neg hfc]
      exact rbInv_setBlack hres.1 hres.2

/-! ##『insert』 preserves the red-black invariant -/

lemma insCtx_bumpPath : ∀ (p : Path) (n : Nat), insCtx p n → insCtx (bumpPath p) n := by
  intro p n h
  cases p with
  | nil => trivial
  | cons f q =>
      obtain ⟨ha, hb, hc, hd⟩ := h
      cases f <;> exact ⟨ha, hb, hc, ctxOK_bumpPath _ _ _ hd⟩

lemma insertLoop_rb {key : Int} : ∀ (x : Tree) (p : Path) (n : Nat),
    x.noRedRed = true → x.blackH = some n → ctxOK p n x.rootColor →
    lastBlack p → (p = [] → x.rootColor = BLACK) →
    (insertLoop x p key).1 = plug x p ∨ ((insertLoop x p key).1).rbInv = true := by
  intro x
  induction x with
  | nil =>
      intro p n _ hbh hctx hlb _
      right
      rw [insertLoop]
      rw [blackH_nil] at hbh
      have hn0 : n = 0 := by
        have := Option.some_inj.1 hbh
        omega
      subst hn0
      refine fixup_insert_rb _ _ rfl ?_ 0 ?_
        (insCtx_bumpPath _ _ (ctxOK_weaken _ _ _ hctx)) (lastBlack_bumpPath _ hlb)
      · rw [noRedRed_node]
        exact ⟨fun _ => ⟨rfl, rfl⟩, rfl, rfl⟩
      · rw [blackH_node]
        exact ⟨0, rfl, rfl, by simp [bhinc, RED, BLACK]⟩
  | node l k sz c r ihl ihr =>
      intro p n hnrr hbh hctx hlb h0
      rw [insertLoop]
      by_cases hk : key = k
      · rw [if_pos hk]
        left
        rfl
      · rw [if_neg hk]
        by_cases hlt : key < k
        · rw [if_pos hlt]
          rw [noRedRed_node] at hnrr
          obtain ⟨himp, hln, hrn⟩ := hnrr
          rw [blackH_node] at hbh
          obtain ⟨m, hlbh, hrbh, hnm⟩ := hbh
          have hctx' : ctxOK (Frame.leftF k sz c r :: p) m l.rootColor := by
            refine ⟨by simpa using hrn, by simpa using hrbh, ?_, ?_⟩
            · intro hr'
              simp only [color_leftF] at hr'
              exact ⟨(himp hr').1, by simpa using (himp hr').2⟩
            · simp only [color_leftF]
              rw [show m + bhinc c = n from by omega]
              exact hctx
          rcases ihl (Frame.leftF k sz c r :: p) m hln hlbh hctx'
              (lastBlack_cons (fun hp => by simpa using h0 hp) hlb) (by simp) with h | h
          · left
            rw [h, plug_cons]
            rfl
          · right
            exact h
        · rw [if_neg hlt]
          rw [noRedRed_node] at hnrr
          obtain ⟨himp, hln, hrn⟩ := hnrr
          rw [blackH_node] at hbh
          obtain ⟨m, hlbh, hrbh, hnm⟩ := hbh
          have hctx' : ctxOK (Frame.rightF k sz c l :: p) m r.rootColor := by
            refine ⟨by simpa using hln, by simpa using hlbh, ?_, ?_⟩
            · intro hr'
              simp only [color_rightF] at hr'
              exact ⟨(himp hr').2, by simpa using (himp hr').1⟩
            · simp only [color_rightF]
              rw [show m + bhinc c = n from by omega]
              exact hctx
          rcases ihr (Frame.rightF k sz c l :: p) m hrn hrbh hctx'
              (lastBlack_cons (fun hp => by simpa using h0 hp) hlb) (by simp) with h | h
          · left
            rw [h, plug_cons]
            rfl
          · right
            exact h

lemma insert_rbInv {key : Int} {t : Tree} (h : t.rbInv = true) :
    ((insert t key).1).rbInv = true := by
  have h' := h
  simp only [rbInv, Bool.and_eq_true, decide_eq_true_eq] at h'
  obtain ⟨⟨hr, hn⟩, hs⟩ := h'
  obtain ⟨n, hbh⟩ := Option.isSome_iff_exists.1 hs
  rcases insertLoop_rb t [] n hn hbh (by rw [hr]; trivial) trivial (fun _ => hr)
      with he | he
  · rw [insert]
    rw [he]
    exact h
  · exact he

/-! ## `fixup_erase` restores the red-black invariant.

The entry invariant: the subtree `x` in the hole is internally red-black
except that its root color is unconstrained (`x.setBlack.noRedRed`), its
black height is one less than the context expects (`insCtx p (n + 1)` with
`x.blackH = some n`, the spliced-out BLACK node's deficit), and the
chain's outermost frame is BLACK. -/

lemma eraseTermL_rb {x bl br : Tree} {pk bk : Int} {ps bs : Nat} {pc bcol : Bool}
    {rest : Path} {n : Nat}
    (hx_nrr : x.noRedRed = true) (hx_bh : x.blackH = some n)
    (hbl_nrr : bl.noRedRed = true) (hbl_bh : bl.blackH = some n)
    (hbr_nrr : br.setBlack.noRedRed = true) (hbr_bh : br.setBlack.blackH = some (n + 1))
    (hctx : ctxOK rest (n + 1 + bhinc pc) pc) :
    (eraseTermL x pk ps pc (.node bl bk bs bcol br) rest).rbInv = true := by
  simp only [eraseTermL]
  have hnrr2 : (Tree.node (Tree.node x pk (ps - br.setBlack.size - 1) BLACK bl) bk
      (bs + x.size + 1) pc br.setBlack).noRedRed = true := by
    rw [noRedRed_node]
    refine ⟨fun _ => ⟨rfl, rootColor_setBlack⟩, ?_, hbr_nrr⟩
    rw [noRedRed_node]
    exact ⟨fun hr => absurd hr (by decide), hx_nrr, hbl_nrr⟩
  have hbh2 : (Tree.node (Tree.node x pk (ps - br.setBlack.size - 1) BLACK bl) bk
      (bs + x.size + 1) pc br.setBlack).blackH = some (n + 1 + bhinc pc) := by
    rw [blackH_node]
    refine ⟨n + 1, ?_, hbr_bh, rfl⟩
    rw [blackH_node]
    exact ⟨n, hx_bh, hbl_bh, by simp⟩
  have hres := plug_rb rest _ _ (by rw [rootColor_node]; exact hctx) hnrr2 hbh2
  exact rbInv_setBlack hres.1 hres.2

lemma eraseTermR_rb {x bl br : Tree} {pk bk : Int} {ps bs : Nat} {pc bcol : Bool}
    {rest : Path} {n : Nat}
    (hx_nrr : x.noRedRed = true) (hx_bh : x.blackH = some n)
    (hbl_nrr : bl.setBlack.noRedRed = true) (hbl_bh : bl.setBlack.blackH = some (n + 1))
    (hbr_nrr : br.noRedRed = true) (hbr_bh : br.blackH = some n)
    (hctx : ctxOK rest (n + 1 + bhinc pc) pc) :
    (eraseTermR x pk ps pc (.node bl bk bs bcol br) rest).rbInv = true := by
  simp only [eraseTermR]
  have hnrr2 : (Tree.node bl.setBlack bk (bs + x.size + 1) pc
      (Tree.node br pk (ps - bl.setBlack.size - 1) BLACK x)).noRedRed = true := by
    rw [noRedRed_node]
    refine ⟨fun _ => ⟨rootColor_setBlack, rfl⟩, hbl_nrr, ?_⟩
    rw [noRedRed_node]
    exact ⟨fun hr => absurd hr (by decide), hbr_nrr, hx_nrr⟩
  have hbh2 : (Tree.node bl.setBlack bk (bs + x.size + 1) pc
      (Tree.node br pk (ps - bl.setBlack.size - 1) BLACK x)).blackH
        = some (n + 1 + bhinc pc) := by
    rw [blackH_node]
    refine ⟨n + 1, hbl_bh, ?_, rfl⟩
    rw [blackH_node]
    exact ⟨n, hbr_bh, hx_bh, by simp⟩
  have hres := plug_rb rest _ _ (by rw [rootColor_node]; exact hctx) hnrr2 hbh2
  exact rbInv_setBlack hres.1 hres.2

lemma bool_black_of_not_red {b : Bool} (h : ¬ b = RED) : b = BLACK := by
  cases b
  · exact absurd rfl h
  · rfl

lemma bool_red_of_not_black {b : Bool} (h : ¬ b = BLACK) : b = RED := by
  cases b
  · rfl
  · exact absurd rfl h

lemma fixup_erase_rb : ∀ (x : Tree) (p : Path) (n : Nat),
    x.setBlack.noRedRed = true → x.blackH = some n →
    insCtx p (n + 1) → lastBlack p → (fixup_erase x p).rbInv = true := by
  intro x p
  induction x, p using fixup_erase.induct
  case case1 x =>
      intro n hnrr hbh _ _
      rw [fixup_erase.eq_def]
      exact rbInv_intro rootColor_setBlack hnrr (blackH_setBlack_isSome hbh)
  case case2 x f p hred =>
      intro n hnrr hbh hins hlb
      rw [fixup_erase_red hred]
      have hbh2 : x.setBlack.blackH = some (n + 1) := blackH_setBlack_red hred hbh
      have hres := plug_rb (f :: p) x.setBlack (n + 1)
        (by rw [rootColor_setBlack]; exact insCtx_black _ _ hins) hnrr hbh2
      exact rbInv_intro (rootColor_plug_black hlb (by simp)) hres.1
        (by rw [hres.2]; rfl)
  case case3 x p hb pk ps pc ih =>
      intro n _ _ hins _
      obtain ⟨_, hsb, _, _⟩ := hins
      simp only [sib_leftF, blackH_nil] at hsb
      exact absurd (Option.some_inj.1 hsb) (by omega)
  case case4 x p hb pk ps pc wk wsz wr ih =>
      intro n _ _ hins _
      obtain ⟨_, hsb, _, _⟩ := hins
      simp only [sib_leftF] at hsb
      rw [blackH_node] at hsb
      obtain ⟨m, hm1, _, hm3⟩ := hsb
      rw [blackH_nil] at hm1
      have hm0 : m = 0 := by
        have := Option.some_inj.1 hm1
        omega
      rw [hm0, bhinc_red] at hm3
      omega
  case case5 x p hb pk ps pc wk wsz wr al ak asz acol ar hbb ih =>
      intro n hnrr hbh hins hlb
      have hxb : x.rootColor = BLACK := rootColor_black_of_not_red hb
      have hx_nrr : x.noRedRed = true := by rw [← setBlack_eq_self hxb]; exact hnrr
      obtain ⟨hw_nrr, hw_bh, hpc_imp, hrest⟩ := hins
      simp only [sib_leftF, color_leftF] at hw_nrr hw_bh hpc_imp hrest
      have hpcB : pc = BLACK := bool_black_of_not_red
        (fun hr => absurd (hpc_imp hr) (by rw [rootColor_node]; decide))
      rw [hpcB, bhinc_black] at hrest
      rw [noRedRed_node] at hw_nrr
      obtain ⟨hw_imp, hwl_nrr, hwr_nrr⟩ := hw_nrr
      obtain ⟨hwlB, hwrB⟩ := hw_imp rfl
      rw [noRedRed_node] at hwl_nrr
      obtain ⟨_, hal_nrr, har_nrr⟩ := hwl_nrr
      rw [blackH_node] at hw_bh
      obtain ⟨m, hwl_bh, hwr_bh, hm⟩ := hw_bh
      rw [bhinc_red] at hm
      have hmv : m = n + 1 := by omega
      subst hmv
      rw [blackH_node] at hwl_bh
      obtain ⟨m2, hal_bh, har_bh, hm2⟩ := hwl_bh
      rw [show acol = BLACK from by simpa using hwlB, bhinc_black] at hm2
      have hm2v : n = m2 := by omega
      subst hm2v
      rw [fixup_erase.eq_def]
      simp only [hb, if_false, if_true]
      rw [if_pos hbb]
      apply ih n
      · show (Tree.node x pk (ps - wr.size - 1) BLACK
          (Tree.node al ak asz RED ar)).noRedRed = true
        rw [noRedRed_node]
        refine ⟨fun hr => absurd hr (by decide), hx_nrr, ?_⟩
        rw [noRedRed_node]
        exact ⟨fun _ => hbb, hal_nrr, har_nrr⟩
      · rw [blackH_node]
        refine ⟨n, hbh, ?_, by simp [bhinc, RED, BLACK]⟩
        rw [blackH_node]
        exact ⟨n, hal_bh, har_bh, by simp [bhinc, RED, BLACK]⟩
      · refine ⟨by simpa using hwr_nrr, by simpa using hwr_bh,
          fun hr => absurd (show BLACK = RED from by simpa using hr) (by decide), ?_⟩
        simp only [color_leftF, bhinc_black]
        exact hrest
      · exact lastBlack_cons (fun _ => rfl) (lastBlack_tail hlb)
  case case6 x p hb pk ps pc wk wsz wr al ak asz acol ar hbb =>
      intro n hnrr hbh hins hlb
      have hxb : x.rootColor = BLACK := rootColor_black_of_not_red hb
      have hx_nrr : x.noRedRed = true := by rw [← setBlack_eq_self hxb]; exact hnrr
      obtain ⟨hw_nrr, hw_bh, hpc_imp, hrest⟩ := hins
      simp only [sib_leftF, color_leftF] at hw_nrr hw_bh hpc_imp hrest
      have hpcB : pc = BLACK := bool_black_of_not_red
        (fun hr => absurd (hpc_imp hr) (by rw [rootColor_node]; decide))
      rw [hpcB, bhinc_black] at hrest
      rw [noRedRed_node] at hw_nrr
      obtain ⟨hw_imp, hwl_nrr, hwr_nrr⟩ := hw_nrr
      obtain ⟨hwlB, hwrB⟩ := hw_imp rfl
      rw [noRedRed_node] at hwl_nrr
      obtain ⟨_, hal_nrr, har_nrr⟩ := hwl_nrr
      rw [blackH_node] at hw_bh
      obtain ⟨m, hwl_bh, hwr_bh, hm⟩ := hw_bh
      rw [bhinc_red] at hm
      have hmv : m = n + 1 := by omega
      subst hmv
      rw [blackH_node] at hwl_bh
      obtain ⟨m2, hal_bh, har_bh, hm2⟩ := hwl_bh
      rw [show acol = BLACK from by simpa using hwlB, bhinc_black] at hm2
      have hm2v : n = m2 := by omega
      subst hm2v
      have hctx' : ctxOK (Frame.leftF wk (wsz + x.size + 1) BLACK wr :: p)
          (n + 1 + bhinc RED) RED := by
        refine ⟨by simpa using hwr_nrr, ?_,
          fun hr => absurd (show BLACK = RED from by simpa using hr) (by decide), ?_⟩
        · simp only [sib_leftF, bhinc_red, Nat.add_zero]
          exact hwr_bh
        · simp only [color_leftF, bhinc_black, bhinc_red, Nat.add_zero]
          exact hrest
      rw [fixup_erase.eq_def]
      simp only [hb, if_false, if_true]
      rw [if_neg hbb]
      by_cases hc : ar.rootColor = BLACK
      · have halR : al.rootColor = RED := by
          cases hv : al.rootColor
          · rfl
          · exact absurd ⟨hv, hc⟩ hbb
        cases al with
        | nil => exact absurd halR (by decide)
        | node all alk als alc alr =>
            rw [noRedRed_node] at hal_nrr
            obtain ⟨hal_imp, hall_nrr, halr_nrr⟩ := hal_nrr
            obtain ⟨hallB, halrB⟩ := hal_imp (by simpa using halR)
            rw [blackH_node] at hal_bh
            obtain ⟨m3, hall_bh, halr_bh, hm3⟩ := hal_bh
            rw [show alc = RED from by simpa using halR, bhinc_red] at hm3
            have hm3v : n = m3 := by omega
            subst hm3v
            rw [if_pos hc]
            rw [show rotate_right (Tree.node (Tree.node all alk als alc alr).setBlack
                ak asz RED ar) = Tree.node all alk (als + ar.size + 1) BLACK
                (Tree.node alr ak (asz - all.size - 1) RED ar) from rfl]
            refine eraseTermL_rb hx_nrr hbh hall_nrr hall_bh ?_ ?_ hctx'
            · rw [show (Tree.node alr ak (asz - all.size - 1) RED ar).setBlack =
                Tree.node alr ak (asz - all.size - 1) BLACK ar from rfl, noRedRed_node]
              exact ⟨fun hr => absurd hr (by decide), halr_nrr, har_nrr⟩
            · rw [show (Tree.node alr ak (asz - all.size - 1) RED ar).setBlack =
                Tree.node alr ak (asz - all.size - 1) BLACK ar from rfl, blackH_node]
              exact ⟨n, halr_bh, har_bh, by simp⟩
      · have harR : ar.rootColor = RED := bool_red_of_not_black hc
        rw [if_neg hc]
        exact eraseTermL_rb hx_nrr hbh hal_nrr hal_bh (noRedRed_setBlack har_nrr)
          (blackH_setBlack_red harR har_bh) hctx'
  case case7 x p hb pk ps pc wl wk wsz wcol wr hw2 hbb ih =>
      intro n hnrr hbh hins hlb
      have hxb : x.rootColor = BLACK := rootColor_black_of_not_red hb
      have hx_nrr : x.noRedRed = true := by rw [← setBlack_eq_self hxb]; exact hnrr
      obtain ⟨hw_nrr, hw_bh, hpc_imp, hrest⟩ := hins
      simp only [sib_leftF, color_leftF] at hw_nrr hw_bh hpc_imp hrest
      rw [noRedRed_node] at hw_nrr
      obtain ⟨_, hwl_nrr, hwr_nrr⟩ := hw_nrr
      rw [blackH_node] at hw_bh
      obtain ⟨m, hwl_bh, hwr_bh, hm⟩ := hw_bh
      rw [bool_black_of_not_red hw2, bhinc_black] at hm
      have hmv : n = m := by omega
      subst hmv
      rw [fixup_erase.eq_def]
      simp only [hb, hw2, if_false, if_true]
      rw [if_pos hbb]
      apply ih (n + bhinc pc)
      · show (Tree.node x pk ps BLACK (Tree.node wl wk wsz RED wr)).noRedRed = true
        rw [noRedRed_node]
        refine ⟨fun hr => absurd hr (by decide), hx_nrr, ?_⟩
        rw [noRedRed_node]
        exact ⟨fun _ => hbb, hwl_nrr, hwr_nrr⟩
      · rw [blackH_node]
        refine ⟨n, hbh, ?_, rfl⟩
        rw [blackH_node]
        exact ⟨n, hwl_bh, hwr_bh, by simp [bhinc, RED, BLACK]⟩
      · have := ctxOK_weaken _ _ _ hrest
        rwa [show n + 1 + bhinc pc = n + bhinc pc + 1 from by omega] at this
      · exact lastBlack_tail hlb
  case case8 x p hb pk ps pc wl wk wsz wcol wr hw2 hbb =>
      intro n hnrr hbh hins hlb
      have hxb : x.rootColor = BLACK := rootColor_black_of_not_red hb
      have hx_nrr : x.noRedRed = true := by rw [← setBlack_eq_self hxb]; exact hnrr
      obtain ⟨hw_nrr, hw_bh, hpc_imp, hrest⟩ := hins
      simp only [sib_leftF, color_leftF] at hw_nrr hw_bh hpc_imp hrest
      rw [noRedRed_node] at hw_nrr
      obtain ⟨_, hwl_nrr, hwr_nrr⟩ := hw_nrr
      rw [blackH_node] at hw_bh
      obtain ⟨m, hwl_bh, hwr_bh, hm⟩ := hw_bh
      rw [bool_black_of_not_red hw2, bhinc_black] at hm
      have hmv : n = m := by omega
      subst hmv
      rw [fixup_erase.eq_def]
      simp only [hb, hw2, if_false, if_true]
      rw [if_neg hbb]
      by_cases hc : wr.rootColor = BLACK
      · have hwlR : wl.rootColor = RED := by
          cases hv : wl.rootColor
          · rfl
          · exact absurd ⟨hv, hc⟩ hbb
        cases wl with
        | nil => exact absurd hwlR (by decide)
        | node wll wlk wls wlc wlr =>
            rw [noRedRed_node] at hwl_nrr
            obtain ⟨hwl_imp, hwll_nrr, hwlr_nrr⟩ := hwl_nrr
            obtain ⟨hwllB, hwlrB⟩ := hwl_imp (by simpa using hwlR)
            rw [blackH_node] at hwl_bh
            obtain ⟨m3, hwll_bh, hwlr_bh, hm3⟩ := hwl_bh
            rw [show wlc = RED from by simpa using hwlR, bhinc_red] at hm3
            have hm3v : n = m3 := by omega
            subst hm3v
            rw [if_pos hc]
            rw [show rotate_right (Tree.node (Tree.node wll wlk wls wlc wlr).setBlack
                wk wsz RED wr) = Tree.node wll wlk (wls + wr.size + 1) BLACK
                (Tree.node wlr wk (wsz - wll.size - 1) RED wr) from rfl]
            refine eraseTermL_rb hx_nrr hbh hwll_nrr hwll_bh ?_ ?_ hrest
            · rw [show (Tree.node wlr wk (wsz - wll.size - 1) RED wr).setBlack =
                Tree.node wlr wk (wsz - wll.size - 1) BLACK wr from rfl, noRedRed_node]
              exact ⟨fun hr => absurd hr (by decide), hwlr_nrr, hwr_nrr⟩
            · rw [show (Tree.node wlr wk (wsz - wll.size - 1) RED wr).setBlack =
                Tree.node wlr wk (wsz - wll.size - 1) BLACK wr from rfl, blackH_node]
              exact ⟨n, hwlr_bh, hwr_bh, by simp⟩
      · have hwrR : wr.rootColor = RED := bool_red_of_not_black hc
        rw [if_neg hc]
        exact eraseTermL_rb hx_nrr hbh hwl_nrr hwl_bh (noRedRed_setBlack hwr_nrr)
          (blackH_setBlack_red hwrR hwr_bh) hrest
  case case9 x p hb pk ps pc ih =>
      intro n _ _ hins _
      obtain ⟨_, hsb, _, _⟩ := hins
      simp only [sib_rightF, blackH_nil] at hsb
      exact absurd (Option.some_inj.1 hsb) (by omega)
  case case10 x p hb pk ps pc wl wk wsz ih =>
      intro n _ _ hins _
      obtain ⟨_, hsb, _, _⟩ := hins
      simp only [sib_rightF] at hsb
      rw [blackH_node] at hsb
      obtain ⟨m, _, hm2, hm3⟩ := hsb
      rw [blackH_nil] at hm2
      have hm0 : m = 0 := by
        have := Option.some_inj.1 hm2
        omega
      rw [hm0, bhinc_red] at hm3
      omega
  case case11 x p hb pk ps pc wl wk wsz al ak asz acol ar hbb ih =>
      intro n hnrr hbh hins hlb
      have hxb : x.rootColor = BLACK := rootColor_black_of_not_red hb
      have hx_nrr : x.noRedRed = true := by rw [← setBlack_eq_self hxb]; exact hnrr
      obtain ⟨hw_nrr, hw_bh, hpc_imp, hrest⟩ := hins
      simp only [sib_rightF, color_rightF] at hw_nrr hw_bh hpc_imp hrest
      have hpcB : pc = BLACK := bool_black_of_not_red
        (fun hr => absurd (hpc_imp hr) (by rw [rootColor_node]; decide))
      rw [hpcB, bhinc_black] at hrest
      rw [noRedRed_node] at hw_nrr
      obtain ⟨hw_imp, hwl_nrr, hwr_nrr⟩ := hw_nrr
      obtain ⟨hwlB, hwrB⟩ := hw_imp rfl
      rw [noRedRed_node] at hwr_nrr
      obtain ⟨_, hal_nrr, har_nrr⟩ := hwr_nrr
      rw [blackH_node] at hw_bh
      obtain ⟨m, hwl_bh, hwr_bh, hm⟩ := hw_bh
      rw [bhinc_red] at hm
      have hmv : m = n + 1 := by omega
      subst hmv
      rw [blackH_node] at hwr_bh
      obtain ⟨m2, hal_bh, har_bh, hm2⟩ := hwr_bh
      rw [show acol = BLACK from by simpa using hwrB, bhinc_black] at hm2
      have hm2v : n = m2 := by omega
      subst hm2v
      rw [fixup_erase.eq_def]
      simp only [hb, if_false, if_true]
      rw [if_pos hbb]
      apply ih n
      · show (Tree.node (Tree.node al ak asz RED ar) pk (ps - wl.size - 1)
          BLACK x).noRedRed = true
        rw [noRedRed_node]
        refine ⟨fun hr => absurd hr (by decide), ?_, hx_nrr⟩
        rw [noRedRed_node]
        exact ⟨fun _ => ⟨hbb.2, hbb.1⟩, hal_nrr, har_nrr⟩
      · rw [blackH_node]
        refine ⟨n, ?_, hbh, by simp [bhinc, RED, BLACK]⟩
        rw [blackH_node]
        exact ⟨n, hal_bh, har_bh, by simp [bhinc, RED, BLACK]⟩
      · refine ⟨by simpa using hwl_nrr, by simpa using hwl_bh,
          fun hr => absurd (show BLACK = RED from by simpa using hr) (by decide), ?_⟩
        simp only [color_rightF, bhinc_black]
        exact hrest
      · exact lastBlack_cons (fun _ => rfl) (lastBlack_tail hlb)
  case case12 x p hb pk ps pc wl wk wsz al ak asz acol ar hbb =>
      intro n hnrr hbh hins hlb
      have hxb : x.rootColor = BLACK := rootColor_black_of_not_red hb
      have hx_nrr : x.noRedRed = true := by rw [← setBlack_eq_self hxb]; exact hnrr
      obtain ⟨hw_nrr, hw_bh, hpc_imp, hrest⟩ := hins
      simp only [sib_rightF, color_rightF] at hw_nrr hw_bh hpc_imp hrest
      have hpcB : pc = BLACK := bool_black_of_not_red
        (fun hr => absurd (hpc_imp hr) (by rw [rootColor_node]; decide))
      rw [hpcB, bhinc_black] at hrest
      rw [noRedRed_node] at hw_nrr
      obtain ⟨hw_imp, hwl_nrr, hwr_nrr⟩ := hw_nrr
      obtain ⟨hwlB, hwrB⟩ := hw_imp rfl
      rw [noRedRed_node] at hwr_nrr
      obtain ⟨_, hal_nrr, har_nrr⟩ := hwr_nrr
      rw [blackH_node] at hw_bh
      obtain ⟨m, hwl_bh, hwr_bh, hm⟩ := hw_bh
      rw [bhinc_red] at hm
      have hmv : m = n + 1 := by omega
      subst hmv
      rw [blackH_node] at hwr_bh
      obtain ⟨m2, hal_bh, har_bh, hm2⟩ := hwr_bh
      rw [show acol = BLACK from by simpa using hwrB, bhinc_black] at hm2
      have hm2v : n = m2 := by omega
      subst hm2v
      have hctx' : ctxOK (Frame.rightF wk (wsz + x.size + 1) BLACK wl :: p)
          (n + 1 + bhinc RED) RED := by
        refine ⟨by simpa using hwl_nrr, ?_,
          fun hr => absurd (show BLACK = RED from by simpa using hr) (by decide), ?_⟩
        · simp only [sib_rightF, bhinc_red, Nat.add_zero]
          exact hwl_bh
        · simp only [color_rightF, bhinc_black, bhinc_red, Nat.add_zero]
          exact hrest
      rw [fixup_erase.eq_def]
      simp only [hb, if_false, if_true]
      rw [if_neg hbb]
      by_cases hc : al.rootColor = BLACK
      · have harR : ar.rootColor = RED := by
          cases hv : ar.rootColor
          · rfl
          · exact absurd ⟨hv, hc⟩ hbb
        cases ar with
        | nil => exact absurd harR (by decide)
        | node arl ark ars arc arr =>
            rw [noRedRed_node] at har_nrr
            obtain ⟨har_imp, harl_nrr, harr_nrr⟩ := har_nrr
            obtain ⟨harlB, harrB⟩ := har_imp (by simpa using harR)
            rw [blackH_node] at har_bh
            obtain ⟨m3, harl_bh, harr_bh, hm3⟩ := har_bh
            rw [show arc = RED from by simpa using harR, bhinc_red] at hm3
            have hm3v : n = m3 := by omega
            subst hm3v
            rw [if_pos hc]
            rw [show rotate_left (Tree.node al ak asz RED
                (Tree.node arl ark ars arc arr).setBlack) =
                Tree.node (Tree.node al ak (asz - arr.size - 1) RED arl) ark
                  (ars + al.size + 1) BLACK arr from rfl]
            refine eraseTermR_rb hx_nrr hbh ?_ ?_ harr_nrr harr_bh hctx'
            · rw [show (Tree.node al ak (asz - arr.size - 1) RED arl).setBlack =
                Tree.node al ak (asz - arr.size - 1) BLACK arl from rfl, noRedRed_node]
              exact ⟨fun hr => absurd hr (by decide), hal_nrr, harl_nrr⟩
            · rw [show (Tree.node al ak (asz - arr.size - 1) RED arl).setBlack =
                Tree.node al ak (asz - arr.size - 1) BLACK arl from rfl, blackH_node]
              exact ⟨n, hal_bh, harl_bh, by simp⟩
      · have halR : al.rootColor = RED := bool_red_of_not_black hc
        rw [if_neg hc]
        exact eraseTermR_rb hx_nrr hbh (noRedRed_setBlack hal_nrr)
          (blackH_setBlack_red halR hal_bh) har_nrr har_bh hctx'
  case case13 x p hb pk ps pc wl wk wsz wcol wr hw2 hbb ih =>
      intro n hnrr hbh hins hlb
      have hxb : x.rootColor = BLACK := rootColor_black_of_not_red hb
      have hx_nrr : x.noRedRed = true := by rw [← setBlack_eq_self hxb]; exact hnrr
      obtain ⟨hw_nrr, hw_bh, hpc_imp, hrest⟩ := hins
      simp only [sib_rightF, color_rightF] at hw_nrr hw_bh hpc_imp hrest
      rw [noRedRed_node] at hw_nrr
      obtain ⟨_, hwl_nrr, hwr_nrr⟩ := hw_nrr
      rw [blackH_node] at hw_bh
      obtain ⟨m, hwl_bh, hwr_bh, hm⟩ := hw_bh
      rw [bool_black_of_not_red hw2, bhinc_black] at hm
      have hmv : n = m := by omega
      subst hmv
      rw [fixup_erase.eq_def]
      simp only [hb, hw2, if_false, if_true]
      rw [if_pos hbb]
      apply ih (n + bhinc pc)
      · show (Tree.node (Tree.node wl wk wsz RED wr) pk ps pc x).setBlack.noRedRed = true
        rw [show (Tree.node (Tree.node wl wk wsz RED wr) pk ps pc x).setBlack =
          Tree.node (Tree.node wl wk wsz RED wr) pk ps BLACK x from rfl, noRedRed_node]
        refine ⟨fun hr => absurd hr (by decide), ?_, hx_nrr⟩
        rw [noRedRed_node]
        exact ⟨fun _ => ⟨hbb.2, hbb.1⟩, hwl_nrr, hwr_nrr⟩
      · rw [blackH_node]
        refine ⟨n, ?_, hbh, rfl⟩
        rw [blackH_node]
        exact ⟨n, hwl_bh, hwr_bh, by simp [bhinc, RED, BLACK]⟩
      · have := ctxOK_weaken _ _ _ hrest
        rwa [show n + 1 + bhinc pc = n + bhinc pc + 1 from by omega] at this
      · exact lastBlack_tail hlb
  case case14 x p hb pk ps pc wl wk wsz wcol wr hw2 hbb =>
      intro n hnrr hbh hins hlb
      have hxb : x.rootColor = BLACK := rootColor_black_of_not_red hb
      have hx_nrr : x.noRedRed = true := by rw [← setBlack_eq_self hxb]; exact hnrr
      obtain ⟨hw_nrr, hw_bh, hpc_imp, hrest⟩ := hins
      simp only [sib_rightF, color_rightF] at hw_nrr hw_bh hpc_imp hrest
      rw [noRedRed_node] at hw_nrr
      obtain ⟨_, hwl_nrr, hwr_nrr⟩ := hw_nrr
      rw [blackH_node] at hw_bh
      obtain ⟨m, hwl_bh, hwr_bh, hm⟩ := hw_bh
      rw [bool_black_of_not_red hw2, bhinc_black] at hm
      have hmv : n = m := by omega
      subst hmv
      rw [fixup_erase.eq_def]
      simp only [hb, hw2, if_false, if_true]
      rw [if_neg hbb]
      by_cases hc : wl.rootColor = BLACK
      · have hwrR : wr.rootColor = RED := by
          cases hv : wr.rootColor
          · rfl
          · exact absurd ⟨hv, hc⟩ hbb
        cases wr with
        | nil => exact absurd hwrR (by decide)
        | node wrl wrk wrs wrc wrr =>
            rw [noRedRed_node] at hwr_nrr
            obtain ⟨hwr_imp, hwrl_nrr, hwrr_nrr⟩ := hwr_nrr
            obtain ⟨hwrlB, hwrrB⟩ := hwr_imp (by simpa using hwrR)
            rw [blackH_node] at hwr_bh
            obtain ⟨m3, hwrl_bh, hwrr_bh, hm3⟩ := hwr_bh
            rw [show wrc = RED from by simpa using hwrR, bhinc_red] at hm3
            have hm3v : n = m3 := by omega
            subst hm3v
            rw [if_pos hc]
            rw [show rotate_left (Tree.node wl wk wsz RED
                (Tree.node wrl wrk wrs wrc wrr).setBlack) =
                Tree.node (Tree.node wl wk (wsz - wrr.size - 1) RED wrl) wrk
                  (wrs + wl.size + 1) BLACK wrr from rfl]
            refine eraseTermR_rb hx_nrr hbh ?_ ?_ hwrr_nrr hwrr_bh hrest
            · rw [show (Tree.node wl wk (wsz - wrr.size - 1) RED wrl).setBlack =
                Tree.node wl wk (wsz - wrr.size - 1) BLACK wrl from rfl, noRedRed_node]
              exact ⟨fun hr => absurd hr (by decide), hwl_nrr, hwrl_nrr⟩
            · rw [show (Tree.node wl wk (wsz - wrr.size - 1) RED wrl).setBlack =
                Tree.node wl wk (wsz - wrr.size - 1) BLACK wrl from rfl, blackH_node]
              exact ⟨n, hwl_bh, hwrl_bh, by simp⟩
      · have hwlR : wl.rootColor = RED := bool_red_of_not_black hc
        rw [if_neg hc]
        exact eraseTermR_rb hx_nrr hbh (noRedRed_setBlack hwl_nrr)
          (blackH_setBlack_red hwlR hwl_bh) hwr_nrr hwr_bh hrest

/-! ## Red-black facts for the `erase` descent and splice -/

lemma insCtx_decPath : ∀ (p : Path) (n : Nat), insCtx p n → insCtx (decPath p) n := by
  intro p n h
  cases p with
  | nil => trivial
  | cons f q =>
      obtain ⟨ha, hb, hc, hd⟩ := h
      cases f <;> exact ⟨ha, hb, hc, ctxOK_decPath _ _ _ hd⟩

lemma insCtx_append_ne : ∀ (p1 p2 : Path) (n : Nat) (c0 : Bool), p1 ≠ [] →
    insCtx p1 n → ctxOK p2 (n + pathBH p1) (topColor p1 c0) →
    insCtx (p1 ++ p2) n := by
  intro p1 p2 n c0 hne h1 h2
  cases p1 with
  | nil => exact absurd rfl hne
  | cons f q =>
      exact insCtx_append f q p2 n h1
        (by rw [show topColor (f :: q) f.color = topColor (f :: q) c0 from rfl]; exact h2)

lemma minSplit_rb : ∀ (u : Tree), u ≠ .nil → ∀ (m : Nat), u.noRedRed = true →
    u.blackH = some m → ∀ (acc : Path),
    ∃ yk ys yc yr inner, minSplit u acc = (.node .nil yk ys yc yr, inner ++ acc) ∧
      yr.noRedRed = true ∧ yr.blackH = some 0 ∧
      (yc = RED → yr.rootColor = BLACK) ∧
      ctxOK inner (bhinc yc) yc ∧
      bhinc yc + pathBH inner = m ∧
      topColor inner yc = u.rootColor := by
  intro u
  induction u with
  | nil => intro h; exact absurd rfl h
  | node l k sz c r ihl _ =>
      intro _ m hnrr hbh acc
      rw [noRedRed_node] at hnrr
      obtain ⟨himp, hln, hrn⟩ := hnrr
      rw [blackH_node] at hbh
      obtain ⟨m0, hlbh, hrbh, hm⟩ := hbh
      cases l with
      | nil =>
          rw [blackH_nil] at hlbh
          have hm0 : m0 = 0 := (Option.some_inj.1 hlbh).symm
          subst hm0
          refine ⟨k, sz, c, r, [], by simp [minSplit], hrn, hrbh,
            fun hr' => (himp hr').2, trivial, ?_, rfl⟩
          simp [pathBH]
          omega
      | node ll lk ls lc lr =>
          obtain ⟨yk, ys, yc, yr, inner0, h1, h2, h3, h4, h5, h6, h7⟩ :=
            ihl (by simp) m0 hln hlbh (.leftF k sz c r :: acc)
          refine ⟨yk, ys, yc, yr, inner0 ++ [.leftF k sz c r], ?_, h2, h3, h4, ?_, ?_, ?_⟩
          · rw [minSplit, h1, List.append_assoc]
            rfl
          · refine ctxOK_append inner0 [.leftF k sz c r] (bhinc yc) yc h5 ?_
            refine ⟨by simpa using hrn, ?_, ?_, trivial⟩
            · simp only [sib_leftF]
              rw [h6]
              exact hrbh
            · intro hr'
              simp only [color_leftF] at hr'
              obtain ⟨hlB, hrB⟩ := himp hr'
              exact ⟨by rw [h7]; simpa using hlB, hrB⟩
          · rw [pathBH_append]
            simp only [pathBH, color_leftF]
            omega
          · rw [topColor_append]
            rfl

lemma searchLoop_rb {key : Int} : ∀ (x : Tree) (p : Path) (n : Nat),
    x.noRedRed = true → x.blackH = some n → ctxOK p n x.rootColor →
    lastBlack p → (p = [] → x.rootColor = BLACK) →
    ∀ z path, searchLoop x key p = some (z, path) →
    ∃ m, z.noRedRed = true ∧ z.blackH = some m ∧ ctxOK path m z.rootColor ∧
      lastBlack path ∧ (path = [] → z.rootColor = BLACK) := by
  intro x
  induction x with
  | nil =>
      intro p n _ _ _ _ _ z path h
      simp [searchLoop] at h
  | node l k sz c r ihl ihr =>
      intro p n hnrr hbh hctx hlb h0 z path h
      rw [searchLoop] at h
      by_cases hkey : key ≠ k
      · rw [if_pos hkey] at h
        rw [noRedRed_node] at hnrr
        obtain ⟨himp, hln, hrn⟩ := hnrr
        rw [blackH_node] at hbh
        obtain ⟨m, hlbh, hrbh, hnm⟩ := hbh
        by_cases hlt : key < k
        · rw [if_pos hlt] at h
          refine ihl _ m hln hlbh ?_
            (lastBlack_cons (fun hp => by simpa using h0 hp) hlb) (by simp) z path h
          refine ⟨by simpa using hrn, by simpa using hrbh, ?_, ?_⟩
          · intro hr'
            simp only [color_leftF] at hr'
            exact ⟨(himp hr').1, by simpa using (himp hr').2⟩
          · simp only [color_leftF]
            rw [show m + bhinc c = n from by omega]
            exact hctx
        · rw [if_neg hlt] at h
          refine ihr _ m hrn hrbh ?_
            (lastBlack_cons (fun hp => by simpa using h0 hp) hlb) (by simp) z path h
          refine ⟨by simpa using hln, by simpa using hlbh, ?_, ?_⟩
          · intro hr'
            simp only [color_rightF] at hr'
            exact ⟨(himp hr').2, by simpa using (himp hr').1⟩
          · simp only [color_rightF]
            rw [show m + bhinc c = n from by omega]
            exact hctx
      · rw [if_neg hkey] at h
        have h' := Option.some_inj.1 h
        have h1 : Tree.node l k sz c r = z := congrArg Prod.fst h'
        have h2 : p = path := congrArg Prod.snd h'
        subst h1
        subst h2
        exact ⟨n, hnrr, hbh, hctx, hlb, h0⟩

lemma eraseNode_rb : ∀ (z : Tree) (path : Path) (m : Nat),
    z.noRedRed = true → z.blackH = some m → ctxOK path m z.rootColor →
    lastBlack path → (path = [] → z.rootColor = BLACK) →
    (eraseNode z path).rbInv = true := by
  intro z path m hnrr hbh hctx hlb h0
  cases z with
  | nil =>
      rw [eraseNode.eq_def]
      rw [blackH_nil] at hbh
      have hm : m = 0 := (Option.some_inj.1 hbh).symm
      subst hm
      have hres := plug_rb path .nil 0 hctx rfl rfl
      exact rbInv_intro (rootColor_plug_black hlb (fun _ => rfl)) hres.1
        (by rw [hres.2]; rfl)
  | node zl zk zs zc zr =>
      rw [noRedRed_node] at hnrr
      obtain ⟨himp, hzl_nrr, hzr_nrr⟩ := hnrr
      rw [blackH_node] at hbh
      obtain ⟨m0, hzl_bh, hzr_bh, hm⟩ := hbh
      subst hm
      rw [eraseNode.eq_def]
      cases zl with
      | nil =>
          rw [blackH_nil] at hzl_bh
          have hm0 : m0 = 0 := (Option.some_inj.1 hzl_bh).symm
          subst hm0
          by_cases hc : zc = BLACK
          · simp only [hc, if_true]
            refine fixup_erase_rb zr _ 0 (noRedRed_setBlack hzr_nrr) hzr_bh ?_
              (lastBlack_decPath _ hlb)
            have := ctxOK_weaken _ _ _ (ctxOK_decPath _ _ _ hctx)
            rwa [show (0 : Nat) + bhinc zc = 0 + 1 from by rw [hc]; rfl] at this
          · have hcR : zc = RED := bool_red_of_not_black hc
            simp only [hc, if_false]
            have hzrB : zr.rootColor = BLACK := (himp hcR).2
            have hres := plug_rb (decPath path) zr (0 + bhinc zc)
              (by rw [hzrB]
                  exact insCtx_black _ _ (ctxOK_weaken _ _ _ (ctxOK_decPath _ _ _ hctx)))
              hzr_nrr (by rw [hzr_bh, hcR]; rfl)
            exact rbInv_intro
              (rootColor_plug_black (lastBlack_decPath _ hlb) (fun _ => hzrB))
              hres.1 (by rw [hres.2]; rfl)
      | node l1 k1 s1 c1 r1 =>
          cases zr with
          | nil =>
              rw [blackH_nil] at hzr_bh
              have hm0 : m0 = 0 := (Option.some_inj.1 hzr_bh).symm
              subst hm0
              by_cases hc : zc = BLACK
              · simp only [hc, if_true]
                refine fixup_erase_rb _ _ 0 (noRedRed_setBlack hzl_nrr) hzl_bh ?_
                  (lastBlack_decPath _ hlb)
                have := ctxOK_weaken _ _ _ (ctxOK_decPath _ _ _ hctx)
                rwa [show (0 : Nat) + bhinc zc = 0 + 1 from by rw [hc]; rfl] at this
              · have hcR : zc = RED := bool_red_of_not_black hc
                simp only [hc, if_false]
                have hzlB : (Tree.node l1 k1 s1 c1 r1).rootColor = BLACK := (himp hcR).1
                have hres := plug_rb (decPath path) (Tree.node l1 k1 s1 c1 r1)
                  (0 + bhinc zc)
                  (by rw [hzlB]
                      exact insCtx_black _ _
                        (ctxOK_weaken _ _ _ (ctxOK_decPath _ _ _ hctx)))
                  hzl_nrr (by rw [hzl_bh, hcR]; rfl)
                exact rbInv_intro
                  (rootColor_plug_black (lastBlack_decPath _ hlb) (fun _ => hzlB))
                  hres.1 (by rw [hres.2]; rfl)
          | node l2 k2 s2 c2 r2 =>
              obtain ⟨yk, ys, yc, yr, inner, hms, hyr_nrr, hyr_bh, hyc_imp,
                hctx_inner, hsum, htop⟩ :=
                minSplit_rb (.node l2 k2 s2 c2 r2) (by simp) m0 hzr_nrr hzr_bh []
              rw [List.append_nil] at hms
              simp only [hms]
              cases inner with
              | nil =>
                  have hm0 : m0 = bhinc yc := by
                    rw [pathBH] at hsum
                    omega
                  have htop' : yc = c2 := by simpa using htop
                  by_cases hc : yc = BLACK
                  · simp only [hc, if_true]
                    refine fixup_erase_rb yr _ 0 (noRedRed_setBlack hyr_nrr) hyr_bh
                      ?_ ?_
                    · refine ⟨by simpa using hzl_nrr, ?_, ?_, ?_⟩
                      · simp only [sib_rightF]
                        rw [hzl_bh, hm0, hc]
                        rfl
                      · intro hr'
                        simp only [color_rightF] at hr'
                        simpa using (himp hr').1
                      · simp only [color_rightF]
                        have := ctxOK_decPath _ _ _ hctx
                        rwa [show m0 + bhinc zc = 0 + 1 + bhinc zc from by
                          rw [hm0, hc]; rfl] at this
                    · exact lastBlack_cons (fun hp => by
                        simpa using h0 (decPath_eq_nil.1 hp)) (lastBlack_decPath _ hlb)
                  · have hcR : yc = RED := bool_red_of_not_black hc
                    simp only [hc, if_false]
                    have hyrB : yr.rootColor = BLACK := hyc_imp hcR
                    have hm00 : m0 = 0 := by rw [hm0, hcR]; rfl
                    subst hm00
                    have hnrr2 : (Tree.node (Tree.node l1 k1 s1 c1 r1) yk
                        (ys + (Tree.node l1 k1 s1 c1 r1).size) zc yr).noRedRed = true := by
                      rw [noRedRed_node]
                      exact ⟨fun hr' => ⟨(himp hr').1, hyrB⟩, hzl_nrr, hyr_nrr⟩
                    have hbh2 : (Tree.node (Tree.node l1 k1 s1 c1 r1) yk
                        (ys + (Tree.node l1 k1 s1 c1 r1).size) zc yr).blackH
                          = some (0 + bhinc zc) := by
                      rw [blackH_node]
                      exact ⟨0, hzl_bh, hyr_bh, by omega⟩
                    have hres := plug_rb (decPath path) _ _
                      (by rw [rootColor_node]; exact ctxOK_decPath _ _ _ hctx)
                      hnrr2 hbh2
                    exact rbInv_intro
                      (rootColor_plug_black (lastBlack_decPath _ hlb)
                        (fun hp => by simpa using h0 (decPath_eq_nil.1 hp)))
                      hres.1 (by rw [hres.2]; rfl)
              | cons f inner2 =>
                  have hc2 : topColor (f :: inner2) yc = c2 := by simpa using htop
                  by_cases hc : yc = BLACK
                  · simp only [hc, if_true]
                    refine fixup_erase_rb yr _ 0 (noRedRed_setBlack hyr_nrr) hyr_bh
                      ?_ ?_
                    · refine insCtx_append_ne (decPath (f :: inner2)) _ (0 + 1) yc ?_ ?_ ?_
                      · cases f <;> simp [decPath]
                      · refine insCtx_decPath _ _ (ctxOK_weaken _ _ BLACK ?_)
                        rw [hc, bhinc_black] at hctx_inner
                        exact hctx_inner
                      · rw [pathBH_decPath, topColor_decPath]
                        rw [show (0 : Nat) + 1 + pathBH (f :: inner2) = m0 from by
                          rw [← hsum, hc]; simp]
                        rw [hc2]
                        refine ⟨by simpa using hzl_nrr, by simpa using hzl_bh, ?_, ?_⟩
                        · intro hr'
                          simp only [color_rightF] at hr'
                          obtain ⟨hzlB, hzrB⟩ := himp hr'
                          exact ⟨by simpa using hzrB, by simpa using hzlB⟩
                        · simp only [color_rightF]
                          exact ctxOK_decPath _ _ _ hctx
                    · refine lastBlack_append (by simp) ?_
                      exact lastBlack_cons (fun hp => by
                        simpa using h0 (decPath_eq_nil.1 hp)) (lastBlack_decPath _ hlb)
                  · have hcR : yc = RED := bool_red_of_not_black hc
                    simp only [hc, if_false]
                    have hyrB : yr.rootColor = BLACK := hyc_imp hcR
                    have hm0 : pathBH (f :: inner2) = m0 := by
                      rw [hcR, bhinc_red] at hsum
                      omega
                    have hresR := plug_rb (decPath (f :: inner2)) yr 0
                      (by rw [hyrB]
                          refine insCtx_black _ _ (insCtx_decPath _ _
                            (ctxOK_weaken _ _ RED ?_))
                          rw [hcR, bhinc_red] at hctx_inner
                          exact hctx_inner)
                      hyr_nrr hyr_bh
                    have hnewR_bh : (plug yr (decPath (f :: inner2))).blackH
                        = some m0 := by
                      rw [hresR.2, pathBH_decPath, hm0]
                      simp
                    have hnewR_col : (plug yr (decPath (f :: inner2))).rootColor = c2 := by
                      rw [rootColor_plug, topColor_decPath]
                      rw [show yr.rootColor = BLACK from hyrB]
                      rw [← hc2]
                      exact topColor_ne_nil _ _ _ (by simp)
                    have hnrr2 : (Tree.node (Tree.node l1 k1 s1 c1 r1) yk
                        (ys - yr.size + (plug yr (decPath (f :: inner2))).size +
                          (Tree.node l1 k1 s1 c1 r1).size) zc
                        (plug yr (decPath (f :: inner2)))).noRedRed = true := by
                      rw [noRedRed_node]
                      refine ⟨fun hr' => ⟨(himp hr').1, ?_⟩, hzl_nrr, hresR.1⟩
                      rw [hnewR_col]
                      simpa using (himp hr').2
                    have hbh2 : (Tree.node (Tree.node l1 k1 s1 c1 r1) yk
                        (ys - yr.size + (plug yr (decPath (f :: inner2))).size +
                          (Tree.node l1 k1 s1 c1 r1).size) zc
                        (plug yr (decPath (f :: inner2)))).blackH
                          = some (m0 + bhinc zc) := by
                      rw [blackH_node]
                      exact ⟨m0, hzl_bh, hnewR_bh, rfl⟩
                    have hres := plug_rb (decPath path) _ _
                      (by rw [rootColor_node]; exact ctxOK_decPath _ _ _ hctx)
                      hnrr2 hbh2
                    exact rbInv_intro
                      (rootColor_plug_black (lastBlack_decPath _ hlb)
                        (fun hp => by simpa using h0 (decPath_eq_nil.1 hp)))
                      hres.1 (by rw [hres.2]; rfl)

lemma erase_rbInv {key : Int} {t : Tree} (h : t.rbInv = true) :
    ((erase t key).1).rbInv = true := by
  have h' := h
  simp only [rbInv, Bool.and_eq_true, decide_eq_true_eq] at h'
  obtain ⟨⟨hr, hn⟩, hs⟩ := h'
  obtain ⟨n, hbh⟩ := Option.isSome_iff_exists.1 hs
  rw [erase]
  cases hsl : searchLoop t key [] with
  | none => exact h
  | some zp =>
      obtain ⟨z, path⟩ := zp
      obtain ⟨m, hz_nrr, hz_bh, hz_ctx, hz_lb, hz_0⟩ :=
        searchLoop_rb t [] n hn hbh (by rw [hr]; trivial) trivial (fun _ => hr)
          z path hsl
      exact eraseNode_rb z path m hz_nrr hz_bh hz_ctx hz_lb hz_0

lemma reachable_rbInv {t : Tree} (h : Reachable t) : t.rbInv = true := by
  induction h with
  | empty => decide
  | ins t k _ ih => exact insert_rbInv ih
  | ers t k _ ih => exact erase_rbInv ih

/-- C3: after any interleaving of `insert` and `erase` on an initially
empty set, every node's `size` field equals `1 + left.size + right.size`
(the sentinel contributing 0), and the red-black coloring invariant
holds: the root (and the sentinel) is BLACK, no RED node has a RED
child, and every root-to-sentinel path carries the same number of BLACK
nodes. -/
theorem reachable_invariants (t : Tree) (h : Reachable t) :
    t.sizeOk = true ∧ t.rbInv = true :=
  ⟨(reachable_sizeOk_bst h).1, reachable_rbInv h⟩

/-- Witness for C3 on the tree obtained by inserting 2, 1, 3 and erasing
2 (forcing a two-children erase and a fixup). -/
theorem reachable_invariants_witness :
    Reachable (erase (insert (insert (insert Tree.nil 2).1 1).1 3).1 2).1 ∧
    ((erase (insert (insert (insert Tree.nil 2).1 1).1 3).1 2).1.sizeOk = true ∧
      (erase (insert (insert (insert Tree.nil 2).1 1).1 3).1 2).1.rbInv = true) :=
  ⟨Reachable.ers _ 2 (Reachable.ins _ 3 (Reachable.ins _ 1
      (Reachable.ins _ 2 Reachable.empty))),
    reachable_invariants _ (Reachable.ers _ 2 (Reachable.ins _ 3 (Reachable.ins _ 1
      (Reachable.ins _ 2 Reachable.empty))))⟩

end OrderedSet
